import Mathlib

/-!
# Order service: LRU shard, shard router, ingestion loop and read path

A shallow embedding of `internal/cache`, `internal/broker`, the read queries
of `internal/storage` and the handler of `internal/server` of the order
service, followed by the properties proved about it.

Conventions of the embedding

* A Go `string` is its byte sequence (`GoString`).
* A Go `int` is an `Int`; `time.Time` is an `Int` instant.
* A `*Node` is an address into the node memory owned by the cache (`Ptr`);
  the nil pointer is `none`.  Dereferencing nil (a Go panic) makes the
  operation return `none`.
* The mutex of a shard is not modelled: every operation holds it from its
  first to its last statement, so operations on one shard run one at a time.
-/

namespace OrderService

/-! ## Data model (`internal/model/model.go`) -/

/-- A Go string, as its bytes. -/
abbrev GoString := List (Fin 256)

/-- Go `model.Delivery`. -/
structure Delivery where
  OrderUID : GoString
  Name : GoString
  Phone : GoString
  Zip : GoString
  City : GoString
  Address : GoString
  Region : GoString
  Email : GoString
  deriving DecidableEq, Repr

/-- Go `model.Payment`. -/
structure Payment where
  OrderUID : GoString
  Transaction : GoString
  RequestID : GoString
  Currency : GoString
  Provider : GoString
  Amount : Int
  PaymentDt : Int
  Bank : GoString
  DeliveryCost : Int
  GoodsTotal : Int
  CustomFee : Int
  deriving DecidableEq, Repr

/-- Go `model.Item`. -/
structure Item where
  OrderUID : GoString
  ChrtID : Int
  TrackNumber : GoString
  Price : Int
  Rid : GoString
  Name : GoString
  Sale : Int
  Size : GoString
  TotalPrice : Int
  NmID : Int
  Brand : GoString
  Status : Int
  deriving DecidableEq, Repr

/-- Go `model.Order`. -/
structure Order where
  OrderUID : GoString
  TrackNumber : GoString
  Entry : GoString
  Delivery : Delivery
  Payment : Payment
  Items : List Item
  Locale : GoString
  InternalSignature : GoString
  CustomerID : GoString
  DeliveryService : GoString
  Shardkey : GoString
  SmID : Int
  DateCreated : Int
  OofShard : GoString
  deriving DecidableEq, Repr

/-- The zero value `model.Delivery{}`. -/
def Delivery.zero : Delivery :=
  ⟨[], [], [], [], [], [], [], []⟩

/-- The zero value `model.Payment{}`. -/
def Payment.zero : Payment :=
  ⟨[], [], [], [], [], 0, 0, [], 0, 0, 0⟩

/-- The zero value `model.Order{}`. -/
def Order.zero : Order :=
  ⟨[], [], [], Delivery.zero, Payment.zero, [], [], [], [], [], [], 0, 0, []⟩

/-! ## Go maps -/

/-- A Go `map[K]V`: a finite association, at most one entry per key. -/
abbrev GoMap (K V : Type) := List (K × V)

/-- The lookup `v, ok := m[k]`. -/
def GoMap.get {K V : Type} [DecidableEq K] : GoMap K V → K → Option V
  | [], _ => none
  | (k', v) :: m, k => if k' = k then some v else GoMap.get m k

/-- The builtin `delete(m, k)`. -/
def GoMap.delete {K V : Type} [DecidableEq K] (m : GoMap K V) (k : K) : GoMap K V :=
  List.filter (fun e => decide (e.1 ≠ k)) m

/-- The assignment `m[k] = v`. -/
def GoMap.set {K V : Type} [DecidableEq K] (m : GoMap K V) (k : K) (v : V) : GoMap K V :=
  (k, v) :: GoMap.delete m k

/-- The builtin `len(m)`. -/
def GoMap.len {K V : Type} (m : GoMap K V) : Nat :=
  List.length m

/-! ## LRU shard (`internal/cache/lru_cache.go`) -/

/-- A non-nil `*Node`: an address in the node memory of the cache. -/
abbrev Ptr := Nat

/-- Go `cache.Node`, an element of the doubly linked list. -/
structure Node where
  prev : Option Ptr
  next : Option Ptr
  key : GoString
  value : Order
  deriving DecidableEq, Repr

/-- The zero value `Node{}`. -/
def Node.zero : Node :=
  ⟨none, none, [], Order.zero⟩

/-- The node memory: the nodes allocated so far, by address. -/
abbrev Mem := List Node

/-- Read of `*p`. -/
def Mem.load (m : Mem) (p : Ptr) : Option Node :=
  m[p]?

/-- Write of `*p`; fails on an address that was never allocated. -/
def Mem.store (m : Mem) (p : Ptr) (n : Node) : Option Mem :=
  if p < m.length then some (List.set m p n) else none

/-- Allocation `&Node{...}`: the new address and the grown memory. -/
def Mem.alloc (m : Mem) (n : Node) : Ptr × Mem :=
  (m.length, m ++ [n])

/-- The field write `p.next = q`. -/
def Mem.setNext (m : Mem) (p : Ptr) (q : Option Ptr) : Option Mem :=
  match m.load p with
  | some n => m.store p { n with next := q }
  | none => none

/-- The field write `p.prev = q`. -/
def Mem.setPrev (m : Mem) (p : Ptr) (q : Option Ptr) : Option Mem :=
  match m.load p with
  | some n => m.store p { n with prev := q }
  | none => none

/-- The field write `p.value = v`. -/
def Mem.setValue (m : Mem) (p : Ptr) (v : Order) : Option Mem :=
  match m.load p with
  | some n => m.store p { n with value := v }
  | none => none

/-- Go `cache.LRUCache` (without its mutex) together with the memory that holds
its nodes. `head` is the sentinel on the oldest side, `tail` on the newest. -/
structure LRUCache where
  capacity : Int
  items : GoMap GoString Ptr
  head : Ptr
  tail : Ptr
  mem : Mem
  deriving DecidableEq, Repr

/-- Go `NewLRUCache`: two sentinels linked to each other and an empty map (the
size hint given to `make` does not change what the map holds). The capacity
is stored as given. -/
def NewLRUCache (capacity : Int) : LRUCache :=
  { capacity := capacity
    items := []
    head := 0
    tail := 1
    mem := [{ Node.zero with next := some 1 }, { Node.zero with prev := some 0 }] }

/-- Go `(*LRUCache).addToTail`. -/
def LRUCache.addToTail (c : LRUCache) (node : Ptr) : Option LRUCache := do
  let t ← c.mem.load c.tail
  let prev ← t.prev
  let m1 ← c.mem.setNext prev (some node)
  let m2 ← m1.setPrev node (some prev)
  let m3 ← m2.setNext node (some c.tail)
  let m4 ← m3.setPrev c.tail (some node)
  pure { c with mem := m4 }

/-- Go `(*LRUCache).removeNode`. -/
def LRUCache.removeNode (c : LRUCache) (node : Ptr) : Option LRUCache := do
  let n ← c.mem.load node
  let p ← n.prev
  let m1 ← c.mem.setNext p n.next
  let n1 ← m1.load node
  let q ← n1.next
  let m2 ← m1.setPrev q n1.prev
  pure { c with mem := m2 }

/-- Go `(*LRUCache).moveToTail`. -/
def LRUCache.moveToTail (c : LRUCache) (node : Ptr) : Option LRUCache := do
  let c1 ← c.removeNode node
  c1.addToTail node

/-- Go `(*LRUCache).evictOldest`. -/
def LRUCache.evictOldest (c : LRUCache) : Option LRUCache := do
  let h ← c.mem.load c.head
  let oldest ← h.next
  if oldest = c.tail then
    pure c
  else do
    let c1 ← c.removeNode oldest
    let o ← c1.mem.load oldest
    pure { c1 with items := GoMap.delete c1.items o.key }

/-- Go `(*LRUCache).Set`. -/
def LRUCache.Set (c : LRUCache) (uid : GoString) (order : Order) : Option LRUCache :=
  match GoMap.get c.items uid with
  | some node => do
      let m ← c.mem.setValue node order
      LRUCache.moveToTail { c with mem := m } node
  | none => do
      let c1 ← if (GoMap.len c.items : Int) ≥ c.capacity then c.evictOldest else pure c
      let (newNode, m) := c1.mem.alloc { Node.zero with key := uid, value := order }
      let c2 := { c1 with mem := m, items := GoMap.set c1.items uid newNode }
      c2.addToTail newNode

/-- Go `(*LRUCache).Get`: the new state, the order and the `found` flag. -/
def LRUCache.Get (c : LRUCache) (uid : GoString) : Option (LRUCache × Order × Bool) :=
  match GoMap.get c.items uid with
  | some node => do
      let c1 ← c.moveToTail node
      let n ← c1.mem.load node
      pure (c1, n.value, true)
  | none => pure (c, Order.zero, false)

/-! ## Reading the linked list of a shard

The invariant that ties the node memory, the two sentinels and the `items` map
of a shard to a list of entries in recency order, and the effect of `Set` and
`Get` on that list. -/

/-- The field read `p.next` (`none` for nil and for an invalid address). -/
def Mem.nextOf (m : Mem) (p : Ptr) : Option Ptr := (m.load p).bind Node.next

/-- The field read `p.prev` (`none` for nil and for an invalid address). -/
def Mem.prevOf (m : Mem) (p : Ptr) : Option Ptr := (m.load p).bind Node.prev

/-- The fields `p.key` and `p.value` of an allocated node. -/
def Mem.kvOf (m : Mem) (p : Ptr) : Option (GoString × Order) :=
  (m.load p).map (fun n => (n.key, n.value))

/-- Node `b` follows node `a` in the list: `a.next == b` and `b.prev == a`. -/
def Linked (m : Mem) (a b : Ptr) : Prop :=
  m.nextOf a = some b ∧ m.prevOf b = some a

/-- The nodes `ps` are exactly the list between the sentinels `h` and `t`,
oldest first, and no node occurs twice. -/
structure DLL (m : Mem) (h t : Ptr) (ps : List Ptr) : Prop where
  chain : List.Chain' (Linked m) (h :: ps ++ [t])
  nodup : (h :: ps ++ [t]).Nodup

/-- A stored entry as the invariant sees it: address, key and value. -/
abbrev Entry := Ptr × GoString × Order

/-- The contents of a shard in recency order, oldest first. -/
abbrev Contents := List (GoString × Order)

/-- The representation invariant of a shard: `l` lists its entries oldest
first, the linked list runs through their nodes, every node carries its key
and value, keys are distinct and `items` maps each key to its node. -/
structure LRUCache.Repr (c : LRUCache) (l : List Entry) : Prop where
  dll : DLL c.mem c.head c.tail (l.map Prod.fst)
  data : ∀ e ∈ l, c.mem.kvOf e.1 = some e.2
  keys : (l.map (fun e => e.2.1)).Nodup
  items : List.Perm c.items (l.map (fun e => (e.2.1, e.1)))

/-- What `Set` does to the contents. -/
def Contents.set (cap : Int) (l : Contents) (k : GoString) (v : Order) : Contents :=
  match GoMap.get l k with
  | some _ => GoMap.delete l k ++ [(k, v)]
  | none => (if (l.length : Int) ≥ cap then l.tail else l) ++ [(k, v)]

/-- What `Get` does to the contents, and what it returns. -/
def Contents.get (l : Contents) (k : GoString) : Contents × Order × Bool :=
  match GoMap.get l k with
  | some v => (GoMap.delete l k ++ [(k, v)], v, true)
  | none => (l, Order.zero, false)

/-! ## Runs of a shard -/

/-- A call made on a shard. -/
inductive Call where
  | get (uid : GoString)
  | set (uid : GoString) (order : Order)
  deriving DecidableEq, Repr

/-- The state after one call (`none` if the call panics). -/
def LRUCache.call (c : LRUCache) : Call → Option LRUCache
  | Call.get uid => (c.Get uid).map Prod.fst
  | Call.set uid order => c.Set uid order

/-- The key a call touches on state `c`: `Set` touches its key, `Get` touches
its key when it is a hit. -/
def LRUCache.touched (c : LRUCache) : Call → Option GoString
  | Call.get uid => if (GoMap.get c.items uid).isSome then some uid else none
  | Call.set uid _ => some uid

/-- Runs the calls in order, starting from `c` and the touch log `log`; gives
the final state and the keys touched so far, most recent touch first. -/
def LRUCache.history (c : LRUCache) (log : List GoString) :
    List Call → Option (LRUCache × List GoString)
  | [] => some (c, log)
  | x :: xs =>
    match c.call x with
    | some c' => LRUCache.history c' ((c.touched x).toList ++ log) xs
    | none => none

/-- Runs the calls in order, starting from `c`. -/
def LRUCache.run (c : LRUCache) (calls : List Call) : Option LRUCache :=
  (c.history [] calls).map Prod.fst

/-- The number of touches made after the last touch of `k`, in a log that has
the most recent touch first (the length of the log if `k` was never touched). -/
def touchAge : List GoString → GoString → Nat
  | [], _ => 0
  | x :: xs, k => if x = k then 0 else touchAge xs k + 1

/-- Key `k` is stored: `_, exists := c.items[k]`. -/
def LRUCache.stored (c : LRUCache) (k : GoString) : Prop :=
  (GoMap.get c.items k).isSome = true

instance LRUCache.decidableStored (c : LRUCache) (k : GoString) : Decidable (c.stored k) :=
  inferInstanceAs (Decidable ((GoMap.get c.items k).isSome = true))

/-- The value stored under `k`, read without touching the recency order:
`c.items[k].value`. -/
def LRUCache.peek (c : LRUCache) (k : GoString) : Option Order :=
  (GoMap.get c.items k).bind (fun p => (c.mem.load p).map Node.value)

/-- The key of the most recently used entry: the key of `c.tail.prev`, unless
that node is the `head` sentinel (the shard is empty). -/
def LRUCache.newest (c : LRUCache) : Option GoString :=
  (c.mem.prevOf c.tail).bind (fun p => if p = c.head then none else (c.mem.load p).map Node.key)

/-- The key of the least recently used entry: the key of `c.head.next`, unless
that node is the `tail` sentinel (the shard is empty). -/
def LRUCache.oldest (c : LRUCache) : Option GoString :=
  (c.mem.nextOf c.head).bind (fun p => if p = c.tail then none else (c.mem.load p).map Node.key)

/-- The contents after one call. -/
def Contents.call (cap : Int) (l : Contents) : Call → Contents
  | Call.get uid => (Contents.get l uid).1
  | Call.set uid order => Contents.set cap l uid order

/-- The key a call touches on contents `l`. -/
def Contents.touched (l : Contents) : Call → Option GoString
  | Call.get uid => if (GoMap.get l uid).isSome then some uid else none
  | Call.set uid _ => some uid

/-- The contents and the touch log after the calls. -/
def Contents.history (cap : Int) (l : Contents) (log : List GoString) :
    List Call → Contents × List GoString
  | [] => (l, log)
  | x :: xs => Contents.history cap (Contents.call cap l x) ((Contents.touched l x).toList ++ log) xs

/-- The invariant of the contents along a run that produced the touch log
`log`: the population is within the capacity, keys are distinct, and the
entries are ordered by their last touch, the oldest first. -/
structure Contents.Inv (cap : Int) (l : Contents) (log : List GoString) : Prop where
  bound : (l.length : Int) ≤ cap
  keys : (l.map Prod.fst).Nodup
  order : (l.map Prod.fst).Pairwise (fun a b => touchAge log b < touchAge log a)

/-- The keys met when following `next` from node `p` up to the `tail`
sentinel, for at most `fuel` nodes. -/
def LRUCache.walk (c : LRUCache) : Nat → Ptr → List GoString
  | 0, _ => []
  | fuel + 1, p =>
    if p = c.tail then []
    else
      match c.mem.load p with
      | none => []
      | some n =>
        match n.next with
        | none => [n.key]
        | some q => n.key :: LRUCache.walk c fuel q

/-- The stored keys in recency order, least recently used first: the keys of
the nodes from `c.head.next` up to `c.tail`. -/
def LRUCache.keysOldestFirst (c : LRUCache) : List GoString :=
  match c.mem.nextOf c.head with
  | none => []
  | some p => c.walk c.mem.length p

/-- The value given by the last `Set` for key `k` among the calls, if any. -/
def lastSet (calls : List Call) (k : GoString) : Option Order :=
  calls.foldl
    (fun acc x =>
      match x with
      | Call.get _ => acc
      | Call.set uid order => if uid = k then some order else acc)
    none

/-- Runs the calls in order, starting from `c`, and collects what each `Get`
returned (`none` if a call panics). -/
def LRUCache.results (c : LRUCache) : List Call → Option (List (Order × Bool))
  | [] => some []
  | Call.get uid :: xs =>
    match c.Get uid with
    | none => none
    | some (c1, r) =>
      match LRUCache.results c1 xs with
      | none => none
      | some rs => some (r :: rs)
  | Call.set uid order :: xs =>
    match c.Set uid order with
    | none => none
    | some c1 => LRUCache.results c1 xs

/-- What the `Get` calls among the calls return, on contents `l`. -/
def Contents.results (cap : Int) (l : Contents) : List Call → List (Order × Bool)
  | [] => []
  | Call.get uid :: xs =>
    (Contents.get l uid).2 :: Contents.results cap (Contents.get l uid).1 xs
  | Call.set uid order :: xs => Contents.results cap (Contents.set cap l uid order) xs

/-! ## Ingestion loop (`internal/broker/kafka_consumer.go`)

The collaborators of the consumer (the Kafka broker behind the reader, the
store, the validator and the JSON decoder) are outside the repository, so the
loop is embedded over an explicit world `W` that they read and change. Log
lines and metric counters do not influence the control flow and are left out.
-/

/-- Equality of Go results `(T, error)` is decidable. -/
instance exceptDecEq {ε α : Type} [DecidableEq ε] [DecidableEq α] : DecidableEq (Except ε α)
  | Except.ok a, Except.ok b =>
    if h : a = b then isTrue (by rw [h]) else isFalse (by intro e; cases e; exact h rfl)
  | Except.error a, Except.error b =>
    if h : a = b then isTrue (by rw [h]) else isFalse (by intro e; cases e; exact h rfl)
  | Except.ok _, Except.error _ => isFalse (by intro e; cases e)
  | Except.error _, Except.ok _ => isFalse (by intro e; cases e)

/-- A Go `error` value that is not nil, reduced to what the loop inspects. -/
structure GoError where
  /-- The result of `errors.Is(err, context.Canceled)`. -/
  isContextCanceled : Bool
  /-- The `Code` of the `*pgconn.PgError` that `errors.As` finds in the chain,
  if it finds one. -/
  pgCode : Option GoString
  deriving DecidableEq, Repr

/-- The PostgreSQL code `"23505"` (unique_violation), as bytes. -/
def uniqueViolation : GoString := [50, 51, 53, 48, 53]

/-- The test `errors.As(err, &pgErr) && pgErr.Code == "23505"`. -/
def GoError.isDuplicateKey (err : GoError) : Bool :=
  decide (err.pgCode = some uniqueViolation)

/-- A `kafka.Message`: its position and its payload. -/
structure Message where
  Topic : GoString
  Partition : Int
  Offset : Int
  Key : GoString
  Value : GoString
  deriving DecidableEq, Repr

/-- The interface `cache.OrderCache` over a cache state `σ`; a call that
panics returns `none`. -/
structure OrderCache (σ : Type) where
  Set : σ → GoString → Order → Option σ
  Get : σ → GoString → Option (σ × Order × Bool)

/-- A single LRU shard as an `OrderCache`. -/
def LRUCache.asOrderCache : OrderCache LRUCache :=
  { Set := LRUCache.Set, Get := LRUCache.Get }

/-- Go `kafka.Reader` of the library `github.com/segmentio/kafka-go`, reduced to
what the loop uses. The library is not part of the repository: the two calls
that reach the broker are taken as they are, acting on the world. -/
structure kafka.Reader (W : Type) where
  /-- The field `GroupID` of the `kafka.ReaderConfig` the reader was built from. -/
  GroupID : GoString
  /-- `r.FetchMessage(ctx)`: the next message, whose offset is not committed. -/
  FetchMessage : W → W × Except GoError Message
  /-- `r.CommitMessages(ctx, msg)`: commits the offset of `msg` for the group. -/
  CommitMessages : W → Message → W × Option GoError

/-- Go `(*kafka.Reader).useConsumerGroup`: `r.config.GroupID != ""`. -/
def kafka.Reader.useConsumerGroup {W : Type} (r : kafka.Reader W) : Bool :=
  decide (r.GroupID ≠ [])

/-- Go `(*kafka.Reader).ReadMessage` of the library, as the library defines and
documents it: it fetches the next message and, when the reader has a consumer
group, commits the offset of that message itself before it returns it; an
error of either call is returned, wrapped with `%w`, in place of the message. -/
def kafka.Reader.ReadMessage {W : Type} (r : kafka.Reader W) (w : W) :
    W × Except GoError Message :=
  match r.FetchMessage w with
  | (w1, Except.error err) => (w1, Except.error err)
  | (w1, Except.ok m) =>
    if r.useConsumerGroup then
      match r.CommitMessages w1 m with
      | (w2, some err) => (w2, Except.error err)
      | (w2, none) => (w2, Except.ok m)
    else (w1, Except.ok m)

/-- Go `broker.MessageConsumer`: the reader and the other collaborators of the
loop, acting on a world `W`, and the cache. `onCriticalError` is the callback
that `StartConsuming` receives. -/
structure MessageConsumer (W σ : Type) where
  /-- The field `Reader`. -/
  Reader : kafka.Reader W
  /-- `json.Unmarshal(msg.Value, &order)` on a zero `order`. -/
  Unmarshal : GoString → Except GoError Order
  /-- `mc.validator.Struct(order)`. -/
  Struct : Order → Option GoError
  /-- `mc.db.SaveOrder(ctx, order)`. -/
  SaveOrder : W → Order → W × Option GoError
  /-- The cache behind `mc.cache`. -/
  cache : OrderCache σ
  /-- The callback `onCriticalError()`. -/
  onCriticalError : W → W

/-- The `GroupID` that `NewMessageConsumer` gives its reader,
`"order-service-group"`, as bytes. -/
def orderServiceGroup : GoString :=
  [111, 114, 100, 101, 114, 45, 115, 101, 114, 118, 105, 99, 101, 45, 103, 114, 111, 117, 112]

/-- Go `NewMessageConsumer`: the consumer over a reader built with the group
`"order-service-group"`. `fetch` and `commit` are the two calls of that reader
that reach the broker. -/
def NewMessageConsumer {W σ : Type} (fetch : W → W × Except GoError Message)
    (commit : W → Message → W × Option GoError) (Unmarshal : GoString → Except GoError Order)
    (Struct : Order → Option GoError) (SaveOrder : W → Order → W × Option GoError)
    (cache : OrderCache σ) (onCriticalError : W → W) : MessageConsumer W σ :=
  { Reader := { GroupID := orderServiceGroup, FetchMessage := fetch, CommitMessages := commit }
    Unmarshal := Unmarshal
    Struct := Struct
    SaveOrder := SaveOrder
    cache := cache
    onCriticalError := onCriticalError }

/-- A call that the body of the loop makes, with what the call returned:
`read` is `mc.Reader.ReadMessage`, `commit` is `mc.Reader.CommitMessages`. What
a call does inside its collaborator, such as the commit that `ReadMessage`
makes, is not an event of the loop; it shows in the world. -/
inductive Event where
  | read (result : Except GoError Message)
  | commit (msg : Message) (err : Option GoError)
  | save (order : Order) (err : Option GoError)
  | cacheSet (uid : GoString) (order : Order)
  | critical
  deriving DecidableEq, Repr

/-- How one pass through the loop body ends: `continue` (or the end of the
body), or `break`. -/
inductive Flow where
  | next
  | stop
  deriving DecidableEq, Repr

/-- The state the loop works on: the world of the collaborators and the cache. -/
structure ConsumerState (W σ : Type) where
  world : W
  cache : σ

/-- One pass through the body of the `for` loop of `StartConsuming`: the new
state, the calls made in order, and how the pass ends. -/
def MessageConsumer.pass {W σ : Type} (mc : MessageConsumer W σ) (s : ConsumerState W σ) :
    Option (ConsumerState W σ × List Event × Flow) :=
  match mc.Reader.ReadMessage s.world with
  | (w1, Except.error err) =>
    if err.isContextCanceled then
      some ({ s with world := w1 }, [Event.read (Except.error err)], Flow.stop)
    else
      some ({ s with world := w1 }, [Event.read (Except.error err)], Flow.next)
  | (w1, Except.ok msg) =>
    match mc.Unmarshal msg.Value with
    | Except.error _ =>
      match mc.Reader.CommitMessages w1 msg with
      | (w2, e) =>
        some ({ s with world := w2 }, [Event.read (Except.ok msg), Event.commit msg e], Flow.next)
    | Except.ok order =>
      match mc.Struct order with
      | some _ =>
        match mc.Reader.CommitMessages w1 msg with
        | (w2, e) =>
          some ({ s with world := w2 }, [Event.read (Except.ok msg), Event.commit msg e],
            Flow.next)
      | none =>
        match mc.SaveOrder w1 order with
        | (w2, some err) =>
          if err.isDuplicateKey then
            match mc.Reader.CommitMessages w2 msg with
            | (w3, some e) =>
              some ({ s with world := mc.onCriticalError w3 },
                [Event.read (Except.ok msg), Event.save order (some err),
                  Event.commit msg (some e), Event.critical], Flow.stop)
            | (w3, none) =>
              some ({ s with world := w3 },
                [Event.read (Except.ok msg), Event.save order (some err),
                  Event.commit msg none], Flow.next)
          else
            some ({ s with world := mc.onCriticalError w2 },
              [Event.read (Except.ok msg), Event.save order (some err), Event.critical],
              Flow.stop)
        | (w2, none) =>
          match mc.cache.Set s.cache order.OrderUID order with
          | none => none
          | some cache1 =>
            match mc.Reader.CommitMessages w2 msg with
            | (w3, some e) =>
              some ({ world := mc.onCriticalError w3, cache := cache1 },
                [Event.read (Except.ok msg), Event.save order none,
                  Event.cacheSet order.OrderUID order, Event.commit msg (some e),
                  Event.critical], Flow.stop)
            | (w3, none) =>
              some ({ world := w3, cache := cache1 },
                [Event.read (Except.ok msg), Event.save order none,
                  Event.cacheSet order.OrderUID order, Event.commit msg none], Flow.next)

/-- The record of one pass of the loop: the state before it, the calls it
made in order, how it ended, and the state after it. -/
structure PassRecord (W σ : Type) where
  before : ConsumerState W σ
  events : List Event
  flow : Flow
  after : ConsumerState W σ

/-- Go `(*MessageConsumer).StartConsuming`, run for at most `fuel` passes of
its `for` loop, from state `s`: the record of every pass made, in order. The
loop has ended exactly when the last pass ended with `Flow.stop`; `none`
means that a cache call panicked. -/
def MessageConsumer.StartConsuming {W σ : Type} (mc : MessageConsumer W σ) :
    Nat → ConsumerState W σ → Option (List (PassRecord W σ))
  | 0, _ => some []
  | fuel + 1, s =>
    match mc.pass s with
    | none => none
    | some (s1, evs, Flow.stop) => some [⟨s, evs, Flow.stop, s1⟩]
    | some (s1, evs, Flow.next) =>
      match MessageConsumer.StartConsuming mc fuel s1 with
      | none => none
      | some passes => some (⟨s, evs, Flow.next, s1⟩ :: passes)

/-- The possible passes of the loop, one for each way through the loop body:
the state before, the calls made with what each returned on the world the
call before it left, how the pass ends, and the state after. -/
inductive MessageConsumer.PassShape {W σ : Type} (mc : MessageConsumer W σ) :
    ConsumerState W σ → List Event → Flow → ConsumerState W σ → Prop where
  | canceled (s : ConsumerState W σ) (w1 : W) (err : GoError)
      (hread : mc.Reader.ReadMessage s.world = (w1, Except.error err))
      (h : err.isContextCanceled = true) :
      PassShape mc s [Event.read (Except.error err)] Flow.stop { s with world := w1 }
  | readError (s : ConsumerState W σ) (w1 : W) (err : GoError)
      (hread : mc.Reader.ReadMessage s.world = (w1, Except.error err))
      (h : err.isContextCanceled = false) :
      PassShape mc s [Event.read (Except.error err)] Flow.next { s with world := w1 }
  | undecodable (s : ConsumerState W σ) (w1 w2 : W) (msg : Message) (derr : GoError)
      (e : Option GoError) (hread : mc.Reader.ReadMessage s.world = (w1, Except.ok msg))
      (hd : mc.Unmarshal msg.Value = Except.error derr)
      (hcommit : mc.Reader.CommitMessages w1 msg = (w2, e)) :
      PassShape mc s [Event.read (Except.ok msg), Event.commit msg e] Flow.next
        { s with world := w2 }
  | invalid (s : ConsumerState W σ) (w1 w2 : W) (msg : Message) (order : Order)
      (verr : GoError) (e : Option GoError)
      (hread : mc.Reader.ReadMessage s.world = (w1, Except.ok msg))
      (hd : mc.Unmarshal msg.Value = Except.ok order) (hv : mc.Struct order = some verr)
      (hcommit : mc.Reader.CommitMessages w1 msg = (w2, e)) :
      PassShape mc s [Event.read (Except.ok msg), Event.commit msg e] Flow.next
        { s with world := w2 }
  | duplicate (s : ConsumerState W σ) (w1 w2 w3 : W) (msg : Message) (order : Order)
      (err : GoError) (hread : mc.Reader.ReadMessage s.world = (w1, Except.ok msg))
      (hd : mc.Unmarshal msg.Value = Except.ok order) (hv : mc.Struct order = none)
      (hsave : mc.SaveOrder w1 order = (w2, some err)) (hdup : err.isDuplicateKey = true)
      (hcommit : mc.Reader.CommitMessages w2 msg = (w3, none)) :
      PassShape mc s
        [Event.read (Except.ok msg), Event.save order (some err), Event.commit msg none]
        Flow.next { s with world := w3 }
  | duplicateCommitFailed (s : ConsumerState W σ) (w1 w2 w3 : W) (msg : Message)
      (order : Order) (err e : GoError)
      (hread : mc.Reader.ReadMessage s.world = (w1, Except.ok msg))
      (hd : mc.Unmarshal msg.Value = Except.ok order) (hv : mc.Struct order = none)
      (hsave : mc.SaveOrder w1 order = (w2, some err)) (hdup : err.isDuplicateKey = true)
      (hcommit : mc.Reader.CommitMessages w2 msg = (w3, some e)) :
      PassShape mc s
        [Event.read (Except.ok msg), Event.save order (some err), Event.commit msg (some e),
          Event.critical]
        Flow.stop { s with world := mc.onCriticalError w3 }
  | saveFailed (s : ConsumerState W σ) (w1 w2 : W) (msg : Message) (order : Order)
      (err : GoError) (hread : mc.Reader.ReadMessage s.world = (w1, Except.ok msg))
      (hd : mc.Unmarshal msg.Value = Except.ok order) (hv : mc.Struct order = none)
      (hsave : mc.SaveOrder w1 order = (w2, some err)) (hdup : err.isDuplicateKey = false) :
      PassShape mc s
        [Event.read (Except.ok msg), Event.save order (some err), Event.critical] Flow.stop
        { s with world := mc.onCriticalError w2 }
  | saved (s : ConsumerState W σ) (w1 w2 w3 : W) (c1 : σ) (msg : Message) (order : Order)
      (hread : mc.Reader.ReadMessage s.world = (w1, Except.ok msg))
      (hd : mc.Unmarshal msg.Value = Except.ok order) (hv : mc.Struct order = none)
      (hsave : mc.SaveOrder w1 order = (w2, none))
      (hset : mc.cache.Set s.cache order.OrderUID order = some c1)
      (hcommit : mc.Reader.CommitMessages w2 msg = (w3, none)) :
      PassShape mc s
        [Event.read (Except.ok msg), Event.save order none,
          Event.cacheSet order.OrderUID order, Event.commit msg none]
        Flow.next { world := w3, cache := c1 }
  | savedCommitFailed (s : ConsumerState W σ) (w1 w2 w3 : W) (c1 : σ) (msg : Message)
      (order : Order) (e : GoError)
      (hread : mc.Reader.ReadMessage s.world = (w1, Except.ok msg))
      (hd : mc.Unmarshal msg.Value = Except.ok order) (hv : mc.Struct order = none)
      (hsave : mc.SaveOrder w1 order = (w2, none))
      (hset : mc.cache.Set s.cache order.OrderUID order = some c1)
      (hcommit : mc.Reader.CommitMessages w2 msg = (w3, some e)) :
      PassShape mc s
        [Event.read (Except.ok msg), Event.save order none,
          Event.cacheSet order.OrderUID order, Event.commit msg (some e), Event.critical]
        Flow.stop { world := mc.onCriticalError w3, cache := c1 }

/-! ### A scripted world, for concrete runs -/

/-- A call that reached the broker, the store or the cancellation callback,
with what it returned. -/
inductive Effect where
  | fetch (result : Except GoError Message)
  | commit (msg : Message) (err : Option GoError)
  | save (order : Order) (err : Option GoError)
  | cancel
  deriving DecidableEq, Repr

/-- A world in which the fetches, saves and commits return what a script says,
and which records in `log` every call that reached it, in order. -/
structure Script where
  reads : List (Except GoError Message)
  saves : List (Option GoError)
  commits : List (Option GoError)
  log : List Effect
  cancelled : Bool
  deriving DecidableEq, Repr

/-- The cancellation error `context.Canceled`. -/
def GoError.canceled : GoError :=
  { isContextCanceled := true, pgCode := none }

/-- An error that is neither a cancellation nor a PostgreSQL error. -/
def GoError.other : GoError :=
  { isContextCanceled := false, pgCode := none }

/-- The PostgreSQL unique-violation error. -/
def GoError.duplicateKey : GoError :=
  { isContextCanceled := false, pgCode := some uniqueViolation }

/-- The PostgreSQL error with code `"53300"` (too_many_connections). -/
def GoError.tooManyConnections : GoError :=
  { isContextCanceled := false, pgCode := some [53, 51, 51, 48, 48] }

/-- A message at offset `offset` with payload `value`. -/
def Message.atOffset (offset : Int) (value : GoString) : Message :=
  { Topic := [], Partition := 0, Offset := offset, Key := [], Value := value }

/-- The fetch of the scripted world: the next scripted result; a fetch from an
exhausted or cancelled script reports cancellation. -/
def Script.fetch (w : Script) : Script × Except GoError Message :=
  if w.cancelled then
    ({ w with log := w.log ++ [Effect.fetch (Except.error GoError.canceled)] },
      Except.error GoError.canceled)
  else
    match w.reads with
    | [] =>
      ({ w with log := w.log ++ [Effect.fetch (Except.error GoError.canceled)] },
        Except.error GoError.canceled)
    | r :: rs => ({ w with reads := rs, log := w.log ++ [Effect.fetch r] }, r)

/-- The commit of the scripted world: the next scripted result, success when
the script is exhausted. -/
def Script.commit (w : Script) (msg : Message) : Script × Option GoError :=
  match w.commits with
  | [] => ({ w with log := w.log ++ [Effect.commit msg none] }, none)
  | e :: cs => ({ w with commits := cs, log := w.log ++ [Effect.commit msg e] }, e)

/-- The save of the scripted world: the next scripted result, success when the
script is exhausted. -/
def Script.save (w : Script) (order : Order) : Script × Option GoError :=
  match w.saves with
  | [] => ({ w with log := w.log ++ [Effect.save order none] }, none)
  | e :: ss => ({ w with saves := ss, log := w.log ++ [Effect.save order e] }, e)

/-- The cancellation callback of the scripted world. -/
def Script.cancel (w : Script) : Script :=
  { w with cancelled := true, log := w.log ++ [Effect.cancel] }

/-- The decoder of the scripted consumers: a non-empty payload is the
`OrderUID` of an otherwise zero order. -/
def Script.Unmarshal (payload : GoString) : Except GoError Order :=
  match payload with
  | [] => Except.error GoError.other
  | _ :: _ => Except.ok { Order.zero with OrderUID := payload }

/-- The validator of the scripted consumers: it rejects an `OrderUID` that
starts with byte 0. -/
def Script.Struct (order : Order) : Option GoError :=
  match order.OrderUID with
  | 0 :: _ => some GoError.other
  | _ => none

/-- A consumer built by `NewMessageConsumer` over the scripted world and a
single LRU shard. -/
def Script.consumer : MessageConsumer Script LRUCache :=
  NewMessageConsumer Script.fetch Script.commit Script.Unmarshal Script.Struct Script.save
    LRUCache.asOrderCache Script.cancel

/-- The scripted world at the start. -/
def Script.start (reads : List (Except GoError Message)) (saves commits : List (Option GoError)) :
    Script :=
  { reads := reads, saves := saves, commits := commits, log := [], cancelled := false }

/-! ## Shard router (`internal/cache/sharded_cache.go`) -/

/-- Modelled from the spec: `hash/fnv` belongs to the Go standard library and
is not part of the repository. The initial state of `fnv.New32a()`, the 32-bit
FNV offset basis. -/
def fnv.New32a : Nat := 2166136261

/-- Modelled from the spec: `Write` of the 32-bit FNV-1a hash of `hash/fnv`.
For each byte in turn, `hash ^= uint32(c)` and then `hash *= 16777619`, in
`uint32` arithmetic. -/
def fnv.Write (hash : Nat) : GoString → Nat
  | [] => hash
  | c :: data => fnv.Write (((hash ^^^ c.val) * 16777619) % 2 ^ 32) data

/-- Modelled from the spec: `Sum32` of `hash/fnv` returns the current state. -/
def fnv.Sum32 (hash : Nat) : Nat := hash

/-- FNV-1a-32 as the specification words it: start from 2166136261 and, for
each byte, XOR the byte in and multiply by 16777619 modulo `2^32`. -/
def fnv1a32 (key : GoString) : Nat :=
  key.foldl (fun h b => (Nat.xor h b.val * 16777619) % 4294967296) 2166136261

/-- Go `cache.ShardedCache`. `numShards` is a `uint32`. -/
structure ShardedCache where
  shards : List LRUCache
  numShards : Nat
  deriving DecidableEq, Repr

/-- Go `NewShardedCache`: a non-positive shard count becomes 1; the slice gets
one fresh shard per index; the count is kept as `uint32(numShards)`. The
per-shard capacity is passed to `NewLRUCache` as given. -/
def NewShardedCache (capacityPerShard : Int) (numShards : Int) : ShardedCache :=
  let numShards := if numShards ≤ 0 then 1 else numShards
  { shards := List.replicate numShards.toNat (NewLRUCache capacityPerShard)
    numShards := numShards.toNat % 2 ^ 32 }

/-- Go `(*ShardedCache).getShardIndex`; the `%` panics on a zero `numShards`. -/
def ShardedCache.getShardIndex (sc : ShardedCache) (uid : GoString) : Option Nat :=
  let hash := fnv.Write fnv.New32a uid
  if sc.numShards = 0 then none else some (fnv.Sum32 hash % sc.numShards)

/-- Go `(*ShardedCache).Get`; indexing `sc.shards` out of range panics. -/
def ShardedCache.Get (sc : ShardedCache) (uid : GoString) :
    Option (ShardedCache × Order × Bool) :=
  match sc.getShardIndex uid with
  | none => none
  | some shardIndex =>
    match sc.shards[shardIndex]? with
    | none => none
    | some shard =>
      match shard.Get uid with
      | none => none
      | some (shard1, r) => some ({ sc with shards := sc.shards.set shardIndex shard1 }, r)

/-- Go `(*ShardedCache).Set`; indexing `sc.shards` out of range panics. -/
def ShardedCache.Set (sc : ShardedCache) (uid : GoString) (order : Order) :
    Option ShardedCache :=
  match sc.getShardIndex uid with
  | none => none
  | some shardIndex =>
    match sc.shards[shardIndex]? with
    | none => none
    | some shard =>
      match shard.Set uid order with
      | none => none
      | some shard1 => some { sc with shards := sc.shards.set shardIndex shard1 }

/-- The router as an `OrderCache`, as `NewShardedCache` returns it. -/
def ShardedCache.asOrderCache : OrderCache ShardedCache :=
  { Set := ShardedCache.Set, Get := ShardedCache.Get }

/-- Runs the calls in order on the router and collects what each `Get`
returned (`none` if a call panics). -/
def ShardedCache.results (sc : ShardedCache) : List Call → Option (List (Order × Bool))
  | [] => some []
  | Call.get uid :: xs =>
    match sc.Get uid with
    | none => none
    | some (sc1, r) =>
      match ShardedCache.results sc1 xs with
      | none => none
      | some rs => some (r :: rs)
  | Call.set uid order :: xs =>
    match sc.Set uid order with
    | none => none
    | some sc1 => ShardedCache.results sc1 xs

/-- Runs the calls in order on the router. -/
def ShardedCache.run (sc : ShardedCache) : List Call → Option ShardedCache
  | [] => some sc
  | Call.get uid :: xs =>
    match sc.Get uid with
    | none => none
    | some (sc1, _) => ShardedCache.run sc1 xs
  | Call.set uid order :: xs =>
    match sc.Set uid order with
    | none => none
    | some sc1 => ShardedCache.run sc1 xs

/-- Two shards hold the same contents in the same recency order, the first
with a capacity of at most 1 and the second with capacity 1. -/
def LRUCache.Sim (s t : LRUCache) : Prop :=
  ∃ l l1, s.Repr l ∧ t.Repr l1 ∧ l.map Prod.snd = l1.map Prod.snd ∧
    s.capacity ≤ 1 ∧ t.capacity = 1

/-- Two routers have the same shard count and, index by index, shards that
hold the same contents. -/
def ShardedCache.Sim (sc tc : ShardedCache) : Prop :=
  sc.numShards = tc.numShards ∧ sc.shards.length = tc.shards.length ∧
    ∀ (i : Nat) (s t : LRUCache), sc.shards[i]? = some s → tc.shards[i]? = some t → LRUCache.Sim s t

/-- A consumer built by `NewMessageConsumer` over the scripted world and a
shard router. -/
def Script.routerConsumer : MessageConsumer Script ShardedCache :=
  NewMessageConsumer Script.fetch Script.commit Script.Unmarshal Script.Struct Script.save
    ShardedCache.asOrderCache Script.cancel

/-! ## Persistent store reads (`internal/storage/postgres.go`)

The SQL text and the database are outside the embedding: a query is an oracle
that returns what `pool.Query` returned, as a sequence of rows the way
`rows.Next`, `rows.Scan` and `rows.Err` deliver it. -/

/-- The zero value `model.Item{}`. -/
def Item.zero : Item :=
  ⟨[], 0, [], 0, [], [], 0, [], 0, 0, [], 0⟩

/-- The columns of one result row, as `rows.Scan` stores them: the columns of
`orders` in `o`, of `deliveries` in `d`, of `payments` in `p` and of `items`
in `i`. The fields that no column is scanned into are not used. -/
structure Row where
  o : Order
  d : Delivery
  p : Payment
  i : Item
  deriving DecidableEq, Repr

/-- A `pgx.Rows`: for every `rows.Next()` that returns true, the row that
`rows.Scan` stores or the error it returns; and what `rows.Err()` returns once
`rows.Next()` has returned false. -/
structure Rows where
  rows : List (Except GoError Row)
  err : Option GoError
  deriving DecidableEq, Repr

/-- The destinations `&order.OrderUID, ..., &order.OofShard` of `rows.Scan`. -/
def Row.scanColumns (r : Row) (order : Order) : Order :=
  { order with
    OrderUID := r.o.OrderUID, TrackNumber := r.o.TrackNumber, Entry := r.o.Entry,
    Locale := r.o.Locale, InternalSignature := r.o.InternalSignature,
    CustomerID := r.o.CustomerID, DeliveryService := r.o.DeliveryService,
    Shardkey := r.o.Shardkey, SmID := r.o.SmID, DateCreated := r.o.DateCreated,
    OofShard := r.o.OofShard }

/-- The destinations `&d.Name, ..., &d.Email` of `rows.Scan`. -/
def Row.scanDelivery (r : Row) (d : Delivery) : Delivery :=
  { d with
    Name := r.d.Name, Phone := r.d.Phone, Zip := r.d.Zip, City := r.d.City,
    Address := r.d.Address, Region := r.d.Region, Email := r.d.Email }

/-- The destinations `&p.Transaction, ..., &p.CustomFee` of `rows.Scan`. -/
def Row.scanPayment (r : Row) (p : Payment) : Payment :=
  { p with
    Transaction := r.p.Transaction, RequestID := r.p.RequestID, Currency := r.p.Currency,
    Provider := r.p.Provider, Amount := r.p.Amount, PaymentDt := r.p.PaymentDt,
    Bank := r.p.Bank, DeliveryCost := r.p.DeliveryCost, GoodsTotal := r.p.GoodsTotal,
    CustomFee := r.p.CustomFee }

/-- The destinations `&i.ChrtID, ..., &i.Status` of `rows.Scan`. -/
def Row.scanItem (r : Row) (i : Item) : Item :=
  { i with
    ChrtID := r.i.ChrtID, TrackNumber := r.i.TrackNumber, Price := r.i.Price, Rid := r.i.Rid,
    Name := r.i.Name, Sale := r.i.Sale, Size := r.i.Size, TotalPrice := r.i.TotalPrice,
    NmID := r.i.NmID, Brand := r.i.Brand, Status := r.i.Status }

/-- The context text of an error built by `fmt.Errorf` in the store. -/
inductive ErrorContext where
  | queryOrder
  | scanOrderRow
  | afterOrderRows
  | queryAllOrders
  | scanAllRow
  | afterAllRows
  deriving DecidableEq, Repr

/-- An error returned by a read of the store: the sentinel
`storage.ErrOrderNotFound`, or `fmt.Errorf("<context>: %w", cause)`. -/
inductive StorageError where
  | orderNotFound
  | wrapped (context : ErrorContext) (cause : GoError)
  deriving DecidableEq, Repr

/-- The test `errors.Is(err, storage.ErrOrderNotFound)`. -/
def StorageError.isOrderNotFound : StorageError → Bool
  | StorageError.orderNotFound => true
  | StorageError.wrapped _ _ => false

/-- Go `storage.Storage`: what its pool answers to the two read queries, on a
world `W`. -/
structure Storage (W : Type) where
  /-- `s.pool.Query(ctx, query, uid)` of `GetOrderByUID`. -/
  QueryOrder : W → GoString → W × Except GoError Rows
  /-- `s.pool.Query(ctx, query, limit)` of `GetAllOrders`. -/
  QueryAll : W → Int → W × Except GoError Rows

/-- The `for rows.Next()` loop of `GetOrderByUID`, on the rows that are left:
the order built so far, the `itemsMap` and the `found` flag. -/
def GetOrderByUID.loop :
    List (Except GoError Row) → Order → GoMap Int Unit → Bool →
      Except StorageError (Order × Bool)
  | [], order, _, found => Except.ok (order, found)
  | Except.error err :: _, _, _, _ =>
    Except.error (StorageError.wrapped ErrorContext.scanOrderRow err)
  | Except.ok r :: rest, order, itemsMap, _ =>
    let order1 :=
      { r.scanColumns order with
        Delivery := r.scanDelivery order.Delivery, Payment := r.scanPayment order.Payment }
    let i := r.scanItem Item.zero
    if i.ChrtID > 0 then
      match GoMap.get itemsMap i.ChrtID with
      | some _ => GetOrderByUID.loop rest order1 itemsMap true
      | none =>
        GetOrderByUID.loop rest { order1 with Items := order1.Items ++ [i] }
          (GoMap.set itemsMap i.ChrtID ()) true
    else GetOrderByUID.loop rest order1 itemsMap true

/-- Go `(*Storage).GetOrderByUID`. -/
def Storage.GetOrderByUID {W : Type} (db : Storage W) (w : W) (uid : GoString) :
    W × Except StorageError Order :=
  match db.QueryOrder w uid with
  | (w1, Except.error err) =>
    (w1, Except.error (StorageError.wrapped ErrorContext.queryOrder err))
  | (w1, Except.ok rows) =>
    match GetOrderByUID.loop rows.rows Order.zero [] false with
    | Except.error e => (w1, Except.error e)
    | Except.ok (order, found) =>
      if found = false then (w1, Except.error StorageError.orderNotFound)
      else
        match rows.err with
        | some err => (w1, Except.error (StorageError.wrapped ErrorContext.afterOrderRows err))
        | none => (w1, Except.ok order)

/-- The update `*m[k] = f(*m[k])` through a pointer stored in a map of
pointers: the map itself is not changed. -/
def GoMap.modify {K V : Type} [DecidableEq K] (m : GoMap K V) (k : K) (f : V → V) : GoMap K V :=
  List.map (fun e => if e.1 = k then (e.1, f e.2) else e) m

/-- The `for rows.Next()` loop of `GetAllOrders`, on the rows that are left,
with the `orderMap` built so far (the pointed-to orders held by value). -/
def GetAllOrders.loop :
    List (Except GoError Row) → GoMap GoString Order →
      Except StorageError (GoMap GoString Order)
  | [], orderMap => Except.ok orderMap
  | Except.error err :: _, _ =>
    Except.error (StorageError.wrapped ErrorContext.scanAllRow err)
  | Except.ok r :: rest, orderMap =>
    let o := r.scanColumns Order.zero
    let d := r.scanDelivery Delivery.zero
    let p := r.scanPayment Payment.zero
    let i := r.scanItem Item.zero
    match GoMap.get orderMap o.OrderUID with
    | none =>
      let o1 := { o with Delivery := d, Payment := p }
      let o2 := if i.ChrtID > 0 then { o1 with Items := [i] } else o1
      GetAllOrders.loop rest (GoMap.set orderMap o.OrderUID o2)
    | some _ =>
      if i.ChrtID > 0 then
        GetAllOrders.loop rest
          (GoMap.modify orderMap o.OrderUID
            (fun existingOrder => { existingOrder with Items := existingOrder.Items ++ [i] }))
      else GetAllOrders.loop rest orderMap

/-- Go `(*Storage).GetAllOrders`. The order in which `for _, order := range
orderMap` visits the entries is not fixed by Go; `range` is that order, some
rearrangement of the entries. -/
def Storage.GetAllOrders {W : Type} (db : Storage W)
    (range : GoMap GoString Order → List (GoString × Order)) (w : W) (limit : Int) :
    W × Except StorageError (List Order) :=
  match db.QueryAll w limit with
  | (w1, Except.error err) =>
    (w1, Except.error (StorageError.wrapped ErrorContext.queryAllOrders err))
  | (w1, Except.ok rows) =>
    match GetAllOrders.loop rows.rows [] with
    | Except.error e => (w1, Except.error e)
    | Except.ok orderMap =>
      match rows.err with
      | some err => (w1, Except.error (StorageError.wrapped ErrorContext.afterAllRows err))
      | none => (w1, Except.ok ((range orderMap).map Prod.snd))

/-- The slice is ordered most-recent-first: of every two adjacent orders the
earlier one has a `DateCreated` that is not before the later one's. -/
def MostRecentFirst (orders : List Order) : Prop :=
  List.Chain' (fun a b => a.DateCreated ≥ b.DateCreated) orders

/-! ## HTTP read path (`internal/server/http_server.go`)

Response headers other than the status, the metrics middleware, log lines and
metric counters are left out. -/

/-- The text of a line written by `http.Error`. `ofError` stands for the text
`err.Error()` of an error of the store. -/
inductive ErrorText where
  | orderUIDRequired
  | orderNotFound
  | internalServerError
  | failedToEncodeResponse
  | ofError (err : StorageError)
  deriving DecidableEq, Repr

/-- A piece written to the response body: a line of `http.Error`, or the
output of the JSON encoder. -/
inductive Chunk where
  | text (t : ErrorText)
  | json (bytes : GoString)
  deriving DecidableEq, Repr

/-- What a handler has written to its `http.ResponseWriter`: the status of the
first `WriteHeader` and the body. -/
structure Response where
  status : Option Nat
  body : List Chunk
  deriving DecidableEq, Repr

/-- The response before anything is written. -/
def Response.empty : Response :=
  { status := none, body := [] }

/-- Go `w.WriteHeader(code)`: only the first call sets the status. -/
def Response.WriteHeader (r : Response) (code : Nat) : Response :=
  match r.status with
  | some _ => r
  | none => { r with status := some code }

/-- Go `http.Error(w, text, code)`. -/
def Response.Error (r : Response) (t : ErrorText) (code : Nat) : Response :=
  let r1 := r.WriteHeader code
  { r1 with body := r1.body ++ [Chunk.text t] }

/-- A call the handler makes on the cache or on the store. -/
inductive ServerCall where
  | cacheGet (uid : GoString)
  | storeGet (uid : GoString)
  | cacheSet (uid : GoString) (order : Order)
  deriving DecidableEq, Repr

/-- Go `server.Server`: the cache, the store and the JSON encoder. -/
structure Server (W σ : Type) where
  Cache : OrderCache σ
  DB : Storage W
  /-- `json.NewEncoder(w).Encode(order)`: the bytes written, or the error. -/
  Encode : Order → Except GoError GoString

/-- The state a request works on: the world of the store and the cache. -/
structure ServerState (W σ : Type) where
  world : W
  cache : σ

/-- The part of the handler that writes status 200 and the encoded order. -/
def Server.writeOrder {W σ : Type} (srv : Server W σ) (order : Order) : Response :=
  let r := Response.empty.WriteHeader 200
  match srv.Encode order with
  | Except.ok bytes => { r with body := r.body ++ [Chunk.json bytes] }
  | Except.error _ => r.Error ErrorText.failedToEncodeResponse 500

/-- Go `(*Server).handleGetOrder`, for the URL parameter `orderUID`: the new
state, the response and the calls made in order (`none` if a cache call
panics). -/
def Server.handleGetOrder {W σ : Type} (srv : Server W σ) (s : ServerState W σ)
    (orderUID : GoString) : Option (ServerState W σ × Response × List ServerCall) :=
  if orderUID = [] then
    some (s, Response.empty.Error ErrorText.orderUIDRequired 400, [])
  else
    match srv.Cache.Get s.cache orderUID with
    | none => none
    | some (c1, order, true) =>
      some ({ s with cache := c1 }, srv.writeOrder order, [ServerCall.cacheGet orderUID])
    | some (c1, _, false) =>
      match srv.DB.GetOrderByUID s.world orderUID with
      | (w1, Except.error err) =>
        if err.isOrderNotFound then
          some ({ world := w1, cache := c1 },
            Response.empty.Error ErrorText.orderNotFound 404,
            [ServerCall.cacheGet orderUID, ServerCall.storeGet orderUID])
        else
          some ({ world := w1, cache := c1 },
            Response.empty.Error ErrorText.internalServerError 500,
            [ServerCall.cacheGet orderUID, ServerCall.storeGet orderUID])
      | (w1, Except.ok order) =>
        match srv.Cache.Set c1 order.OrderUID order with
        | none => none
        | some c2 =>
          some ({ world := w1, cache := c2 }, srv.writeOrder order,
            [ServerCall.cacheGet orderUID, ServerCall.storeGet orderUID,
              ServerCall.cacheSet order.OrderUID order])

/-! ### A scripted store, for concrete requests -/

/-- A store that answers every query with the same scripted result. -/
def Storage.scripted (result : Except GoError Rows) : Storage Unit :=
  { QueryOrder := fun w _ => (w, result), QueryAll := fun w _ => (w, result) }

/-- A server over a scripted store and a single LRU shard, whose encoder
writes the `OrderUID` of the order. -/
def Server.scripted (result : Except GoError Rows) : Server Unit LRUCache :=
  { Cache := LRUCache.asOrderCache
    DB := Storage.scripted result
    Encode := fun order => Except.ok order.OrderUID }

/-- A row of an order with key `uid` created at `date`, with one item. -/
def Row.sample (uid : GoString) (date : Int) : Row :=
  { o := { Order.zero with OrderUID := uid, DateCreated := date }
    d := Delivery.zero
    p := Payment.zero
    i := { Item.zero with ChrtID := 1 } }

/-- The router invariant: every shard satisfies the representation invariant,
every key stored in shard `i` is routed to index `i`, and the shard count does
not exceed the number of shards. -/
def ShardedCache.Owned (sc : ShardedCache) : Prop :=
  sc.numShards ≤ sc.shards.length ∧
    ∀ (i : Nat) (s : LRUCache), sc.shards[i]? = some s →
      (∃ l, s.Repr l) ∧ ∀ key, s.stored key → sc.getShardIndex key = some i

/-! ## Configuration and startup (`internal/config/config.go`, `internal/app/app.go`) -/

/-- Go `config.Config`. -/
structure Config where
  DatabaseURL : GoString
  CacheCapacity : Int
  CacheNumShards : Int
  HTTPPort : GoString
  MetricsPort : GoString
  KafkaBrokers : List GoString
  deriving DecidableEq, Repr

/-- Go `getEnvAsInt`: `lookup` is what `os.LookupEnv(key)` found, if the
variable exists, and `Atoi` is `strconv.Atoi`. Every integer that parses is
accepted as it is. -/
def getEnvAsInt (lookup : Option GoString) (Atoi : GoString → Except GoError Int)
    (fallback : Int) : Int :=
  match lookup with
  | none => fallback
  | some valueStr =>
    match Atoi valueStr with
    | Except.error _ => fallback
    | Except.ok value => value

/-- A Go `int` (64 bits) from its mathematical value, by two's complement
wrap-around. -/
def wrapInt64 (x : Int) : Int :=
  (x + 2 ^ 63) % 2 ^ 64 - 2 ^ 63

/-- Go `x / y` on `int`: a run-time panic (`none`) when `y` is zero, otherwise
the quotient truncated toward zero, in 64 bits. -/
def goIntDiv (x y : Int) : Option Int :=
  if y = 0 then none else some (wrapInt64 (Int.tdiv x y))

/-- Step 2 of Go `app.New`, the initialisation of the cache: the per-shard
capacity that is computed and the router that is built (`none` if the step
panics). -/
def app.NewCache (cfg : Config) : Option (Int × ShardedCache) :=
  match goIntDiv cfg.CacheCapacity cfg.CacheNumShards with
  | none => none
  | some q =>
    let shardCapacity := if q < 1 then 1 else q
    some (shardCapacity, NewShardedCache shardCapacity cfg.CacheNumShards)

/-- A configuration with the given cache settings. -/
def Config.withCache (capacity numShards : Int) : Config :=
  { DatabaseURL := [], CacheCapacity := capacity, CacheNumShards := numShards, HTTPPort := [],
    MetricsPort := [], KafkaBrokers := [] }

/-! ## Lemmas: node memory, linked list, Go maps -/

theorem Mem.load_isSome {m : Mem} {p : Ptr} (hp : p < m.length) : ∃ n, m.load p = some n :=
  ⟨m[p], by simp [Mem.load, List.getElem?_eq_getElem hp]⟩

theorem Mem.lt_of_load {m : Mem} {p : Ptr} {n : Node} (h : m.load p = some n) : p < m.length := by
  unfold Mem.load at h
  exact (List.getElem?_eq_some.mp h).1

theorem Mem.lt_of_nextOf {m : Mem} {p q : Ptr} (h : m.nextOf p = some q) : p < m.length := by
  unfold Mem.nextOf at h
  cases hl : m.load p with
  | none => simp [hl] at h
  | some n => exact Mem.lt_of_load hl

theorem Mem.lt_of_prevOf {m : Mem} {p q : Ptr} (h : m.prevOf p = some q) : p < m.length := by
  unfold Mem.prevOf at h
  cases hl : m.load p with
  | none => simp [hl] at h
  | some n => exact Mem.lt_of_load hl

theorem Mem.lt_of_kvOf {m : Mem} {p : Ptr} {e : GoString × Order} (h : m.kvOf p = some e) :
    p < m.length := by
  unfold Mem.kvOf at h
  cases hl : m.load p with
  | none => simp [hl] at h
  | some n => exact Mem.lt_of_load hl

theorem Mem.load_store {m : Mem} {p : Ptr} (n : Node) (hp : p < m.length) :
    ∃ m', m.store p n = some m' ∧ m'.length = m.length ∧
      ∀ r, m'.load r = if r = p then some n else m.load r := by
  refine ⟨List.set m p n, by simp [Mem.store, hp], by simp, ?_⟩
  intro r
  by_cases h : r = p
  · subst h; simp [Mem.load, hp]
  · have h' : p ≠ r := fun e => h e.symm
    simp [Mem.load, List.getElem?_set, h, h']

theorem Mem.setNext_spec (m : Mem) (p : Ptr) (q : Option Ptr) (hp : p < m.length) :
    ∃ m', m.setNext p q = some m' ∧ m'.length = m.length ∧
      (∀ r, m'.nextOf r = if r = p then q else m.nextOf r) ∧
      (∀ r, m'.prevOf r = m.prevOf r) ∧ (∀ r, m'.kvOf r = m.kvOf r) := by
  obtain ⟨n, hn⟩ := Mem.load_isSome hp
  obtain ⟨m', hs, hlen, hload⟩ := Mem.load_store { n with next := q } hp
  refine ⟨m', by simp [Mem.setNext, hn, hs], hlen, ?_, ?_, ?_⟩ <;> intro r <;>
    by_cases h : r = p <;> simp [Mem.nextOf, Mem.prevOf, Mem.kvOf, hload, h, hn]

theorem Mem.setPrev_spec (m : Mem) (p : Ptr) (q : Option Ptr) (hp : p < m.length) :
    ∃ m', m.setPrev p q = some m' ∧ m'.length = m.length ∧
      (∀ r, m'.prevOf r = if r = p then q else m.prevOf r) ∧
      (∀ r, m'.nextOf r = m.nextOf r) ∧ (∀ r, m'.kvOf r = m.kvOf r) := by
  obtain ⟨n, hn⟩ := Mem.load_isSome hp
  obtain ⟨m', hs, hlen, hload⟩ := Mem.load_store { n with prev := q } hp
  refine ⟨m', by simp [Mem.setPrev, hn, hs], hlen, ?_, ?_, ?_⟩ <;> intro r <;>
    by_cases h : r = p <;> simp [Mem.nextOf, Mem.prevOf, Mem.kvOf, hload, h, hn]

theorem Mem.setValue_spec (m : Mem) (p : Ptr) (v : Order) {k : GoString} {v0 : Order}
    (hp : m.kvOf p = some (k, v0)) :
    ∃ m', m.setValue p v = some m' ∧ m'.length = m.length ∧
      (∀ r, m'.kvOf r = if r = p then some (k, v) else m.kvOf r) ∧
      (∀ r, m'.nextOf r = m.nextOf r) ∧ (∀ r, m'.prevOf r = m.prevOf r) := by
  have hlt := Mem.lt_of_kvOf hp
  obtain ⟨n, hn⟩ := Mem.load_isSome hlt
  obtain ⟨m', hs, hlen, hload⟩ := Mem.load_store { n with value := v } hlt
  have hk : n.key = k := by simp [Mem.kvOf, hn] at hp; exact hp.1
  refine ⟨m', by simp [Mem.setValue, hn, hs], hlen, ?_, ?_, ?_⟩ <;> intro r <;>
    by_cases h : r = p <;> simp [Mem.nextOf, Mem.prevOf, Mem.kvOf, hload, h, hn, hk]

theorem Mem.alloc_spec (m : Mem) (n : Node) :
    (m.alloc n).1 = m.length ∧ (m.alloc n).2.length = m.length + 1 ∧
      (∀ r, r < m.length → (m.alloc n).2.load r = m.load r) ∧
      (m.alloc n).2.load m.length = some n := by
  refine ⟨rfl, by simp [Mem.alloc], ?_, by simp [Mem.alloc, Mem.load]⟩
  intro r hr
  simp [Mem.alloc, Mem.load, List.getElem?_append_left hr]

theorem chain_frame {R R' : Ptr → Ptr → Prop} : ∀ (l : List Ptr), List.Chain' R l →
    (∀ x y, x ∈ l.dropLast → y ∈ l.tail → R x y → R' x y) → List.Chain' R' l
  | [], _, _ => List.chain'_nil
  | [a], _, _ => List.chain'_singleton a
  | a :: b :: l, hc, himp => by
      rw [List.chain'_cons] at hc ⊢
      refine ⟨himp a b (by simp) (by simp) hc.1, chain_frame (b :: l) hc.2 ?_⟩
      intro x y hx hy hR
      refine himp x y ?_ ?_ hR
      · simp only [List.dropLast_cons₂, List.mem_cons]
        exact Or.inr hx
      · simp only [List.tail_cons] at hy ⊢
        exact List.mem_of_mem_tail hy

theorem remove_core {m m' : Mem} {init rest : List Ptr} {a p b : Ptr}
    (hc : List.Chain' (Linked m) (init ++ a :: p :: b :: rest))
    (hn : (init ++ a :: p :: b :: rest).Nodup)
    (hnext : ∀ r, m'.nextOf r = if r = a then some b else m.nextOf r)
    (hprev : ∀ r, m'.prevOf r = if r = b then some a else m.prevOf r) :
    List.Chain' (Linked m') (init ++ a :: b :: rest) := by
  rw [List.chain'_split, List.chain'_cons, List.chain'_cons] at hc
  obtain ⟨hc1, -, -, hc2⟩ := hc
  have hn' := hn
  rw [List.nodup_append] at hn
  obtain ⟨hn1, hn2, hdis⟩ := hn
  simp only [List.nodup_cons, List.mem_cons, not_or] at hn2
  obtain ⟨⟨hap, hab, har⟩, ⟨hpb, hpr⟩, hbr, hrn⟩ := hn2
  have hia : a ∉ init := fun h => hdis h (by simp)
  have hib : b ∉ init := fun h => hdis h (by simp)
  rw [List.chain'_split, List.chain'_cons]
  refine ⟨chain_frame _ hc1 ?_, ⟨?_, ?_⟩, chain_frame _ hc2 ?_⟩
  · intro x y hx hy hR
    have hx' : x ∈ init := by simpa using hx
    have hy' : y ∈ init ++ [a] := List.mem_of_mem_tail hy
    have hxa : x ≠ a := fun e => hia (e ▸ hx')
    have hyb : y ≠ b := by
      intro e; rw [e] at hy'
      rcases List.mem_append.mp hy' with h | h
      · exact hib h
      · exact hab (List.mem_singleton.mp h).symm
    exact ⟨by rw [hnext, if_neg hxa]; exact hR.1, by rw [hprev, if_neg hyb]; exact hR.2⟩
  · rw [hnext, if_pos rfl]
  · rw [hprev, if_pos rfl]
  · intro x y hx hy hR
    have hx' : x ∈ b :: rest := List.mem_of_mem_dropLast hx
    have hy' : y ∈ rest := by simpa using hy
    have hxa : x ≠ a := by
      intro e; rw [e] at hx'
      rcases List.mem_cons.mp hx' with h | h
      · exact hab h
      · exact har h
    have hyb : y ≠ b := fun e => hbr (e ▸ hy')
    exact ⟨by rw [hnext, if_neg hxa]; exact hR.1, by rw [hprev, if_neg hyb]; exact hR.2⟩

theorem add_core {m m' : Mem} {init : List Ptr} {a n t : Ptr}
    (hc : List.Chain' (Linked m) (init ++ [a, t]))
    (hn : (init ++ [a, t]).Nodup) (hfresh : n ∉ init ++ [a, t])
    (hnext : ∀ r, m'.nextOf r = if r = n then some t else if r = a then some n else m.nextOf r)
    (hprev : ∀ r, m'.prevOf r = if r = t then some n else if r = n then some a else m.prevOf r) :
    List.Chain' (Linked m') (init ++ [a, n, t]) := by
  rw [List.chain'_split] at hc
  obtain ⟨hc1, -⟩ := hc
  rw [List.nodup_append] at hn
  obtain ⟨hn1, hn2, hdis⟩ := hn
  simp only [List.nodup_cons, List.mem_cons, List.mem_singleton, not_or, List.not_mem_nil,
    not_false_eq_true, List.nodup_nil, and_true] at hn2
  have hat : a ≠ t := by tauto
  have hia : a ∉ init := fun h => hdis h (by simp)
  have hit : t ∉ init := fun h => hdis h (by simp)
  simp only [List.mem_append, List.mem_cons, List.mem_singleton, not_or, List.not_mem_nil,
    or_false] at hfresh
  obtain ⟨hni, hna, hnt⟩ := hfresh
  rw [List.chain'_split, List.chain'_cons, List.chain'_pair]
  refine ⟨chain_frame _ hc1 ?_, ⟨?_, ?_⟩, ?_, ?_⟩
  · intro x y hx hy hR
    have hx' : x ∈ init := by simpa using hx
    have hy' : y ∈ init ++ [a] := List.mem_of_mem_tail hy
    have hxa : x ≠ a := fun e => hia (e ▸ hx')
    have hxn : x ≠ n := fun e => hni (e ▸ hx')
    have hyt : y ≠ t := by
      intro e; rw [e] at hy'
      rcases List.mem_append.mp hy' with h | h
      · exact hit h
      · exact hat (List.mem_singleton.mp h).symm
    have hyn : y ≠ n := by
      intro e; rw [e] at hy'
      rcases List.mem_append.mp hy' with h | h
      · exact hni h
      · exact hna (List.mem_singleton.mp h)
    exact ⟨by rw [hnext, if_neg hxn, if_neg hxa]; exact hR.1,
      by rw [hprev, if_neg hyt, if_neg hyn]; exact hR.2⟩
  · rw [hnext, if_neg (Ne.symm hna), if_pos rfl]
  · rw [hprev, if_neg hnt, if_pos rfl]
  · rw [hnext, if_pos rfl]
  · rw [hprev, if_pos rfl]

theorem LRUCache.removeNode_eq (c : LRUCache) (p : Ptr) {a b a' b' : Ptr} {m1 m2 : Mem}
    (ha : c.mem.prevOf p = some a) (hb : c.mem.nextOf p = some b)
    (h1 : c.mem.setNext a (some b) = some m1)
    (hb1 : m1.nextOf p = some b') (ha1 : m1.prevOf p = some a')
    (h2 : m1.setPrev b' (some a') = some m2) :
    c.removeNode p = some { c with mem := m2 } := by
  simp only [Mem.nextOf, Mem.prevOf] at ha hb hb1 ha1
  cases hn : c.mem.load p with
  | none => simp [hn] at ha
  | some n =>
    cases hn1 : m1.load p with
    | none => simp [hn1] at ha1
    | some n1 =>
      simp only [hn, hn1, Option.some_bind] at ha hb hb1 ha1
      simp [LRUCache.removeNode, hn, ha, hb, h1, hn1, hb1, ha1, h2]

theorem LRUCache.addToTail_eq (c : LRUCache) (n : Ptr) {a : Ptr} {m1 m2 m3 m4 : Mem}
    (ht : c.mem.prevOf c.tail = some a)
    (h1 : c.mem.setNext a (some n) = some m1)
    (h2 : m1.setPrev n (some a) = some m2)
    (h3 : m2.setNext n (some c.tail) = some m3)
    (h4 : m3.setPrev c.tail (some n) = some m4) :
    c.addToTail n = some { c with mem := m4 } := by
  simp only [Mem.prevOf] at ht
  cases hn : c.mem.load c.tail with
  | none => simp [hn] at ht
  | some t =>
    simp only [hn, Option.some_bind] at ht
    simp [LRUCache.addToTail, hn, ht, h1, h2, h3, h4]

theorem exists_snoc (h : Ptr) (ps : List Ptr) : ∃ init a, h :: ps = init ++ [a] := by
  rcases List.eq_nil_or_concat (h :: ps) with e | ⟨L, b, e⟩
  · exact absurd e (List.cons_ne_nil _ _)
  · exact ⟨L, b, by rw [e, List.concat_eq_append]⟩

theorem LRUCache.removeNode_spec (c : LRUCache) (ps1 ps2 : List Ptr) (p : Ptr)
    (h : DLL c.mem c.head c.tail (ps1 ++ p :: ps2)) :
    ∃ m', c.removeNode p = some { c with mem := m' } ∧ DLL m' c.head c.tail (ps1 ++ ps2) ∧
      m'.length = c.mem.length ∧ ∀ r, m'.kvOf r = c.mem.kvOf r := by
  obtain ⟨init, a, hinit⟩ := exists_snoc c.head ps1
  obtain ⟨b, rest, hrest⟩ : ∃ b rest, ps2 ++ [c.tail] = b :: rest := by
    cases ps2 with
    | nil => exact ⟨c.tail, [], rfl⟩
    | cons x xs => exact ⟨x, xs ++ [c.tail], rfl⟩
  have hfull : c.head :: (ps1 ++ p :: ps2) ++ [c.tail] = init ++ a :: p :: b :: rest := by
    calc c.head :: (ps1 ++ p :: ps2) ++ [c.tail]
        = (c.head :: ps1) ++ p :: (ps2 ++ [c.tail]) := by simp
      _ = init ++ a :: p :: b :: rest := by rw [hinit, hrest]; simp
  have hfull' : c.head :: (ps1 ++ ps2) ++ [c.tail] = init ++ a :: b :: rest := by
    calc c.head :: (ps1 ++ ps2) ++ [c.tail]
        = (c.head :: ps1) ++ (ps2 ++ [c.tail]) := by simp
      _ = init ++ a :: b :: rest := by rw [hinit, hrest]; simp
  have hc := h.chain
  have hnd := h.nodup
  rw [hfull] at hc hnd
  have hc' := hc
  rw [List.chain'_split, List.chain'_cons, List.chain'_cons] at hc'
  obtain ⟨-, hap, hpb, -⟩ := hc'
  have hne : p ≠ a := by
    intro e
    rw [List.nodup_append] at hnd
    have := hnd.2.1
    simp [e] at this
  obtain ⟨m1, hs1, hl1, hn1, hp1, hk1⟩ :=
    Mem.setNext_spec c.mem a (some b) (Mem.lt_of_nextOf hap.1)
  obtain ⟨m2, hs2, hl2, hp2, hn2, hk2⟩ :=
    Mem.setPrev_spec m1 b (some a) (by rw [hl1]; exact Mem.lt_of_prevOf hpb.2)
  refine ⟨m2, ?_, ⟨?_, ?_⟩, by rw [hl2, hl1], fun r => by rw [hk2, hk1]⟩
  · refine LRUCache.removeNode_eq c p hap.2 hpb.1 hs1 ?_ ?_ hs2
    · rw [hn1, if_neg hne]; exact hpb.1
    · rw [hp1]; exact hap.2
  · rw [hfull']
    refine remove_core hc hnd ?_ ?_
    · intro r; rw [hn2, hn1]
    · intro r; rw [hp2, hp1]
  · rw [hfull']
    rw [List.nodup_append] at hnd ⊢
    refine ⟨hnd.1, ?_, ?_⟩
    · have := hnd.2.1
      simp only [List.nodup_cons, List.mem_cons, not_or] at this ⊢
      tauto
    · intro x hx hx'
      exact hnd.2.2 hx (by
        simp only [List.mem_cons] at hx' ⊢
        tauto)

theorem LRUCache.addToTail_spec (c : LRUCache) (ps : List Ptr) (n : Ptr)
    (h : DLL c.mem c.head c.tail ps) (hn : n < c.mem.length)
    (hfresh : n ∉ c.head :: ps ++ [c.tail]) :
    ∃ m', c.addToTail n = some { c with mem := m' } ∧ DLL m' c.head c.tail (ps ++ [n]) ∧
      m'.length = c.mem.length ∧ ∀ r, m'.kvOf r = c.mem.kvOf r := by
  obtain ⟨init, a, hinit⟩ := exists_snoc c.head ps
  have hfull : c.head :: ps ++ [c.tail] = init ++ [a, c.tail] := by
    rw [hinit]; simp
  have hfull' : c.head :: (ps ++ [n]) ++ [c.tail] = init ++ [a, n, c.tail] := by
    calc c.head :: (ps ++ [n]) ++ [c.tail] = (c.head :: ps) ++ [n, c.tail] := by simp
      _ = init ++ [a, n, c.tail] := by rw [hinit]; simp
  have hc := h.chain
  have hnd := h.nodup
  rw [hfull] at hc hnd hfresh
  have hat : Linked c.mem a c.tail := by
    have hc' := hc
    rw [List.chain'_split, List.chain'_pair] at hc'
    exact hc'.2
  obtain ⟨m1, hs1, hl1, hn1, hp1, hk1⟩ :=
    Mem.setNext_spec c.mem a (some n) (Mem.lt_of_nextOf hat.1)
  obtain ⟨m2, hs2, hl2, hp2, hn2, hk2⟩ :=
    Mem.setPrev_spec m1 n (some a) (by rw [hl1]; exact hn)
  obtain ⟨m3, hs3, hl3, hn3, hp3, hk3⟩ :=
    Mem.setNext_spec m2 n (some c.tail) (by rw [hl2, hl1]; exact hn)
  obtain ⟨m4, hs4, hl4, hp4, hn4, hk4⟩ :=
    Mem.setPrev_spec m3 c.tail (some n) (by rw [hl3, hl2, hl1]; exact Mem.lt_of_prevOf hat.2)
  refine ⟨m4, LRUCache.addToTail_eq c n hat.2 hs1 hs2 hs3 hs4, ⟨?_, ?_⟩,
    by rw [hl4, hl3, hl2, hl1], fun r => by rw [hk4, hk3, hk2, hk1]⟩
  · rw [hfull']
    refine add_core hc hnd hfresh ?_ ?_
    · intro r; rw [hn4, hn3, hn2, hn1]
    · intro r; rw [hp4, hp3, hp2, hp1]
  · rw [hfull']
    simp only [List.mem_append, List.mem_cons, List.mem_singleton, not_or, List.not_mem_nil,
      or_false] at hfresh
    rw [List.nodup_append] at hnd ⊢
    refine ⟨hnd.1, ?_, ?_⟩
    · have := hnd.2.1
      simp only [List.nodup_cons, List.mem_cons, List.mem_singleton, not_or, List.not_mem_nil,
        not_false_eq_true, List.nodup_nil, and_true] at this ⊢
      tauto
    · intro x hx hx'
      simp only [List.mem_cons, List.mem_singleton, List.not_mem_nil, or_false] at hx'
      rcases hx' with e | e | e
      · exact hnd.2.2 hx (by simp [e])
      · exact hfresh.1 (e ▸ hx)
      · exact hnd.2.2 hx (by simp [e])

theorem GoMap.mem_of_get {K V : Type} [DecidableEq K] {m : GoMap K V} {k : K} {v : V}
    (h : GoMap.get m k = some v) : (k, v) ∈ m := by
  induction m with
  | nil => simp [GoMap.get] at h
  | cons e m ih =>
    obtain ⟨k', v'⟩ := e
    by_cases hk : k' = k
    · simp [GoMap.get, hk] at h
      simp [hk, h]
    · simp [GoMap.get, hk] at h
      exact List.mem_cons_of_mem _ (ih h)

theorem GoMap.get_eq_none {K V : Type} [DecidableEq K] {m : GoMap K V} {k : K} :
    GoMap.get m k = none ↔ k ∉ m.map Prod.fst := by
  induction m with
  | nil => simp [GoMap.get]
  | cons e m ih =>
    obtain ⟨k', v'⟩ := e
    by_cases hk : k' = k
    · simp [GoMap.get, hk]
    · have hk' : ¬ k = k' := fun e => hk e.symm
      simp only [GoMap.get, hk, if_false, ih, List.map_cons, List.mem_cons, hk', false_or]

theorem GoMap.get_of_mem {K V : Type} [DecidableEq K] {m : GoMap K V} {k : K} {v : V}
    (hnd : (m.map Prod.fst).Nodup) (h : (k, v) ∈ m) : GoMap.get m k = some v := by
  induction m with
  | nil => simp at h
  | cons e m ih =>
    obtain ⟨k', v'⟩ := e
    simp only [List.map_cons, List.nodup_cons] at hnd
    rcases List.mem_cons.mp h with e | h'
    · simp only [Prod.mk.injEq] at e
      simp [GoMap.get, e.1, e.2]
    · have hk : k' ≠ k := by
        intro e
        exact hnd.1 (e ▸ List.mem_map_of_mem Prod.fst h')
      simp only [GoMap.get, hk, if_false]
      exact ih hnd.2 h'

theorem GoMap.delete_eq_self {K V : Type} [DecidableEq K] {m : GoMap K V} {k : K}
    (h : k ∉ m.map Prod.fst) : GoMap.delete m k = m := by
  unfold GoMap.delete
  rw [List.filter_eq_self]
  intro e he
  simp only [ne_eq, decide_eq_true_eq]
  intro hk
  exact h (hk ▸ List.mem_map_of_mem Prod.fst he)

theorem GoMap.delete_append_cons {K V : Type} [DecidableEq K] {l1 l2 : GoMap K V} {k : K}
    {v : V} (h1 : k ∉ l1.map Prod.fst) (h2 : k ∉ l2.map Prod.fst) :
    GoMap.delete (l1 ++ (k, v) :: l2) k = l1 ++ l2 := by
  have e1 := GoMap.delete_eq_self h1
  have e2 := GoMap.delete_eq_self h2
  unfold GoMap.delete at *
  rw [List.filter_append, List.filter_cons, e1, e2]
  simp

theorem chain_pred {R : Ptr → Ptr → Prop} : ∀ (l : List Ptr) (a : Ptr),
    List.Chain' R (a :: l) → ∀ x ∈ l, ∃ y, R y x
  | [], _, _, x, hx => by simp at hx
  | b :: l, a, hc, x, hx => by
      rw [List.chain'_cons] at hc
      rcases List.mem_cons.mp hx with e | h
      · exact ⟨a, e ▸ hc.1⟩
      · exact chain_pred l b hc.2 x h

theorem DLL.lt_length {m : Mem} {h t : Ptr} {ps : List Ptr} (d : DLL m h t ps) :
    ∀ x ∈ h :: ps ++ [t], x < m.length := by
  intro x hx
  have hc := d.chain
  rw [List.cons_append] at hc hx
  rcases List.mem_cons.mp hx with e | hx'
  · cases hps : ps ++ [t] with
    | nil => simp at hps
    | cons y ys =>
      rw [hps, List.chain'_cons] at hc
      exact e ▸ Mem.lt_of_nextOf hc.1.1
  · obtain ⟨y, hy⟩ := chain_pred _ _ hc x hx'
    exact Mem.lt_of_prevOf hy.2

theorem DLL.congr {m m' : Mem} {h t : Ptr} {ps : List Ptr} (d : DLL m h t ps)
    (hnext : ∀ r, r < m.length → m'.nextOf r = m.nextOf r)
    (hprev : ∀ r, r < m.length → m'.prevOf r = m.prevOf r) : DLL m' h t ps := by
  refine ⟨chain_frame _ d.chain ?_, d.nodup⟩
  intro x y hx hy hR
  have hx' := d.lt_length x (List.mem_of_mem_dropLast hx)
  have hy' := d.lt_length y (List.mem_of_mem_tail hy)
  exact ⟨by rw [hnext x hx']; exact hR.1, by rw [hprev y hy']; exact hR.2⟩

theorem LRUCache.moveToTail_spec (c : LRUCache) (ps1 ps2 : List Ptr) (p : Ptr)
    (h : DLL c.mem c.head c.tail (ps1 ++ p :: ps2)) :
    ∃ m', c.moveToTail p = some { c with mem := m' } ∧
      DLL m' c.head c.tail (ps1 ++ ps2 ++ [p]) ∧
      m'.length = c.mem.length ∧ ∀ r, m'.kvOf r = c.mem.kvOf r := by
  obtain ⟨m1, hrm, hd1, hl1, hk1⟩ := c.removeNode_spec ps1 ps2 p h
  have hp : p < c.mem.length := h.lt_length p (by simp)
  have hfresh : p ∉ c.head :: (ps1 ++ ps2) ++ [c.tail] := by
    have hnd := h.nodup
    have e : c.head :: (ps1 ++ p :: ps2) ++ [c.tail]
        = (c.head :: ps1) ++ p :: (ps2 ++ [c.tail]) := by simp
    rw [e, List.nodup_middle, List.nodup_cons] at hnd
    intro hmem
    exact hnd.1 (by simpa using hmem)
  obtain ⟨m2, hadd, hd2, hl2, hk2⟩ :=
    LRUCache.addToTail_spec { c with mem := m1 } (ps1 ++ ps2) p hd1 (by rw [hl1]; exact hp) hfresh
  refine ⟨m2, ?_, hd2, by rw [hl2]; exact hl1, fun r => by rw [hk2]; exact hk1 r⟩
  simp only [LRUCache.moveToTail, hrm, Option.bind_eq_bind, Option.some_bind]
  exact hadd


theorem LRUCache.Repr.split {c : LRUCache} {l : List Entry} (h : c.Repr l) {k : GoString}
    {p : Ptr} (hg : GoMap.get c.items k = some p) :
    ∃ l1 l2 v0, l = l1 ++ (p, k, v0) :: l2 := by
  have hm := (h.items.mem_iff).mp (GoMap.mem_of_get hg)
  obtain ⟨e, he, hek⟩ := List.mem_map.mp hm
  obtain ⟨l1, l2, hl⟩ := List.append_of_mem he
  obtain ⟨p', k', v'⟩ := e
  simp only [Prod.mk.injEq] at hek
  exact ⟨l1, l2, v', by rw [hl, hek.1, hek.2]⟩

theorem LRUCache.Repr.get_none {c : LRUCache} {l : List Entry} (h : c.Repr l) {k : GoString} :
    GoMap.get c.items k = none ↔ k ∉ l.map (fun e => e.2.1) := by
  rw [GoMap.get_eq_none]
  have e : (l.map (fun e => (e.2.1, e.1))).map Prod.fst = l.map (fun e => e.2.1) := by
    simp [List.map_map, Function.comp_def]
  rw [← e]
  exact not_congr (h.items.map Prod.fst).mem_iff

theorem LRUCache.Repr.ptr_ne {c : LRUCache} {l1 l2 : List Entry} {x : Entry}
    (h : c.Repr (l1 ++ x :: l2)) : ∀ e ∈ l1 ++ l2, e.1 ≠ x.1 := by
  intro e he heq
  have hnd := h.dll.nodup
  rw [List.cons_append, List.nodup_cons] at hnd
  have hnd2 := hnd.2
  rw [List.nodup_append] at hnd2
  have hnd3 := hnd2.1
  rw [List.map_append, List.map_cons, List.nodup_middle, List.nodup_cons] at hnd3
  apply hnd3.1
  rw [← List.map_append, ← heq]
  exact List.mem_map_of_mem Prod.fst he

theorem LRUCache.Repr.setValue {c : LRUCache} {l1 l2 : List Entry} {p : Ptr} {k : GoString}
    {v0 : Order} (h : c.Repr (l1 ++ (p, k, v0) :: l2)) (v : Order) :
    ∃ m', c.mem.setValue p v = some m' ∧
      LRUCache.Repr { c with mem := m' } (l1 ++ (p, k, v) :: l2) := by
  have hkv : c.mem.kvOf p = some (k, v0) := h.data (p, k, v0) (by simp)
  obtain ⟨m', hs, hl, hk, hn, hp⟩ := Mem.setValue_spec c.mem p v hkv
  refine ⟨m', hs, ⟨?_, ?_, ?_, ?_⟩⟩
  · have hd := h.dll
    simp only [List.map_append, List.map_cons] at hd ⊢
    exact hd.congr (fun r _ => hn r) (fun r _ => hp r)
  · intro e he
    show m'.kvOf e.1 = some e.2
    rw [hk]
    rcases List.mem_append.mp he with h1 | h1
    · rw [if_neg (h.ptr_ne e (List.mem_append_left _ h1))]
      exact h.data e (List.mem_append_left _ h1)
    · rcases List.mem_cons.mp h1 with h2 | h2
      · rw [h2]; simp
      · rw [if_neg (h.ptr_ne e (List.mem_append_right _ h2))]
        exact h.data e (List.mem_append_right _ (List.mem_cons_of_mem _ h2))
  · have := h.keys
    simpa using this
  · have := h.items
    simpa using this

theorem LRUCache.Repr.touch {c : LRUCache} {l1 l2 : List Entry} {p : Ptr} {k : GoString}
    {v : Order} (h : c.Repr (l1 ++ (p, k, v) :: l2)) :
    ∃ m', c.moveToTail p = some { c with mem := m' } ∧
      LRUCache.Repr { c with mem := m' } (l1 ++ l2 ++ [(p, k, v)]) ∧
      m'.kvOf p = some (k, v) := by
  have hd := h.dll
  simp only [List.map_append, List.map_cons] at hd
  obtain ⟨m', hmv, hd', hl, hk⟩ := c.moveToTail_spec _ _ p hd
  have hperm : List.Perm (l1 ++ l2 ++ [(p, k, v)]) (l1 ++ (p, k, v) :: l2) := by
    rw [List.append_assoc]
    exact List.Perm.append_left l1 (List.perm_append_singleton _ _)
  refine ⟨m', hmv, ⟨?_, ?_, ?_, ?_⟩, ?_⟩
  · simpa using hd'
  · intro e he
    show m'.kvOf e.1 = some e.2
    rw [hk]
    exact h.data e (hperm.mem_iff.mp he)
  · exact ((hperm.map _).nodup_iff).mpr h.keys
  · exact h.items.trans (hperm.map _).symm
  · rw [hk]; exact h.data (p, k, v) (by simp)

theorem LRUCache.Repr.evictOldest {c : LRUCache} {l : List Entry} (h : c.Repr l) :
    ∃ c', c.evictOldest = some c' ∧ c'.Repr l.tail ∧ c'.capacity = c.capacity ∧
      c'.mem.length = c.mem.length := by
  cases l with
  | nil =>
    refine ⟨c, ?_, h, rfl, rfl⟩
    have hc := h.dll.chain
    simp only [List.map_nil, List.nil_append, List.cons_append, List.chain'_pair] at hc
    have hn := hc.1
    simp only [Mem.nextOf] at hn
    cases hh : c.mem.load c.head with
    | none => simp [hh] at hn
    | some n =>
      simp only [hh, Option.some_bind] at hn
      simp [LRUCache.evictOldest, hh, hn]
  | cons x l2 =>
    obtain ⟨p, k, v⟩ := x
    have hd := h.dll
    simp only [List.map_cons] at hd
    have hc := hd.chain
    rw [List.cons_append, List.cons_append, List.chain'_cons] at hc
    have hn := hc.1.1
    have hpt : p ≠ c.tail := by
      have hnd := hd.nodup
      simp only [List.cons_append, List.nodup_cons, List.mem_cons, List.mem_append,
        List.mem_singleton, not_or] at hnd
      exact hnd.2.1.2.1
    obtain ⟨m', hrm, hd', hl, hk⟩ := c.removeNode_spec [] (l2.map Prod.fst) p hd
    have hkv : m'.kvOf p = some (k, v) := by rw [hk]; exact h.data (p, k, v) (by simp)
    simp only [Mem.nextOf] at hn
    simp only [Mem.kvOf] at hkv
    cases hh : c.mem.load c.head with
    | none => simp [hh] at hn
    | some n =>
      cases ho : m'.load p with
      | none => simp [ho] at hkv
      | some o =>
        simp only [hh, Option.some_bind] at hn
        simp only [ho, Option.map_some', Option.some.injEq, Prod.mk.injEq] at hkv
        refine ⟨{ c with mem := m', items := GoMap.delete c.items k }, ?_, ⟨?_, ?_, ?_, ?_⟩,
          rfl, hl⟩
        · simp [LRUCache.evictOldest, hh, hn, hpt, hrm, ho, hkv.1]
        · simpa using hd'
        · intro e he
          show m'.kvOf e.1 = some e.2
          rw [hk]
          exact h.data e (List.mem_cons_of_mem _ he)
        · have := h.keys
          simp only [List.map_cons, List.nodup_cons] at this
          exact this.2
        · show List.Perm (GoMap.delete c.items k) _
          have hkeys := h.keys
          simp only [List.map_cons, List.nodup_cons] at hkeys
          have hp := List.Perm.filter (fun e => decide (e.1 ≠ k)) h.items
          have hnot : k ∉ (l2.map (fun e : Entry => (e.2.1, e.1))).map Prod.fst := by
            simpa [List.map_map, Function.comp_def] using hkeys.1
          have e2 := GoMap.delete_eq_self hnot
          unfold GoMap.delete at e2 ⊢
          rw [List.map_cons, List.filter_cons] at hp
          simp only [ne_eq, not_true_eq_false, decide_False, Bool.false_eq_true, if_false] at hp
          rw [e2] at hp
          exact hp

theorem GoMap.get_append_cons {K V : Type} [DecidableEq K] {l1 l2 : GoMap K V} {k : K} {v : V}
    (h1 : k ∉ l1.map Prod.fst) : GoMap.get (l1 ++ (k, v) :: l2) k = some v := by
  induction l1 with
  | nil => simp [GoMap.get]
  | cons e l1 ih =>
    obtain ⟨k', v'⟩ := e
    simp only [List.map_cons, List.mem_cons, not_or] at h1
    have hk : k' ≠ k := fun e => h1.1 e.symm
    simp only [List.cons_append, GoMap.get, hk, if_false]
    exact ih h1.2

theorem LRUCache.Repr.insert {c : LRUCache} {l : List Entry} (h : c.Repr l) {k : GoString}
    (hk : k ∉ l.map (fun e => e.2.1)) (v : Order) :
    ∃ c', LRUCache.addToTail
        { c with
          mem := (c.mem.alloc { Node.zero with key := k, value := v }).2
          items := GoMap.set c.items k c.mem.length } c.mem.length = some c' ∧
      c'.Repr (l ++ [(c.mem.length, k, v)]) ∧ c'.capacity = c.capacity := by
  obtain ⟨-, hlen, hold, hnew⟩ := Mem.alloc_spec c.mem { Node.zero with key := k, value := v }
  generalize (c.mem.alloc { Node.zero with key := k, value := v }).2 = m1 at hlen hold hnew ⊢
  have hd1 : DLL m1 c.head c.tail (l.map Prod.fst) :=
    h.dll.congr (fun r hr => by simp [Mem.nextOf, hold r hr])
      (fun r hr => by simp [Mem.prevOf, hold r hr])
  have hfresh : c.mem.length ∉ c.head :: l.map Prod.fst ++ [c.tail] := by
    intro hmem
    exact absurd (h.dll.lt_length _ hmem) (lt_irrefl _)
  obtain ⟨m2, hadd, hd2, hl2, hk2⟩ :=
    LRUCache.addToTail_spec
      { c with mem := m1, items := GoMap.set c.items k c.mem.length }
      (l.map Prod.fst) c.mem.length hd1 (by show c.mem.length < m1.length; omega) hfresh
  refine ⟨_, hadd, ⟨?_, ?_, ?_, ?_⟩, rfl⟩
  · simpa using hd2
  · intro e he
    show m2.kvOf e.1 = some e.2
    rw [hk2]
    show m1.kvOf e.1 = some e.2
    rcases List.mem_append.mp he with h1 | h1
    · have hlt : e.1 < c.mem.length :=
        h.dll.lt_length e.1 (by
          rw [List.cons_append]
          exact List.mem_cons_of_mem _ (List.mem_append_left _ (List.mem_map_of_mem Prod.fst h1)))
      have := h.data e h1
      simpa [Mem.kvOf, hold e.1 hlt] using this
    · rw [List.mem_singleton.mp h1]
      simp [Mem.kvOf, hnew]
  · rw [List.map_append, List.nodup_append]
    refine ⟨h.keys, by simp, ?_⟩
    intro x hx hx'
    simp only [List.map_cons, List.map_nil, List.mem_singleton] at hx'
    exact hk (hx' ▸ hx)
  · show List.Perm (GoMap.set c.items k c.mem.length) _
    have hnone : k ∉ c.items.map Prod.fst := GoMap.get_eq_none.mp (h.get_none.mpr hk)
    unfold GoMap.set
    rw [GoMap.delete_eq_self hnone, List.map_append]
    exact (List.Perm.cons _ h.items).trans (List.perm_append_singleton _ _).symm

theorem LRUCache.Repr.len {c : LRUCache} {l : List Entry} (h : c.Repr l) :
    GoMap.len c.items = l.length := by
  have := h.items.length_eq
  simpa [GoMap.len] using this

theorem LRUCache.Repr.key_not_mem {c : LRUCache} {l1 l2 : List Entry} {x : Entry}
    (h : c.Repr (l1 ++ x :: l2)) :
    x.2.1 ∉ (l1.map Prod.snd).map Prod.fst ∧ x.2.1 ∉ (l2.map Prod.snd).map Prod.fst := by
  have hk := h.keys
  rw [List.map_append, List.map_cons, List.nodup_middle, List.nodup_cons] at hk
  have hnot := hk.1
  simp only [List.mem_append, not_or] at hnot
  constructor
  · simpa [List.map_map, Function.comp_def] using hnot.1
  · simpa [List.map_map, Function.comp_def] using hnot.2

theorem LRUCache.Repr.Set {c : LRUCache} {l : List Entry} (h : c.Repr l) (k : GoString)
    (v : Order) :
    ∃ c' l', c.Set k v = some c' ∧ c'.Repr l' ∧ c'.capacity = c.capacity ∧
      l'.map Prod.snd = Contents.set c.capacity (l.map Prod.snd) k v := by
  cases hg : GoMap.get c.items k with
  | some p =>
    obtain ⟨l1, l2, v0, rfl⟩ := h.split hg
    obtain ⟨m0, hsv, h0⟩ := h.setValue v
    obtain ⟨m1, hmv, h1, -⟩ := h0.touch
    have hkn := h.key_not_mem
    refine ⟨_, _, ?_, h1, rfl, ?_⟩
    · simp only [LRUCache.Set, hg, hsv, Option.bind_eq_bind, Option.some_bind]
      exact hmv
    · have hget : GoMap.get ((l1 ++ (p, k, v0) :: l2).map Prod.snd) k = some v0 := by
        rw [List.map_append, List.map_cons]
        exact GoMap.get_append_cons hkn.1
      have hdel : GoMap.delete ((l1 ++ (p, k, v0) :: l2).map Prod.snd) k
          = (l1 ++ l2).map Prod.snd := by
        rw [List.map_append, List.map_cons, List.map_append]
        exact GoMap.delete_append_cons hkn.1 hkn.2
      simp only [Contents.set, hget, hdel]
      simp
  | none =>
    have hk : k ∉ l.map (fun e => e.2.1) := h.get_none.mp hg
    have hget : GoMap.get (l.map Prod.snd) k = none := by
      rw [GoMap.get_eq_none]
      simpa [List.map_map, Function.comp_def] using hk
    by_cases hcap : (GoMap.len c.items : Int) ≥ c.capacity
    · obtain ⟨c1, hev, h1, hcap1, hlen1⟩ := h.evictOldest
      have hk1 : k ∉ l.tail.map (fun e => e.2.1) := by
        intro hmem
        obtain ⟨e, he, hek⟩ := List.mem_map.mp hmem
        exact hk (List.mem_map.mpr ⟨e, List.mem_of_mem_tail he, hek⟩)
      obtain ⟨c2, hins, h2, hcap2⟩ := h1.insert hk1 v
      refine ⟨c2, _, ?_, h2, by rw [hcap2, hcap1], ?_⟩
      · simp only [LRUCache.Set, hg, hcap, if_true, hev, Option.bind_eq_bind, Option.some_bind]
        exact hins
      · have hcap' : ((l.map Prod.snd).length : Int) ≥ c.capacity := by
          rw [List.length_map, ← h.len]; exact hcap
        simp only [Contents.set, hget, hcap', if_true]
        simp [List.map_tail]
    · obtain ⟨c2, hins, h2, hcap2⟩ := h.insert hk v
      refine ⟨c2, _, ?_, h2, hcap2, ?_⟩
      · simp only [LRUCache.Set, hg, hcap, if_false, Option.bind_eq_bind, Option.some_bind,
          Option.pure_def]
        exact hins
      · have hcap' : ¬ ((l.map Prod.snd).length : Int) ≥ c.capacity := by
          rw [List.length_map, ← h.len]; exact hcap
        simp only [Contents.set, hget, hcap', if_false]
        simp

theorem LRUCache.Repr.Get {c : LRUCache} {l : List Entry} (h : c.Repr l) (k : GoString) :
    ∃ c' l', c.Get k = some (c', (Contents.get (l.map Prod.snd) k).2) ∧ c'.Repr l' ∧
      c'.capacity = c.capacity ∧ l'.map Prod.snd = (Contents.get (l.map Prod.snd) k).1 := by
  cases hg : GoMap.get c.items k with
  | some p =>
    obtain ⟨l1, l2, v0, rfl⟩ := h.split hg
    obtain ⟨m1, hmv, h1, hkv⟩ := h.touch
    have hkn := h.key_not_mem
    have hget : GoMap.get ((l1 ++ (p, k, v0) :: l2).map Prod.snd) k = some v0 := by
      rw [List.map_append, List.map_cons]
      exact GoMap.get_append_cons hkn.1
    have hdel : GoMap.delete ((l1 ++ (p, k, v0) :: l2).map Prod.snd) k
        = (l1 ++ l2).map Prod.snd := by
      rw [List.map_append, List.map_cons, List.map_append]
      exact GoMap.delete_append_cons hkn.1 hkn.2
    refine ⟨_, _, ?_, h1, rfl, ?_⟩
    · simp only [Mem.kvOf] at hkv
      cases hn : m1.load p with
      | none => simp [hn] at hkv
      | some n =>
        simp only [hn, Option.map_some', Option.some.injEq, Prod.mk.injEq] at hkv
        have hres : (Contents.get ((l1 ++ (p, k, v0) :: l2).map Prod.snd) k).2 = (v0, true) := by
          simp only [Contents.get, hget]
        rw [hres]
        simp [LRUCache.Get, hg, hmv, hn, hkv.2]
    · simp only [Contents.get, hget, hdel]
      simp
  | none =>
    have hk : k ∉ l.map (fun e => e.2.1) := h.get_none.mp hg
    have hget : GoMap.get (l.map Prod.snd) k = none := by
      rw [GoMap.get_eq_none]
      simpa [List.map_map, Function.comp_def] using hk
    refine ⟨c, l, ?_, h, rfl, ?_⟩
    · simp [LRUCache.Get, hg, Contents.get, hget]
    · simp [Contents.get, hget]

theorem NewLRUCache_repr (capacity : Int) : (NewLRUCache capacity).Repr [] := by
  refine ⟨⟨?_, ?_⟩, ?_, ?_, ?_⟩
  · simp [NewLRUCache, Linked, Mem.nextOf, Mem.prevOf, Mem.load, Node.zero]
  · simp [NewLRUCache]
  · simp
  · simp
  · simp [NewLRUCache]


/-! ### Observations of a shard, read off the contents -/

theorem LRUCache.Repr.get_isSome {c : LRUCache} {l : List Entry} (h : c.Repr l) (k : GoString) :
    (GoMap.get c.items k).isSome = (GoMap.get (l.map Prod.snd) k).isSome := by
  have h1 : GoMap.get c.items k = none ↔ GoMap.get (l.map Prod.snd) k = none := by
    rw [h.get_none, GoMap.get_eq_none]
    simp [List.map_map, Function.comp_def]
  cases h2 : GoMap.get c.items k with
  | none => rw [h1.mp h2]; rfl
  | some p =>
    cases h3 : GoMap.get (l.map Prod.snd) k with
    | none => rw [h1.mpr h3] at h2; cases h2
    | some v => rfl

theorem LRUCache.Repr.peek_eq {c : LRUCache} {l : List Entry} (h : c.Repr l) (k : GoString) :
    c.peek k = GoMap.get (l.map Prod.snd) k := by
  cases hg : GoMap.get c.items k with
  | none =>
    have := h.get_isSome k
    rw [hg] at this
    cases h3 : GoMap.get (l.map Prod.snd) k with
    | none => simp [LRUCache.peek, hg]
    | some v => rw [h3] at this; cases this
  | some p =>
    obtain ⟨l1, l2, v0, rfl⟩ := h.split hg
    have hkn := h.key_not_mem
    have hkv : c.mem.kvOf p = some (k, v0) := h.data (p, k, v0) (by simp)
    rw [List.map_append, List.map_cons, GoMap.get_append_cons hkn.1]
    simp only [Mem.kvOf] at hkv
    cases hn : c.mem.load p with
    | none => simp [hn] at hkv
    | some n =>
      simp only [hn, Option.map_some', Option.some.injEq, Prod.mk.injEq] at hkv
      simp [LRUCache.peek, hg, hn, hkv.2]

theorem LRUCache.Repr.stored_iff {c : LRUCache} {l : List Entry} (h : c.Repr l) (k : GoString) :
    c.stored k ↔ k ∈ (l.map Prod.snd).map Prod.fst := by
  unfold LRUCache.stored
  rw [h.get_isSome k]
  cases h3 : GoMap.get (l.map Prod.snd) k with
  | none => simpa using GoMap.get_eq_none.mp h3
  | some v =>
    simp only [Option.isSome_some, true_iff]
    exact List.mem_map_of_mem Prod.fst (GoMap.mem_of_get h3)

theorem LRUCache.Repr.newest_eq {c : LRUCache} {l : List Entry} (h : c.Repr l) :
    c.newest = ((l.map Prod.snd).getLast?).map Prod.fst := by
  rcases List.eq_nil_or_concat l with e | ⟨l0, x, e⟩
  · subst e
    have hc := h.dll.chain
    simp only [List.map_nil, List.nil_append, List.cons_append, List.chain'_pair] at hc
    simp [LRUCache.newest, hc.2]
  · rw [List.concat_eq_append] at e
    subst e
    obtain ⟨p, k, v⟩ := x
    have hc := h.dll.chain
    have hnd := h.dll.nodup
    have e : c.head :: List.map Prod.fst (l0 ++ [(p, k, v)]) ++ [c.tail]
        = (c.head :: l0.map Prod.fst) ++ [p, c.tail] := by simp
    rw [e] at hc hnd
    rw [List.chain'_split, List.chain'_pair] at hc
    have hph : p ≠ c.head := by
      intro e'
      rw [List.nodup_append] at hnd
      exact hnd.2.2 (List.mem_cons_self _ _) (by rw [e']; simp)
    have hkv : c.mem.kvOf p = some (k, v) := h.data (p, k, v) (by simp)
    simp only [Mem.kvOf] at hkv
    cases hn : c.mem.load p with
    | none => simp [hn] at hkv
    | some n =>
      simp only [hn, Option.map_some', Option.some.injEq, Prod.mk.injEq] at hkv
      simp [LRUCache.newest, hc.2.2, hph, hn, hkv.1]

theorem LRUCache.Repr.oldest_eq {c : LRUCache} {l : List Entry} (h : c.Repr l) :
    c.oldest = ((l.map Prod.snd).head?).map Prod.fst := by
  cases l with
  | nil =>
    have hc := h.dll.chain
    simp only [List.map_nil, List.nil_append, List.cons_append, List.chain'_pair] at hc
    simp [LRUCache.oldest, hc.1]
  | cons x l2 =>
    obtain ⟨p, k, v⟩ := x
    have hc := h.dll.chain
    have hnd := h.dll.nodup
    simp only [List.map_cons, List.cons_append, List.chain'_cons] at hc
    have hpt : p ≠ c.tail := by
      simp only [List.map_cons, List.cons_append, List.nodup_cons, List.mem_cons,
        List.mem_append, List.mem_singleton, not_or] at hnd
      exact hnd.2.1.2.1
    have hkv : c.mem.kvOf p = some (k, v) := h.data (p, k, v) (by simp)
    simp only [Mem.kvOf] at hkv
    cases hn : c.mem.load p with
    | none => simp [hn] at hkv
    | some n =>
      simp only [hn, Option.map_some', Option.some.injEq, Prod.mk.injEq] at hkv
      simp [LRUCache.oldest, hc.1.1, hpt, hn, hkv.1]

/-! ### Runs -/

theorem LRUCache.Repr.call {c : LRUCache} {l : List Entry} (h : c.Repr l) (x : Call) :
    ∃ c' l', c.call x = some c' ∧ c'.Repr l' ∧ c'.capacity = c.capacity ∧
      l'.map Prod.snd = Contents.call c.capacity (l.map Prod.snd) x ∧
      c.touched x = Contents.touched (l.map Prod.snd) x := by
  cases x with
  | get uid =>
    obtain ⟨c', l', hget, hr, hcap, hl⟩ := h.Get uid
    exact ⟨c', l', by simp [LRUCache.call, hget], hr, hcap, hl,
      by simp only [LRUCache.touched, Contents.touched, h.get_isSome uid]⟩
  | set uid order =>
    obtain ⟨c', l', hset, hr, hcap, hl⟩ := h.Set uid order
    exact ⟨c', l', hset, hr, hcap, hl, rfl⟩

theorem LRUCache.Repr.history {c : LRUCache} {l : List Entry} (h : c.Repr l)
    (log : List GoString) (calls : List Call) :
    ∃ c' l', c.history log calls
        = some (c', (Contents.history c.capacity (l.map Prod.snd) log calls).2) ∧
      c'.Repr l' ∧ c'.capacity = c.capacity ∧
      l'.map Prod.snd = (Contents.history c.capacity (l.map Prod.snd) log calls).1 := by
  induction calls generalizing c l log with
  | nil => exact ⟨c, l, rfl, h, rfl, rfl⟩
  | cons x xs ih =>
    obtain ⟨c1, l1, hcall, hr1, hcap1, hl1, ht⟩ := h.call x
    obtain ⟨c2, l2, hh, hr2, hcap2, hl2⟩ := ih hr1 ((c.touched x).toList ++ log)
    refine ⟨c2, l2, ?_, hr2, by rw [hcap2, hcap1], ?_⟩
    · rw [hcap1, hl1, ht] at hh
      simp only [LRUCache.history, hcall, Contents.history, ht]
      exact hh
    · rw [hl2, hcap1, hl1, ht]
      simp only [Contents.history]


/-! ### The contents along a run -/

theorem GoMap.delete_sublist {K V : Type} [DecidableEq K] (m : GoMap K V) (k : K) :
    List.Sublist (GoMap.delete m k) m :=
  List.filter_sublist m

theorem GoMap.not_mem_delete {K V : Type} [DecidableEq K] (m : GoMap K V) (k : K) :
    k ∉ (GoMap.delete m k).map Prod.fst := by
  intro h
  obtain ⟨e, he, hek⟩ := List.mem_map.mp h
  have := (List.mem_filter.mp he).2
  simp only [ne_eq, decide_eq_true_eq] at this
  exact this hek

theorem GoMap.length_delete_lt {K V : Type} [DecidableEq K] {m : GoMap K V} {k : K} {v : V}
    (h : GoMap.get m k = some v) : (GoMap.delete m k).length < m.length := by
  have hmem := GoMap.mem_of_get h
  by_contra hlt
  have hle := (GoMap.delete_sublist m k).length_le
  have heq : (GoMap.delete m k).length = m.length := by omega
  have := (GoMap.delete_sublist m k).eq_of_length heq
  have hk := GoMap.not_mem_delete m k
  rw [this] at hk
  exact hk (List.mem_map_of_mem Prod.fst hmem)

theorem GoMap.get_append_of_ne {K V : Type} [DecidableEq K] (l : GoMap K V) {k k' : K} (v : V)
    (h : k' ≠ k) : GoMap.get (l ++ [(k', v)]) k = GoMap.get l k := by
  induction l with
  | nil => simp [GoMap.get, h]
  | cons e l ih =>
    obtain ⟨k1, v1⟩ := e
    by_cases hk : k1 = k
    · simp [GoMap.get, hk]
    · simp [GoMap.get, hk, ih]

theorem touchAge_cons (log : List GoString) (k a : GoString) :
    touchAge (k :: log) a = if k = a then 0 else touchAge log a + 1 := rfl

theorem Contents.Inv.after_touch {cap : Int} {l l0 : Contents} {log : List GoString}
    (h : Contents.Inv cap l log) (hsub : List.Sublist l0 l) {k : GoString}
    (hk : k ∉ l0.map Prod.fst) (hlen : (l0.length : Int) + 1 ≤ cap) (v : Order) :
    Contents.Inv cap (l0 ++ [(k, v)]) (k :: log) := by
  have hsubk : List.Sublist (l0.map Prod.fst) (l.map Prod.fst) := hsub.map Prod.fst
  refine ⟨by simpa using hlen, ?_, ?_⟩
  · rw [List.map_append, List.nodup_append]
    refine ⟨h.keys.sublist hsubk, by simp, ?_⟩
    intro x hx hx'
    simp only [List.map_cons, List.map_nil, List.mem_singleton] at hx'
    exact hk (hx' ▸ hx)
  · rw [List.map_append, List.pairwise_append]
    refine ⟨?_, by simp, ?_⟩
    · have hp := (h.order.sublist hsubk)
      rw [List.pairwise_iff_forall_sublist] at hp ⊢
      intro a b hab
      have ha : a ∈ l0.map Prod.fst := hab.subset (by simp)
      have hb : b ∈ l0.map Prod.fst := hab.subset (by simp)
      have hka : k ≠ a := fun e => hk (e ▸ ha)
      have hkb : k ≠ b := fun e => hk (e ▸ hb)
      rw [touchAge_cons, touchAge_cons, if_neg hka, if_neg hkb]
      exact Nat.succ_lt_succ (hp hab)
    · intro a ha b hb
      simp only [List.map_cons, List.map_nil, List.mem_singleton] at hb
      have hka : k ≠ a := fun e => hk (e ▸ ha)
      rw [hb, touchAge_cons, touchAge_cons, if_pos rfl, if_neg hka]
      exact Nat.succ_pos _

theorem Contents.Inv.after_call {cap : Int} {l : Contents} {log : List GoString}
    (h : Contents.Inv cap l log) (hcap : 1 ≤ cap) (x : Call) :
    Contents.Inv cap (Contents.call cap l x) ((Contents.touched l x).toList ++ log) := by
  cases x with
  | get uid =>
    cases hg : GoMap.get l uid with
    | none => simpa [Contents.call, Contents.get, Contents.touched, hg] using h
    | some v0 =>
      have hlt := GoMap.length_delete_lt hg
      have hb := h.bound
      have := h.after_touch (GoMap.delete_sublist l uid) (GoMap.not_mem_delete l uid)
        (by omega) v0
      simpa [Contents.call, Contents.get, Contents.touched, hg] using this
  | set uid order =>
    cases hg : GoMap.get l uid with
    | some v0 =>
      have hlt := GoMap.length_delete_lt hg
      have hb := h.bound
      have := h.after_touch (GoMap.delete_sublist l uid) (GoMap.not_mem_delete l uid)
        (by omega) order
      simpa [Contents.call, Contents.set, Contents.touched, hg] using this
    | none =>
      have hk := GoMap.get_eq_none.mp hg
      have hb := h.bound
      by_cases hfull : (l.length : Int) ≥ cap
      · have hk' : uid ∉ l.tail.map Prod.fst := by
          intro hmem
          exact hk ((List.tail_sublist l).map Prod.fst |>.subset hmem)
        have hlen : (l.tail.length : Int) + 1 ≤ cap := by
          have : l.length ≠ 0 := by
            intro e; rw [e] at hfull; simp at hfull; omega
          rw [List.length_tail]
          omega
        have := h.after_touch (List.tail_sublist l) hk' hlen order
        simpa [Contents.call, Contents.set, Contents.touched, hg, hfull] using this
      · have := h.after_touch (List.Sublist.refl l) hk (by omega) order
        simpa [Contents.call, Contents.set, Contents.touched, hg, hfull] using this

theorem Contents.Inv.after_history {cap : Int} {l : Contents} {log : List GoString}
    (h : Contents.Inv cap l log) (hcap : 1 ≤ cap) (calls : List Call) :
    Contents.Inv cap (Contents.history cap l log calls).1 (Contents.history cap l log calls).2 := by
  induction calls generalizing l log with
  | nil => exact h
  | cons x xs ih => exact ih (h.after_call hcap x)

theorem Contents.Inv.init {cap : Int} (hcap : 1 ≤ cap) : Contents.Inv cap [] [] :=
  ⟨by simp; omega, by simp, by simp⟩

/-- Every run of a fresh shard succeeds, ends in a state that satisfies the
representation invariant, and its contents satisfy the run invariant. -/
theorem NewLRUCache_history (C : Int) (hC : 1 ≤ C) (calls : List Call) :
    ∃ c l log, (NewLRUCache C).history [] calls = some (c, log) ∧ c.Repr l ∧ c.capacity = C ∧
      Contents.Inv C (l.map Prod.snd) log := by
  obtain ⟨c, l, hh, hr, hcap, hl⟩ := (NewLRUCache_repr C).history [] calls
  refine ⟨c, l, _, hh, hr, hcap, ?_⟩
  rw [hl]
  exact (Contents.Inv.init hC).after_history hC calls


theorem Contents.history_append (cap : Int) (l : Contents) (log : List GoString)
    (xs ys : List Call) :
    Contents.history cap l log (xs ++ ys)
      = Contents.history cap (Contents.history cap l log xs).1
          (Contents.history cap l log xs).2 ys := by
  induction xs generalizing l log with
  | nil => rfl
  | cons x xs ih => exact ih (Contents.call cap l x) ((Contents.touched l x).toList ++ log)

/-- Setting distinct new keys while there is room appends them in order. -/
theorem Contents.history_sets_room (cap : Int) (kvs : List (GoString × Order)) :
    ∀ (l : Contents) (log : List GoString), ((l ++ kvs).map Prod.fst).Nodup →
      ((l.length : Int) + kvs.length ≤ cap) →
      (Contents.history cap l log (kvs.map (fun e => Call.set e.1 e.2))).1 = l ++ kvs := by
  induction kvs with
  | nil => intro l log _ _; simp [Contents.history]
  | cons x kvs ih =>
    intro l log hnd hlen
    obtain ⟨k, v⟩ := x
    have hk : k ∉ l.map Prod.fst := by
      rw [List.map_append, List.map_cons, List.nodup_middle, List.nodup_cons] at hnd
      intro hmem
      exact hnd.1 (List.mem_append_left _ hmem)
    have hg : GoMap.get l k = none := GoMap.get_eq_none.mpr hk
    have hroom : ¬ (l.length : Int) ≥ cap := by
      simp only [List.length_cons, Nat.cast_add, Nat.cast_one] at hlen
      omega
    have hstep : Contents.call cap l (Call.set k v) = l ++ [(k, v)] := by
      simp [Contents.call, Contents.set, hg, hroom]
    simp only [List.map_cons, Contents.history, hstep]
    rw [ih (l ++ [(k, v)]) _ (by simpa using hnd)
      (by simp only [List.length_append, List.length_cons, List.length_nil, Nat.cast_add,
            Nat.cast_one, List.length_cons] at hlen ⊢; omega)]
    simp

/-- Setting `C + 1` distinct keys on empty contents of capacity `C` leaves all
but the first. -/
theorem Contents.history_sets_overflow (C : Nat) (hC : 1 ≤ C) (x : GoString × Order)
    (rest : List (GoString × Order)) (hlen : rest.length = C)
    (hnd : ((x :: rest).map Prod.fst).Nodup) :
    (Contents.history (C : Int) [] [] ((x :: rest).map (fun e => Call.set e.1 e.2))).1 = rest := by
  have hne : rest ≠ [] := by
    intro e; rw [e] at hlen; simp at hlen; omega
  have hsplit : x :: rest = (x :: rest.dropLast) ++ [rest.getLast hne] := by
    rw [List.cons_append, List.dropLast_append_getLast]
  have hnd' := hnd
  rw [hsplit, List.map_append] at hnd'
  rw [hsplit, List.map_append, Contents.history_append]
  have hinit := Contents.history_sets_room (C : Int) (x :: rest.dropLast) [] []
    (by simpa using (List.nodup_append.mp hnd').1)
    (by simp only [List.length_nil, List.length_cons, List.length_dropLast, hlen]
        push_cast
        omega)
  rw [List.nil_append] at hinit
  have hk : (rest.getLast hne).1 ∉ (x :: rest.dropLast).map Prod.fst := by
    intro hmem
    exact (List.nodup_append.mp hnd').2.2 hmem (by simp)
  have hg : GoMap.get (x :: rest.dropLast) (rest.getLast hne).1 = none :=
    GoMap.get_eq_none.mpr hk
  have hfull : ((x :: rest.dropLast).length : Int) ≥ (C : Int) := by
    simp only [List.length_cons, List.length_dropLast, hlen]
    push_cast
    omega
  rw [hinit]
  simp only [List.map_cons, List.map_nil, Contents.history, Contents.call, Contents.set, hg,
    hfull, if_true, List.tail_cons]
  exact List.dropLast_append_getLast hne


/-! ### The recency order read from the list -/

theorem nodup_length_le {l : List Nat} {N : Nat} (hnd : l.Nodup) (hlt : ∀ x ∈ l, x < N) :
    l.length ≤ N := by
  have h1 : l.toFinset ⊆ Finset.range N := by
    intro x hx
    exact Finset.mem_range.mpr (hlt x (List.mem_toFinset.mp hx))
  have h2 := Finset.card_le_card h1
  rw [List.toFinset_card_of_nodup hnd, Finset.card_range] at h2
  exact h2

theorem LRUCache.walk_chain (c : LRUCache) :
    ∀ (ps : List Entry) (a : Ptr) (fuel : Nat) (p : Ptr),
      List.Chain' (Linked c.mem) (a :: (ps.map Prod.fst ++ [c.tail])) →
      c.tail ∉ ps.map Prod.fst → (∀ e ∈ ps, c.mem.kvOf e.1 = some e.2) → ps.length < fuel →
      (ps.map Prod.fst ++ [c.tail]).head? = some p →
      c.walk fuel p = ps.map (fun e => e.2.1)
  | [], a, fuel, p, _, _, _, hf, hp => by
      simp only [List.map_nil, List.nil_append, List.head?_cons, Option.some.injEq] at hp
      subst hp
      cases fuel with
      | zero => simp at hf
      | succ f => simp [LRUCache.walk]
  | e :: ps, a, fuel, p, hc, ht, hd, hf, hp => by
      simp only [List.map_cons, List.cons_append, List.head?_cons, Option.some.injEq] at hp
      subst hp
      cases fuel with
      | zero => simp at hf
      | succ f =>
        simp only [List.map_cons, List.cons_append, List.chain'_cons] at hc
        simp only [List.map_cons, List.mem_cons, not_or] at ht
        have hne : ¬ e.1 = c.tail := fun h => ht.1 h.symm
        have hkv := hd e (List.mem_cons_self _ _)
        obtain ⟨q, hq⟩ : ∃ q, (ps.map Prod.fst ++ [c.tail]).head? = some q := by
          cases ps with
          | nil => exact ⟨c.tail, rfl⟩
          | cons x xs => exact ⟨x.1, rfl⟩
        have hnext : c.mem.nextOf e.1 = some q := by
          have hc2 := hc.2
          cases hps : ps.map Prod.fst ++ [c.tail] with
          | nil => rw [hps] at hq; cases hq
          | cons y ys =>
            rw [hps] at hq hc2
            simp only [List.head?_cons, Option.some.injEq] at hq
            rw [List.chain'_cons] at hc2
            rw [← hq]
            exact hc2.1.1
        have ih := LRUCache.walk_chain c ps e.1 f q hc.2 ht.2
          (fun x hx => hd x (List.mem_cons_of_mem _ hx))
          (by simp only [List.length_cons] at hf; omega) hq
        simp only [Mem.kvOf] at hkv
        simp only [Mem.nextOf] at hnext
        cases hn : c.mem.load e.1 with
        | none => simp [hn] at hkv
        | some n =>
          simp only [hn, Option.map_some', Option.some.injEq] at hkv
          simp only [hn, Option.some_bind] at hnext
          simp only [LRUCache.walk, hne, if_false, hn, hnext, ih, List.map_cons]
          rw [← hkv]

theorem LRUCache.Repr.keysOldestFirst_eq {c : LRUCache} {l : List Entry} (h : c.Repr l) :
    c.keysOldestFirst = (l.map Prod.snd).map Prod.fst := by
  have hc := h.dll.chain
  have hnd := h.dll.nodup
  rw [List.cons_append] at hc hnd
  obtain ⟨p, hp⟩ : ∃ p, (l.map Prod.fst ++ [c.tail]).head? = some p := by
    cases l with
    | nil => exact ⟨c.tail, rfl⟩
    | cons x xs => exact ⟨x.1, rfl⟩
  have hnext : c.mem.nextOf c.head = some p := by
    cases hps : l.map Prod.fst ++ [c.tail] with
    | nil => rw [hps] at hp; cases hp
    | cons y ys =>
      rw [hps] at hp hc
      simp only [List.head?_cons, Option.some.injEq] at hp
      rw [List.chain'_cons] at hc
      rw [← hp]
      exact hc.1.1
  have ht : c.tail ∉ l.map Prod.fst := by
    rw [List.nodup_cons, List.nodup_append] at hnd
    intro hmem
    exact hnd.2.2.2 hmem (by simp)
  have hlen : l.length < c.mem.length := by
    have := nodup_length_le h.dll.nodup h.dll.lt_length
    simp only [List.cons_append, List.length_cons, List.length_append, List.length_map,
      List.length_nil] at this
    omega
  have := c.walk_chain l c.head c.mem.length p hc ht h.data hlen hp
  simp only [LRUCache.keysOldestFirst, hnext, this, List.map_map]
  rfl

/-- Every state that a run of a fresh shard reaches, whatever its capacity,
satisfies the representation invariant. -/
theorem NewLRUCache_run_repr {C : Int} {calls : List Call} {c : LRUCache}
    (hrun : (NewLRUCache C).run calls = some c) : ∃ l, c.Repr l ∧ c.capacity = C := by
  obtain ⟨c0, l, hh, hr, hcap, -⟩ := (NewLRUCache_repr C).history [] calls
  simp only [LRUCache.run, hh, Option.map_some', Option.some.injEq] at hrun
  subst hrun
  exact ⟨l, hr, hcap⟩


/-! ### More on the contents: updates, hits and values -/

theorem GoMap.get_append_cons_ne {K V : Type} [DecidableEq K] (l1 l2 : GoMap K V) {k e : K}
    (v : V) (h : k ≠ e) : GoMap.get (l1 ++ (k, v) :: l2) e = GoMap.get (l1 ++ l2) e := by
  induction l1 with
  | nil => simp [GoMap.get, h]
  | cons x l1 ih =>
    obtain ⟨k1, v1⟩ := x
    by_cases hk : k1 = e
    · simp [GoMap.get, hk]
    · simp [GoMap.get, hk, ih]

theorem GoMap.exists_split {K V : Type} [DecidableEq K] {l : GoMap K V} {k : K} {v : V}
    (hnd : (l.map Prod.fst).Nodup) (hg : GoMap.get l k = some v) :
    ∃ l1 l2, l = l1 ++ (k, v) :: l2 ∧ k ∉ l1.map Prod.fst ∧ k ∉ l2.map Prod.fst := by
  obtain ⟨l1, l2, hl⟩ := List.append_of_mem (GoMap.mem_of_get hg)
  refine ⟨l1, l2, hl, ?_⟩
  rw [hl, List.map_append, List.map_cons, List.nodup_middle, List.nodup_cons] at hnd
  have := hnd.1
  simp only [List.mem_append, not_or] at this
  exact this

/-- What `Set` of a stored key does to contents with distinct keys. -/
theorem Contents.set_existing (cap : Int) {l : Contents} {k : GoString} {v0 : Order}
    (hnd : (l.map Prod.fst).Nodup) (hg : GoMap.get l k = some v0) (v : Order) :
    (Contents.set cap l k v).map Prod.fst
        = (l.map Prod.fst).filter (fun e => decide (e ≠ k)) ++ [k] ∧
      (Contents.set cap l k v).length = l.length ∧
      GoMap.get (Contents.set cap l k v) k = some v ∧
      (∀ e, e ≠ k → GoMap.get (Contents.set cap l k v) e = GoMap.get l e) ∧
      ((Contents.set cap l k v).getLast?).map Prod.fst = some k := by
  obtain ⟨l1, l2, rfl, h1, h2⟩ := GoMap.exists_split hnd hg
  have hset : Contents.set cap (l1 ++ (k, v0) :: l2) k v = l1 ++ l2 ++ [(k, v)] := by
    simp only [Contents.set, hg, GoMap.delete_append_cons h1 h2]
  have hf : ∀ (m : GoMap GoString Order), k ∉ m.map Prod.fst →
      (m.map Prod.fst).filter (fun e => decide (e ≠ k)) = m.map Prod.fst := by
    intro m hm
    rw [List.filter_eq_self]
    intro e he
    simp only [ne_eq, decide_eq_true_eq]
    intro hek
    exact hm (hek ▸ he)
  rw [hset]
  refine ⟨?_, ?_, ?_, ?_, ?_⟩
  · simp only [List.map_append, List.map_cons, List.map_nil, List.filter_append,
      List.filter_cons, hf l1 h1, hf l2 h2]
    simp
  · simp only [List.length_append, List.length_cons, List.length_nil]
    omega
  · rw [List.append_assoc]
    have h12 : k ∉ (l1 ++ l2).map Prod.fst := by
      rw [List.map_append, List.mem_append, not_or]
      exact ⟨h1, h2⟩
    rw [← List.append_assoc]
    exact @GoMap.get_append_cons _ _ _ (l1 ++ l2) [] k v h12
  · intro e he
    rw [GoMap.get_append_of_ne _ _ (fun h => he h.symm),
      GoMap.get_append_cons_ne _ _ _ (fun h => he h.symm)]
  · simp

theorem Contents.get_set_self (cap : Int) (l : Contents) (k : GoString) (v : Order) :
    GoMap.get (Contents.set cap l k v) k = some v := by
  cases hg : GoMap.get l k with
  | some v0 =>
    simp only [Contents.set, hg]
    exact @GoMap.get_append_cons _ _ _ (GoMap.delete l k) [] k v (GoMap.not_mem_delete l k)
  | none =>
    have hk := GoMap.get_eq_none.mp hg
    simp only [Contents.set, hg]
    by_cases hfull : (l.length : Int) ≥ cap
    · rw [if_pos hfull]
      have hk1 : k ∉ l.tail.map Prod.fst := fun hmem =>
        hk (((List.tail_sublist l).map Prod.fst).subset hmem)
      exact @GoMap.get_append_cons _ _ _ l.tail [] k v hk1
    · rw [if_neg hfull]
      exact @GoMap.get_append_cons _ _ _ l [] k v hk

theorem lastSet_snoc (pre : List Call) (x : Call) (k : GoString) :
    lastSet (pre ++ [x]) k =
      (match x with
        | Call.get _ => lastSet pre k
        | Call.set uid order => if uid = k then some order else lastSet pre k) := by
  cases x <;> simp [lastSet, List.foldl_append]

theorem Contents.call_lastSet (cap : Int) (l : Contents) (pre : List Call) (x : Call)
    (h : ∀ e ∈ l, lastSet pre e.1 = some e.2) :
    ∀ e ∈ Contents.call cap l x, lastSet (pre ++ [x]) e.1 = some e.2 := by
  intro e he
  rw [lastSet_snoc]
  cases x with
  | get uid =>
    simp only
    cases hg : GoMap.get l uid with
    | none =>
      simp only [Contents.call, Contents.get, hg] at he
      exact h e he
    | some v0 =>
      simp only [Contents.call, Contents.get, hg, List.mem_append, List.mem_singleton] at he
      rcases he with he | he
      · exact h e ((GoMap.delete_sublist l uid).subset he)
      · rw [he]
        exact h (uid, v0) (GoMap.mem_of_get hg)
  | set uid order =>
    simp only
    have hmem : e = (uid, order) ∨ (e ∈ l ∧ e.1 ≠ uid) := by
      cases hg : GoMap.get l uid with
      | some v0 =>
        simp only [Contents.call, Contents.set, hg, List.mem_append, List.mem_singleton] at he
        rcases he with he | he
        · right
          refine ⟨(GoMap.delete_sublist l uid).subset he, ?_⟩
          have := (List.mem_filter.mp he).2
          simpa using this
        · exact Or.inl he
      | none =>
        have hk := GoMap.get_eq_none.mp hg
        simp only [Contents.call, Contents.set, hg, List.mem_append, List.mem_singleton] at he
        rcases he with he | he
        · right
          have hl : e ∈ l := by
            by_cases hfull : (l.length : Int) ≥ cap
            · rw [if_pos hfull] at he
              exact List.mem_of_mem_tail he
            · rw [if_neg hfull] at he
              exact he
          exact ⟨hl, fun heq => hk (heq ▸ List.mem_map_of_mem Prod.fst hl)⟩
        · exact Or.inl he
    rcases hmem with rfl | ⟨hl, hne⟩
    · simp
    · rw [if_neg (fun heq => hne heq.symm)]
      exact h e hl

theorem Contents.history_lastSet (cap : Int) :
    ∀ (xs : List Call) (l : Contents) (log : List GoString) (pre : List Call),
      (∀ e ∈ l, lastSet pre e.1 = some e.2) →
      ∀ e ∈ (Contents.history cap l log xs).1, lastSet (pre ++ xs) e.1 = some e.2
  | [], l, log, pre, h => by simpa [Contents.history] using h
  | x :: xs, l, log, pre, h => by
      have ih := Contents.history_lastSet cap xs (Contents.call cap l x)
        ((Contents.touched l x).toList ++ log) (pre ++ [x])
        (Contents.call_lastSet cap l pre x h)
      simpa [Contents.history] using ih


/-! ## Lemmas: the shard router -/

theorem fnv.Write_eq_foldl (key : GoString) (hash : Nat) :
    fnv.Write hash key
      = key.foldl (fun h b => (Nat.xor h b.val * 16777619) % 4294967296) hash := by
  induction key generalizing hash with
  | nil => rfl
  | cons c data ih =>
    simp only [fnv.Write, List.foldl_cons]
    rw [ih]
    rfl

theorem ShardedCache.getShardIndex_eq (sc : ShardedCache) (key : GoString)
    (h : sc.numShards ≠ 0) : sc.getShardIndex key = some (fnv1a32 key % sc.numShards) := by
  simp only [ShardedCache.getShardIndex, h, if_false, fnv.Sum32, fnv.Write_eq_foldl, fnv.New32a,
    fnv1a32]

theorem ShardedCache.Get_fields {sc sc1 : ShardedCache} {uid : GoString} {r : Order × Bool}
    (h : sc.Get uid = some (sc1, r)) :
    sc1.numShards = sc.numShards ∧ sc1.shards.length = sc.shards.length := by
  unfold ShardedCache.Get at h
  cases hi : sc.getShardIndex uid with
  | none => rw [hi] at h; cases h
  | some i =>
    rw [hi] at h
    simp only at h
    cases hs : sc.shards[i]? with
    | none => rw [hs] at h; cases h
    | some shard =>
      rw [hs] at h
      simp only at h
      cases hg : shard.Get uid with
      | none => rw [hg] at h; cases h
      | some res =>
        rw [hg] at h
        simp only [Option.some.injEq, Prod.mk.injEq] at h
        rw [← h.1]
        simp

theorem ShardedCache.Set_fields {sc sc1 : ShardedCache} {uid : GoString} {order : Order}
    (h : sc.Set uid order = some sc1) :
    sc1.numShards = sc.numShards ∧ sc1.shards.length = sc.shards.length := by
  unfold ShardedCache.Set at h
  cases hi : sc.getShardIndex uid with
  | none => rw [hi] at h; cases h
  | some i =>
    rw [hi] at h
    simp only at h
    cases hs : sc.shards[i]? with
    | none => rw [hs] at h; cases h
    | some shard =>
      rw [hs] at h
      simp only at h
      cases hg : shard.Set uid order with
      | none => rw [hg] at h; cases h
      | some res =>
        rw [hg] at h
        simp only [Option.some.injEq] at h
        rw [← h]
        simp

theorem ShardedCache.run_fields :
    ∀ (calls : List Call) (sc sc1 : ShardedCache), sc.run calls = some sc1 →
      sc1.numShards = sc.numShards ∧ sc1.shards.length = sc.shards.length
  | [], sc, sc1, h => by
      simp only [ShardedCache.run, Option.some.injEq] at h
      rw [h]
      exact ⟨rfl, rfl⟩
  | Call.get uid :: xs, sc, sc1, h => by
      unfold ShardedCache.run at h
      cases hg : sc.Get uid with
      | none => rw [hg] at h; cases h
      | some res =>
        obtain ⟨sc2, r⟩ := res
        rw [hg] at h
        have h1 := ShardedCache.Get_fields hg
        have h2 := ShardedCache.run_fields xs sc2 sc1 h
        exact ⟨h2.1.trans h1.1, h2.2.trans h1.2⟩
  | Call.set uid order :: xs, sc, sc1, h => by
      unfold ShardedCache.run at h
      cases hg : sc.Set uid order with
      | none => rw [hg] at h; cases h
      | some sc2 =>
        rw [hg] at h
        have h1 := ShardedCache.Set_fields hg
        have h2 := ShardedCache.run_fields xs sc2 sc1 h
        exact ⟨h2.1.trans h1.1, h2.2.trans h1.2⟩

theorem NewShardedCache_fields (capacityPerShard : Int) (N : Nat) (hN1 : 1 ≤ N)
    (hN2 : N < 2 ^ 32) :
    (NewShardedCache capacityPerShard N).numShards = N ∧
      (NewShardedCache capacityPerShard N).shards.length = N := by
  have hpos : ¬ ((N : Int) ≤ 0) := by omega
  simp only [NewShardedCache, hpos, if_false, Int.toNat_ofNat, List.length_replicate, and_true]
  exact Nat.mod_eq_of_lt hN2



/-! ### Capacities of at most 1 -/

theorem Contents.set_cap_le_one {cap : Int} (hcap : cap ≤ 1) (l : Contents) (k : GoString)
    (v : Order) : Contents.set cap l k v = Contents.set 1 l k v := by
  cases hg : GoMap.get l k with
  | some v0 => simp only [Contents.set, hg]
  | none =>
    simp only [Contents.set, hg]
    cases l with
    | nil => simp
    | cons x t =>
      have h1 : ((x :: t).length : Int) ≥ cap := by
        simp only [List.length_cons, Nat.cast_add, Nat.cast_one]
        omega
      have h2 : ((x :: t).length : Int) ≥ 1 := by
        simp only [List.length_cons, Nat.cast_add, Nat.cast_one]
        omega
      rw [if_pos h1, if_pos h2]

theorem Contents.history_cap_le_one {cap : Int} (hcap : cap ≤ 1) :
    ∀ (xs : List Call) (l : Contents) (log : List GoString),
      Contents.history cap l log xs = Contents.history 1 l log xs
  | [], _, _ => rfl
  | x :: xs, l, log => by
      have hcall : Contents.call cap l x = Contents.call 1 l x := by
        cases x with
        | get uid => rfl
        | set uid order => exact Contents.set_cap_le_one hcap l uid order
      simp only [Contents.history, hcall]
      exact Contents.history_cap_le_one hcap xs _ _

theorem LRUCache.Sim.shard_Set {s t : LRUCache} (h : LRUCache.Sim s t) (k : GoString) (v : Order) :
    ∃ s1 t1, s.Set k v = some s1 ∧ t.Set k v = some t1 ∧ LRUCache.Sim s1 t1 := by
  obtain ⟨l, l1, hs, ht, hl, hcs, hct⟩ := h
  obtain ⟨s1, m, hset, hr, hcap, hm⟩ := hs.Set k v
  obtain ⟨t1, m1, hset1, hr1, hcap1, hm1⟩ := ht.Set k v
  refine ⟨s1, t1, hset, hset1, m, m1, hr, hr1, ?_, by rw [hcap]; exact hcs,
    by rw [hcap1]; exact hct⟩
  rw [hm, hm1, Contents.set_cap_le_one hcs, hct, hl]

theorem LRUCache.Sim.shard_Get {s t : LRUCache} (h : LRUCache.Sim s t) (k : GoString) :
    ∃ s1 t1 r, s.Get k = some (s1, r) ∧ t.Get k = some (t1, r) ∧ LRUCache.Sim s1 t1 := by
  obtain ⟨l, l1, hs, ht, hl, hcs, hct⟩ := h
  obtain ⟨s1, m, hget, hr, hcap, hm⟩ := hs.Get k
  obtain ⟨t1, m1, hget1, hr1, hcap1, hm1⟩ := ht.Get k
  refine ⟨s1, t1, _, hget, by rw [hget1, hl], m, m1, hr, hr1, ?_, by rw [hcap]; exact hcs,
    by rw [hcap1]; exact hct⟩
  rw [hm, hm1, hl]

theorem LRUCache.Sim.results {s t : LRUCache} (h : LRUCache.Sim s t) (calls : List Call) :
    s.results calls = t.results calls := by
  induction calls generalizing s t with
  | nil => rfl
  | cons x xs ih =>
    cases x with
    | get uid =>
      obtain ⟨s1, t1, r, h1, h2, h3⟩ := h.shard_Get uid
      simp only [LRUCache.results, h1, h2, ih h3]
    | set uid order =>
      obtain ⟨s1, t1, h1, h2, h3⟩ := h.shard_Set uid order
      simp only [LRUCache.results, h1, h2, ih h3]

theorem NewLRUCache_sim {capacity : Int} (h : capacity ≤ 1) :
    LRUCache.Sim (NewLRUCache capacity) (NewLRUCache 1) :=
  ⟨[], [], NewLRUCache_repr capacity, NewLRUCache_repr 1, rfl, h, rfl⟩

theorem ShardedCache.Sim.index {sc tc : ShardedCache} (h : ShardedCache.Sim sc tc)
    (uid : GoString) : sc.getShardIndex uid = tc.getShardIndex uid := by
  simp only [ShardedCache.getShardIndex, h.1]

theorem ShardedCache.Sim.update {sc tc : ShardedCache} (h : ShardedCache.Sim sc tc) (i : Nat)
    {s1 t1 : LRUCache} (hs : LRUCache.Sim s1 t1) :
    ShardedCache.Sim { sc with shards := sc.shards.set i s1 }
      { tc with shards := tc.shards.set i t1 } := by
  refine ⟨h.1, by simp [h.2.1], ?_⟩
  intro j s t hj hj1
  simp only [List.getElem?_set] at hj hj1
  by_cases hij : i = j
  · rw [if_pos hij] at hj hj1
    by_cases hlt : i < sc.shards.length
    · rw [if_pos hlt] at hj
      rw [if_pos (h.2.1 ▸ hlt)] at hj1
      simp only [Option.some.injEq] at hj hj1
      rw [← hj, ← hj1]
      exact hs
    · rw [if_neg hlt] at hj
      cases hj
  · rw [if_neg hij] at hj hj1
    exact h.2.2 j s t hj hj1

theorem ShardedCache.Sim.shard {sc tc : ShardedCache} (h : ShardedCache.Sim sc tc) (i : Nat) :
    (sc.shards[i]? = none ∧ tc.shards[i]? = none) ∨
      ∃ s t, sc.shards[i]? = some s ∧ tc.shards[i]? = some t ∧ LRUCache.Sim s t := by
  by_cases hlt : i < sc.shards.length
  · have hlt1 : i < tc.shards.length := h.2.1 ▸ hlt
    exact Or.inr ⟨sc.shards[i], tc.shards[i], List.getElem?_eq_getElem hlt,
      List.getElem?_eq_getElem hlt1,
      h.2.2 i _ _ (List.getElem?_eq_getElem hlt) (List.getElem?_eq_getElem hlt1)⟩
  · have hlt1 : ¬ i < tc.shards.length := h.2.1 ▸ hlt
    exact Or.inl ⟨List.getElem?_eq_none (by omega), List.getElem?_eq_none (by omega)⟩

theorem ShardedCache.Sim.router_Set {sc tc : ShardedCache} (h : ShardedCache.Sim sc tc)
    (k : GoString) (v : Order) :
    (sc.Set k v = none ∧ tc.Set k v = none) ∨
      ∃ sc1 tc1, sc.Set k v = some sc1 ∧ tc.Set k v = some tc1 ∧ ShardedCache.Sim sc1 tc1 := by
  unfold ShardedCache.Set
  rw [← h.index k]
  cases hi : sc.getShardIndex k with
  | none => exact Or.inl ⟨rfl, rfl⟩
  | some i =>
    rcases h.shard i with ⟨h1, h2⟩ | ⟨s, t, h1, h2, hs⟩
    · exact Or.inl (by simp [h1, h2])
    · obtain ⟨s1, t1, e1, e2, hs1⟩ := hs.shard_Set k v
      simp only [h1, h2, e1, e2]
      exact Or.inr ⟨_, _, rfl, rfl, h.update i hs1⟩

theorem ShardedCache.Sim.router_Get {sc tc : ShardedCache} (h : ShardedCache.Sim sc tc)
    (k : GoString) :
    (sc.Get k = none ∧ tc.Get k = none) ∨
      ∃ sc1 tc1 r, sc.Get k = some (sc1, r) ∧ tc.Get k = some (tc1, r) ∧
        ShardedCache.Sim sc1 tc1 := by
  unfold ShardedCache.Get
  rw [← h.index k]
  cases hi : sc.getShardIndex k with
  | none => exact Or.inl ⟨rfl, rfl⟩
  | some i =>
    rcases h.shard i with ⟨h1, h2⟩ | ⟨s, t, h1, h2, hs⟩
    · exact Or.inl (by simp [h1, h2])
    · obtain ⟨s1, t1, r, e1, e2, hs1⟩ := hs.shard_Get k
      simp only [h1, h2, e1, e2]
      exact Or.inr ⟨_, _, r, rfl, rfl, h.update i hs1⟩

theorem ShardedCache.Sim.results_eq {sc tc : ShardedCache} (h : ShardedCache.Sim sc tc)
    (calls : List Call) : sc.results calls = tc.results calls := by
  induction calls generalizing sc tc with
  | nil => rfl
  | cons x xs ih =>
    cases x with
    | get uid =>
      rcases h.router_Get uid with ⟨h1, h2⟩ | ⟨sc1, tc1, r, h1, h2, h3⟩
      · simp only [ShardedCache.results, h1, h2]
      · simp only [ShardedCache.results, h1, h2, ih h3]
    | set uid order =>
      rcases h.router_Set uid order with ⟨h1, h2⟩ | ⟨sc1, tc1, h1, h2, h3⟩
      · simp only [ShardedCache.results, h1, h2]
      · simp only [ShardedCache.results, h1, h2, ih h3]

theorem NewShardedCache_sim {capacity : Int} (h : capacity ≤ 1) (n : Int) :
    ShardedCache.Sim (NewShardedCache capacity n) (NewShardedCache 1 n) := by
  refine ⟨rfl, by simp [NewShardedCache], ?_⟩
  intro i s t hs ht
  have hs1 : (List.replicate (if n ≤ 0 then 1 else n).toNat (NewLRUCache capacity))[i]?
      = some s := hs
  have ht1 : (List.replicate (if n ≤ 0 then 1 else n).toNat (NewLRUCache 1))[i]?
      = some t := ht
  rw [List.getElem?_replicate] at hs1 ht1
  by_cases hlt : i < (if n ≤ 0 then 1 else n).toNat
  · rw [if_pos hlt] at hs1 ht1
    simp only [Option.some.injEq] at hs1 ht1
    rw [← hs1, ← ht1]
    exact NewLRUCache_sim h
  · rw [if_neg hlt] at hs1
    cases hs1

theorem NewShardedCache_clamp (capacity n : Int) :
    NewShardedCache capacity (max n 1) = NewShardedCache capacity n := by
  by_cases hn : n ≤ 0
  · have h1 : max n 1 = 1 := max_eq_right (by omega)
    simp [NewShardedCache, h1, hn]
  · have h1 : max n 1 = n := max_eq_left (by omega)
    rw [h1]

/-! ### Keys stay in their shard -/

theorem Contents.set_keys_subset (cap : Int) (l : Contents) (k : GoString) (v : Order)
    (e : GoString) (h : e ∈ (Contents.set cap l k v).map Prod.fst) :
    e = k ∨ e ∈ l.map Prod.fst := by
  obtain ⟨x, hx, rfl⟩ := List.mem_map.mp h
  have hmem : x = (k, v) ∨ x ∈ l := by
    cases hg : GoMap.get l k with
    | some v0 =>
      simp only [Contents.set, hg, List.mem_append, List.mem_singleton] at hx
      rcases hx with hx | hx
      · exact Or.inr ((GoMap.delete_sublist l k).subset hx)
      · exact Or.inl hx
    | none =>
      simp only [Contents.set, hg, List.mem_append, List.mem_singleton] at hx
      rcases hx with hx | hx
      · right
        by_cases hfull : (l.length : Int) ≥ cap
        · rw [if_pos hfull] at hx
          exact List.mem_of_mem_tail hx
        · rw [if_neg hfull] at hx
          exact hx
      · exact Or.inl hx
  rcases hmem with rfl | hl
  · exact Or.inl rfl
  · exact Or.inr (List.mem_map_of_mem Prod.fst hl)

theorem Contents.get_keys_subset (l : Contents) (k : GoString) (e : GoString)
    (h : e ∈ ((Contents.get l k).1).map Prod.fst) : e ∈ l.map Prod.fst := by
  cases hg : GoMap.get l k with
  | none =>
    simp only [Contents.get, hg] at h
    exact h
  | some v0 =>
    simp only [Contents.get, hg, List.map_append, List.map_cons, List.map_nil, List.mem_append,
      List.mem_singleton] at h
    rcases h with h | h
    · exact ((GoMap.delete_sublist l k).map Prod.fst).subset h
    · rw [h]
      exact List.mem_map_of_mem Prod.fst (GoMap.mem_of_get hg)

theorem LRUCache.Repr.Set_stored {s s1 : LRUCache} {l : List Entry} (hr : s.Repr l)
    {k : GoString} {v : Order} (hset : s.Set k v = some s1) :
    (∃ l1, s1.Repr l1) ∧ ∀ e, s1.stored e → e = k ∨ s.stored e := by
  obtain ⟨s2, l1, hset2, hr1, -, hl1⟩ := hr.Set k v
  rw [hset] at hset2
  simp only [Option.some.injEq] at hset2
  subst hset2
  refine ⟨⟨l1, hr1⟩, ?_⟩
  intro e he
  rw [hr1.stored_iff, hl1] at he
  rw [hr.stored_iff]
  exact Contents.set_keys_subset _ _ _ _ e he

theorem LRUCache.Repr.Get_stored {s s1 : LRUCache} {l : List Entry} (hr : s.Repr l)
    {k : GoString} {r : Order × Bool} (hget : s.Get k = some (s1, r)) :
    (∃ l1, s1.Repr l1) ∧ ∀ e, s1.stored e → s.stored e := by
  obtain ⟨s2, l1, hget2, hr1, -, hl1⟩ := hr.Get k
  rw [hget] at hget2
  simp only [Option.some.injEq, Prod.mk.injEq] at hget2
  obtain ⟨rfl, -⟩ := hget2
  refine ⟨⟨l1, hr1⟩, ?_⟩
  intro e he
  rw [hr1.stored_iff, hl1] at he
  rw [hr.stored_iff]
  exact Contents.get_keys_subset _ _ e he

/-- What a router `Set` that returns did: it picked the shard at the index of
the key, ran `Set` on it and put the result back. -/
theorem ShardedCache.Set_some {sc sc1 : ShardedCache} {k : GoString} {v : Order}
    (h : sc.Set k v = some sc1) :
    ∃ i s s1, sc.getShardIndex k = some i ∧ sc.shards[i]? = some s ∧ s.Set k v = some s1 ∧
      sc1 = { sc with shards := sc.shards.set i s1 } := by
  unfold ShardedCache.Set at h
  cases hi : sc.getShardIndex k with
  | none => rw [hi] at h; cases h
  | some i =>
    rw [hi] at h
    simp only at h
    cases hs : sc.shards[i]? with
    | none => rw [hs] at h; cases h
    | some s =>
      rw [hs] at h
      simp only at h
      cases hg : s.Set k v with
      | none => rw [hg] at h; cases h
      | some s1 =>
        rw [hg] at h
        simp only [Option.some.injEq] at h
        exact ⟨i, s, s1, rfl, hs, hg, h.symm⟩

/-- What a router `Get` that returns did. -/
theorem ShardedCache.Get_some {sc sc1 : ShardedCache} {k : GoString} {r : Order × Bool}
    (h : sc.Get k = some (sc1, r)) :
    ∃ i s s1, sc.getShardIndex k = some i ∧ sc.shards[i]? = some s ∧ s.Get k = some (s1, r) ∧
      sc1 = { sc with shards := sc.shards.set i s1 } := by
  unfold ShardedCache.Get at h
  cases hi : sc.getShardIndex k with
  | none => rw [hi] at h; cases h
  | some i =>
    rw [hi] at h
    simp only at h
    cases hs : sc.shards[i]? with
    | none => rw [hs] at h; cases h
    | some s =>
      rw [hs] at h
      simp only at h
      cases hg : s.Get k with
      | none => rw [hg] at h; cases h
      | some res =>
        obtain ⟨s1, r1⟩ := res
        rw [hg] at h
        simp only [Option.some.injEq, Prod.mk.injEq] at h
        exact ⟨i, s, s1, rfl, hs, by rw [hg, h.2], h.1.symm⟩

theorem ShardedCache.Owned.replace {sc : ShardedCache} (h : sc.Owned) {i : Nat}
    {s s1 : LRUCache} (hs : sc.shards[i]? = some s) (hrepr : ∃ l1, s1.Repr l1)
    (hkeys : ∀ e, s1.stored e → sc.getShardIndex e = some i ∨ s.stored e) :
    ShardedCache.Owned { sc with shards := sc.shards.set i s1 } := by
  refine ⟨by simpa using h.1, ?_⟩
  intro j t hj
  have hidx : ∀ key, ShardedCache.getShardIndex { sc with shards := sc.shards.set i s1 } key
      = sc.getShardIndex key := fun _ => rfl
  simp only [List.getElem?_set] at hj
  by_cases hij : i = j
  · rw [if_pos hij] at hj
    by_cases hlt : i < sc.shards.length
    · rw [if_pos hlt] at hj
      simp only [Option.some.injEq] at hj
      subst hj
      refine ⟨hrepr, ?_⟩
      intro key hkey
      rw [hidx, ← hij]
      rcases hkeys key hkey with h1 | h1
      · exact h1
      · exact (h.2 i s hs).2 key h1
    · rw [if_neg hlt] at hj
      cases hj
  · rw [if_neg hij] at hj
    obtain ⟨h1, h2⟩ := h.2 j t hj
    exact ⟨h1, fun key hkey => by rw [hidx]; exact h2 key hkey⟩

theorem ShardedCache.Owned.after_Set {sc sc1 : ShardedCache} (h : sc.Owned) {k : GoString}
    {v : Order} (hset : sc.Set k v = some sc1) : sc1.Owned := by
  obtain ⟨i, s, s1, hi, hs, hsset, rfl⟩ := ShardedCache.Set_some hset
  obtain ⟨l, hr⟩ := (h.2 i s hs).1
  obtain ⟨hrepr, hkeys⟩ := hr.Set_stored hsset
  refine h.replace hs hrepr ?_
  intro e he
  rcases hkeys e he with rfl | h1
  · exact Or.inl hi
  · exact Or.inr h1

theorem ShardedCache.Owned.after_Get {sc sc1 : ShardedCache} (h : sc.Owned) {k : GoString}
    {r : Order × Bool} (hget : sc.Get k = some (sc1, r)) : sc1.Owned := by
  obtain ⟨i, s, s1, hi, hs, hsget, rfl⟩ := ShardedCache.Get_some hget
  obtain ⟨l, hr⟩ := (h.2 i s hs).1
  obtain ⟨hrepr, hkeys⟩ := hr.Get_stored hsget
  exact h.replace hs hrepr (fun e he => Or.inr (hkeys e he))

theorem ShardedCache.Owned.after_run :
    ∀ (calls : List Call) (sc sc1 : ShardedCache), sc.Owned → sc.run calls = some sc1 →
      sc1.Owned
  | [], sc, sc1, h, hrun => by
      simp only [ShardedCache.run, Option.some.injEq] at hrun
      rw [← hrun]
      exact h
  | Call.get uid :: xs, sc, sc1, h, hrun => by
      unfold ShardedCache.run at hrun
      cases hg : sc.Get uid with
      | none => rw [hg] at hrun; cases hrun
      | some res =>
        obtain ⟨sc2, r⟩ := res
        rw [hg] at hrun
        exact ShardedCache.Owned.after_run xs sc2 sc1 (h.after_Get hg) hrun
  | Call.set uid order :: xs, sc, sc1, h, hrun => by
      unfold ShardedCache.run at hrun
      cases hg : sc.Set uid order with
      | none => rw [hg] at hrun; cases hrun
      | some sc2 =>
        rw [hg] at hrun
        exact ShardedCache.Owned.after_run xs sc2 sc1 (h.after_Set hg) hrun

theorem NewShardedCache_owned (capacityPerShard numShards : Int) :
    (NewShardedCache capacityPerShard numShards).Owned := by
  refine ⟨?_, ?_⟩
  · show (if numShards ≤ 0 then 1 else numShards).toNat % 2 ^ 32
        ≤ (List.replicate (if numShards ≤ 0 then 1 else numShards).toNat
            (NewLRUCache capacityPerShard)).length
    rw [List.length_replicate]
    exact Nat.mod_le _ _
  · intro i s hs
    have hs1 : (List.replicate (if numShards ≤ 0 then 1 else numShards).toNat
        (NewLRUCache capacityPerShard))[i]? = some s := hs
    rw [List.getElem?_replicate] at hs1
    by_cases hlt : i < (if numShards ≤ 0 then 1 else numShards).toNat
    · rw [if_pos hlt] at hs1
      simp only [Option.some.injEq] at hs1
      subst hs1
      refine ⟨⟨[], NewLRUCache_repr capacityPerShard⟩, ?_⟩
      intro key hkey
      simp [LRUCache.stored, NewLRUCache, GoMap.get] at hkey
    · rw [if_neg hlt] at hs1
      cases hs1

theorem ShardedCache.Owned.total {sc : ShardedCache} (h : sc.Owned) (hn : sc.numShards ≠ 0)
    (k : GoString) :
    (∀ v, ∃ sc1, sc.Set k v = some sc1) ∧ ∃ sc1 r, sc.Get k = some (sc1, r) := by
  have hidx := sc.getShardIndex_eq k hn
  have hlt : fnv1a32 k % sc.numShards < sc.shards.length :=
    lt_of_lt_of_le (Nat.mod_lt _ (Nat.pos_of_ne_zero hn)) h.1
  have hs : sc.shards[fnv1a32 k % sc.numShards]? = some sc.shards[fnv1a32 k % sc.numShards] :=
    List.getElem?_eq_getElem hlt
  obtain ⟨l, hr⟩ := (h.2 _ _ hs).1
  constructor
  · intro v
    obtain ⟨s1, -, hset, -, -, -⟩ := hr.Set k v
    exact ⟨_, by simp only [ShardedCache.Set, hidx, hs, hset]; rfl⟩
  · obtain ⟨s1, -, hget, -, -, -⟩ := hr.Get k
    exact ⟨_, _, by simp only [ShardedCache.Get, hidx, hs, hget]; rfl⟩

theorem ShardedCache.Owned.run_returns :
    ∀ (calls : List Call) (sc : ShardedCache), sc.Owned → sc.numShards ≠ 0 →
      ∃ sc1, sc.run calls = some sc1
  | [], sc, _, _ => ⟨sc, rfl⟩
  | Call.get uid :: xs, sc, h, hn => by
      obtain ⟨sc2, r, hg⟩ := (h.total hn uid).2
      obtain ⟨sc1, h1⟩ := ShardedCache.Owned.run_returns xs sc2 (h.after_Get hg)
        (by rw [(ShardedCache.Get_fields hg).1]; exact hn)
      exact ⟨sc1, by rw [ShardedCache.run, hg]; exact h1⟩
  | Call.set uid order :: xs, sc, h, hn => by
      obtain ⟨sc2, hg⟩ := (h.total hn uid).1 order
      obtain ⟨sc1, h1⟩ := ShardedCache.Owned.run_returns xs sc2 (h.after_Set hg)
        (by rw [(ShardedCache.Set_fields hg).1]; exact hn)
      exact ⟨sc1, by rw [ShardedCache.run, hg]; exact h1⟩

/-- Every run of calls on a new router whose shard count is not a multiple of
`2^32` returns. -/
theorem NewShardedCache_run_returns (capacityPerShard numShards : Int)
    (hn : (NewShardedCache capacityPerShard numShards).numShards ≠ 0) (calls : List Call) :
    ∃ sc, (NewShardedCache capacityPerShard numShards).run calls = some sc :=
  ShardedCache.Owned.run_returns calls _ (NewShardedCache_owned capacityPerShard numShards) hn

/-- C1: on a shard created by `NewLRUCache(C)` with `C >= 1`, every finite
sequence of `Get` and `Set` calls runs to completion, and after every call of
the sequence (after its first `n` calls, for every `n`) the number of stored
entries `len(items)` is at most `C`. -/
theorem lru_population_le_capacity (C : Int) (hC : 1 ≤ C) (calls : List Call) (n : Nat) :
    ∃ c, (NewLRUCache C).run (calls.take n) = some c ∧ (GoMap.len c.items : Int) ≤ C := by
  obtain ⟨c, l, log, hh, hr, -, hinv⟩ := NewLRUCache_history C hC (calls.take n)
  refine ⟨c, by simp [LRUCache.run, hh], ?_⟩
  rw [hr.len]
  simpa using hinv.bound

theorem lru_population_le_capacity_witness :
    (1 : Int) ≤ 2 ∧
    ∃ c, (NewLRUCache 2).run
        ([Call.set [1] Order.zero, Call.set [2] Order.zero, Call.get [1],
          Call.set [3] Order.zero].take 4) = some c ∧ (GoMap.len c.items : Int) ≤ 2 :=
  ⟨by decide, lru_population_le_capacity 2 (by decide) _ 4⟩

/-- What `Set` of a key that is not stored does to contents that satisfy the
run invariant. -/
theorem Contents.Inv.set_new {cap : Int} {l : Contents} {log : List GoString}
    (h : Contents.Inv cap l log) (hcap : 1 ≤ cap) {k : GoString}
    (hk : GoMap.get l k = none) (v : Order) :
    ((∃ e, e ∈ l.map Prod.fst ∧ e ∉ (Contents.set cap l k v).map Prod.fst)
        ↔ (l.length : Int) = cap) ∧
      (∀ e, e ∈ l.map Prod.fst → e ∉ (Contents.set cap l k v).map Prod.fst →
        ∀ e', e' ∈ l.map Prod.fst → e' ≠ e → touchAge log e' < touchAge log e) ∧
      (∀ e, e ∈ l.map Prod.fst → e ∈ (Contents.set cap l k v).map Prod.fst →
        GoMap.get (Contents.set cap l k v) e = GoMap.get l e) ∧
      GoMap.get (Contents.set cap l k v) k = some v ∧
      ((Contents.set cap l k v).getLast?).map Prod.fst = some k ∧
      (Contents.set cap l k v).length = (if (l.length : Int) = cap then l.length else l.length + 1)
      := by
  have hkn : k ∉ l.map Prod.fst := GoMap.get_eq_none.mp hk
  have hb := h.bound
  by_cases hfull : (l.length : Int) ≥ cap
  · have hset : Contents.set cap l k v = l.tail ++ [(k, v)] := by
      simp [Contents.set, hk, hfull]
    have heq : (l.length : Int) = cap := le_antisymm hb hfull
    cases l with
    | nil => simp at heq; omega
    | cons x t =>
      obtain ⟨kx, vx⟩ := x
      simp only [List.tail_cons] at hset
      have hkeys := h.keys
      have hord := h.order
      simp only [List.map_cons, List.nodup_cons, List.pairwise_cons] at hkeys hord
      simp only [List.map_cons, List.mem_cons, not_or] at hkn
      have hxk : kx ≠ k := fun e => hkn.1 e.symm
      have hx_out : kx ∉ (Contents.set cap ((kx, vx) :: t) k v).map Prod.fst := by
        rw [hset]
        simp only [List.map_append, List.map_cons, List.map_nil, List.mem_append,
          List.mem_singleton, not_or]
        exact ⟨hkeys.1, hxk⟩
      have hevicted : ∀ e, e ∈ ((kx, vx) :: t).map Prod.fst →
          e ∉ (Contents.set cap ((kx, vx) :: t) k v).map Prod.fst → e = kx := by
        intro e he hne
        rcases List.mem_cons.mp he with h1 | h1
        · exact h1
        · exact absurd (by rw [hset, List.map_append]; exact List.mem_append_left _ h1) hne
      refine ⟨⟨fun _ => heq, fun _ => ⟨kx, by simp, hx_out⟩⟩, ?_, ?_, ?_, ?_, ?_⟩
      · intro e he hne e' he' hne'
        rw [hevicted e he hne] at hne' ⊢
        rcases List.mem_cons.mp he' with h1 | h1
        · exact absurd h1 hne'
        · exact hord.1 e' h1
      · intro e he he'
        have hek : k ≠ e := by
          intro e1; rw [← e1] at he
          simp only [List.map_cons, List.mem_cons] at he
          tauto
        have hex : kx ≠ e := by
          intro e1; rw [← e1] at he'
          exact hx_out he'
        rw [hset, GoMap.get_append_of_ne _ _ hek]
        simp [GoMap.get, hex]
      · rw [hset]
        have := @GoMap.get_append_cons _ _ _ t [] k v hkn.2
        exact this
      · rw [hset]; simp
      · rw [hset, if_pos heq]; simp
  · have hset : Contents.set cap l k v = l ++ [(k, v)] := by
      simp [Contents.set, hk, hfull]
    have hne : ¬ (l.length : Int) = cap := fun e => hfull (le_of_eq e.symm)
    have hstay : ∀ e, e ∈ l.map Prod.fst → e ∈ (Contents.set cap l k v).map Prod.fst := by
      intro e he
      rw [hset, List.map_append]
      exact List.mem_append_left _ he
    refine ⟨⟨fun ⟨e, he, hne'⟩ => absurd (hstay e he) hne', fun e => absurd e hne⟩, ?_, ?_, ?_,
      ?_, ?_⟩
    · intro e he hne'
      exact absurd (hstay e he) hne'
    · intro e he _
      have hek : k ≠ e := fun e1 => hkn (e1 ▸ he)
      rw [hset, GoMap.get_append_of_ne _ _ hek]
    · rw [hset]
      exact @GoMap.get_append_cons _ _ _ l [] k v hkn
    · rw [hset]; simp
    · rw [hset, if_neg hne]; simp

/-- C2: in every state `c` that a run of a fresh shard of capacity `C >= 1`
reaches (with `log` the keys touched by the run, most recent touch first), a
`Set(k, v)` of a key `k` that is not stored succeeds, and: some stored key is
evicted exactly when the population equals `C`; an evicted key is the one
whose last touch is older than that of every other stored key, so at most one
key is evicted; the population afterwards is `C` after an eviction and one
more than before otherwise; every stored key that is not evicted keeps its
value; and `k` is afterwards stored with value `v` as the most recently used
entry. -/
theorem lru_set_new_key (C : Int) (hC : 1 ≤ C) (calls : List Call) (c : LRUCache)
    (log : List GoString) (hrun : (NewLRUCache C).history [] calls = some (c, log))
    (k : GoString) (v : Order) (hk : ¬ c.stored k) :
    ∃ c', c.Set k v = some c' ∧
      ((∃ e, c.stored e ∧ ¬ c'.stored e) ↔ (GoMap.len c.items : Int) = C) ∧
      (∀ e, c.stored e → ¬ c'.stored e →
        ∀ e', c.stored e' → e' ≠ e → touchAge log e' < touchAge log e) ∧
      (∀ e e', c.stored e → ¬ c'.stored e → c.stored e' → ¬ c'.stored e' → e = e') ∧
      GoMap.len c'.items
        = (if (GoMap.len c.items : Int) = C then GoMap.len c.items else GoMap.len c.items + 1) ∧
      (∀ e, c.stored e → c'.stored e → c'.peek e = c.peek e) ∧
      c'.stored k ∧ c'.peek k = some v ∧ c'.newest = some k := by
  obtain ⟨c0, l, log0, hh, hr, hcap, hinv⟩ := NewLRUCache_history C hC calls
  rw [hrun] at hh
  simp only [Option.some.injEq, Prod.mk.injEq] at hh
  obtain ⟨rfl, rfl⟩ := hh
  have hknone : GoMap.get (l.map Prod.snd) k = none := by
    rw [GoMap.get_eq_none, ← hr.stored_iff]
    exact hk
  obtain ⟨c', l', hset, hr', -, hl'⟩ := hr.Set k v
  rw [hcap] at hl'
  obtain ⟨h1, h2, h3, h4, h5, h6⟩ := hinv.set_new hC hknone v
  rw [← hl'] at h1 h2 h3 h4 h5 h6
  simp only [← hr.stored_iff, ← hr'.stored_iff, ← hr.peek_eq, ← hr'.peek_eq, ← hr'.newest_eq,
    List.length_map, ← hr.len, ← hr'.len] at h1 h2 h3 h4 h5 h6
  have hstored : c'.stored k := by
    rw [hr'.stored_iff]
    exact List.mem_map_of_mem Prod.fst (GoMap.mem_of_get (by rw [← hr'.peek_eq]; exact h4))
  refine ⟨c', hset, h1, h2, ?_, h6, h3, hstored, h4, h5⟩
  intro e e' he hne he' hne'
  by_contra hee
  have a1 := h2 e he hne e' he' (fun x => hee x.symm)
  have a2 := h2 e' he' hne' e he hee
  exact absurd a1 (Nat.lt_asymm a2)

theorem lru_set_new_key_witness :
    (1 : Int) ≤ 2 ∧
    (NewLRUCache 2).history []
        [Call.set [1] Order.zero, Call.set [2] Order.zero, Call.get [1]]
      = some
        ({ capacity := 2, items := [([2], 3), ([1], 2)], head := 0, tail := 1,
           mem := [⟨none, some 3, [], Order.zero⟩, ⟨some 2, none, [], Order.zero⟩,
                   ⟨some 3, some 1, [1], Order.zero⟩, ⟨some 0, some 2, [2], Order.zero⟩] },
         [[1], [2], [1]]) ∧
    ¬ LRUCache.stored
        { capacity := 2, items := [([2], 3), ([1], 2)], head := 0, tail := 1,
          mem := [⟨none, some 3, [], Order.zero⟩, ⟨some 2, none, [], Order.zero⟩,
                  ⟨some 3, some 1, [1], Order.zero⟩, ⟨some 0, some 2, [2], Order.zero⟩] } [3] ∧
    ∃ c', LRUCache.Set
        { capacity := 2, items := [([2], 3), ([1], 2)], head := 0, tail := 1,
          mem := [⟨none, some 3, [], Order.zero⟩, ⟨some 2, none, [], Order.zero⟩,
                  ⟨some 3, some 1, [1], Order.zero⟩, ⟨some 0, some 2, [2], Order.zero⟩] }
        [3] Order.zero = some c' ∧ c'.newest = some [3] :=
  ⟨by decide, by decide, by decide,
    (lru_set_new_key 2 (by decide)
      [Call.set [1] Order.zero, Call.set [2] Order.zero, Call.get [1]] _ _ rfl
      [3] Order.zero (by decide)).imp (fun _ h => ⟨h.1, h.2.2.2.2.2.2.2.2⟩)⟩

/-- C10: for every `C >= 1` and every `C + 1` pairwise distinct keys
`k1, ..., k(C+1)` (with any values), `Set` on a freshly created shard of
capacity `C` for `k1, ..., k(C+1)` in that order runs to completion, and in
the resulting state `Get(k1)` returns not-found while `Get` of each of
`k2, ..., k(C+1)` returns found, with the value that was set. -/
theorem lru_overflow_evicts_first (C : Nat) (hC : 1 ≤ C) (k1 : GoString) (v1 : Order)
    (rest : List (GoString × Order)) (hlen : rest.length = C)
    (hnd : (((k1, v1) :: rest).map Prod.fst).Nodup) :
    ∃ c, (NewLRUCache (C : Int)).run (((k1, v1) :: rest).map (fun e => Call.set e.1 e.2))
        = some c ∧
      (∃ c', c.Get k1 = some (c', Order.zero, false)) ∧
      (∀ e ∈ rest, ∃ c', c.Get e.1 = some (c', e.2, true)) := by
  obtain ⟨c, l, hh, hr, -, hl⟩ :=
    (NewLRUCache_repr (C : Int)).history [] (((k1, v1) :: rest).map (fun e => Call.set e.1 e.2))
  have hover := Contents.history_sets_overflow C hC (k1, v1) rest hlen hnd
  have hcap : (NewLRUCache (C : Int)).capacity = (C : Int) := rfl
  rw [hcap, List.map_nil, hover] at hl
  have hkeys : (rest.map Prod.fst).Nodup := by
    simp only [List.map_cons, List.nodup_cons] at hnd
    exact hnd.2
  have hk1 : k1 ∉ rest.map Prod.fst := by
    simp only [List.map_cons, List.nodup_cons] at hnd
    exact hnd.1
  refine ⟨c, by rw [LRUCache.run, hh]; rfl, ?_, ?_⟩
  · obtain ⟨c', l', hget, -, -, -⟩ := hr.Get k1
    refine ⟨c', ?_⟩
    rw [hget, hl]
    simp [Contents.get, GoMap.get_eq_none.mpr hk1]
  · intro e he
    obtain ⟨c', l', hget, -, -, -⟩ := hr.Get e.1
    refine ⟨c', ?_⟩
    rw [hget, hl]
    have : GoMap.get rest e.1 = some e.2 := GoMap.get_of_mem hkeys he
    simp [Contents.get, this]

theorem lru_overflow_evicts_first_witness :
    1 ≤ 2 ∧ ([([2], Order.zero), ([3], Order.zero)] : List (GoString × Order)).length = 2 ∧
    ((([1], Order.zero) :: [([2], Order.zero), ([3], Order.zero)]).map Prod.fst).Nodup ∧
    ∃ c, (NewLRUCache ((2 : Nat) : Int)).run
        ((([1], Order.zero) :: [([2], Order.zero), ([3], Order.zero)]).map
          (fun e => Call.set e.1 e.2)) = some c ∧
      (∃ c', c.Get [1] = some (c', Order.zero, false)) ∧
      (∀ e ∈ [(([2] : GoString), Order.zero), ([3], Order.zero)],
        ∃ c', c.Get e.1 = some (c', e.2, true)) :=
  ⟨by decide, by decide, by decide,
    lru_overflow_evicts_first 2 (by decide) [1] Order.zero
      [([2], Order.zero), ([3], Order.zero)] (by decide) (by decide)⟩


/-! ## More claims about the LRU shard -/

/-- C11: for every three pairwise distinct keys `k1`, `k2`, `k3` and any
values, on a freshly created shard of capacity 2 the sequence `Set(k1)`,
`Set(k2)`, `Get(k1)`, `Set(k3)` runs to completion and leaves `Get(k2)`
not-found and `Get(k1)` and `Get(k3)` found (with the values that were set):
the `Get` hit made `k1` most recently used, so `k2` is the key evicted. -/
theorem lru_get_promotes (k1 k2 k3 : GoString) (v1 v2 v3 : Order) (h12 : k1 ≠ k2)
    (h13 : k1 ≠ k3) (h23 : k2 ≠ k3) :
    ∃ c, (NewLRUCache 2).run
        [Call.set k1 v1, Call.set k2 v2, Call.get k1, Call.set k3 v3] = some c ∧
      (∃ c', c.Get k2 = some (c', Order.zero, false)) ∧
      (∃ c', c.Get k1 = some (c', v1, true)) ∧
      (∃ c', c.Get k3 = some (c', v3, true)) := by
  obtain ⟨c, l, hh, hr, -, hl⟩ := (NewLRUCache_repr 2).history []
    [Call.set k1 v1, Call.set k2 v2, Call.get k1, Call.set k3 v3]
  have h21 : k2 ≠ k1 := fun h => h12 h.symm
  have h31 : k3 ≠ k1 := fun h => h13 h.symm
  have h32 : k3 ≠ k2 := fun h => h23 h.symm
  have hcap : (NewLRUCache 2).capacity = 2 := rfl
  have hcontents : l.map Prod.snd = [(k1, v1), (k3, v3)] := by
    rw [hl, hcap]
    simp [Contents.history, Contents.call, Contents.set, Contents.get, GoMap.get, GoMap.delete,
      h12, h13, h23, h21, h31, h32]
  refine ⟨c, by rw [LRUCache.run, hh]; rfl, ?_, ?_, ?_⟩
  · obtain ⟨c', -, hget, -, -, -⟩ := hr.Get k2
    refine ⟨c', ?_⟩
    rw [hget, hcontents]
    simp [Contents.get, GoMap.get, h12, h32]
  · obtain ⟨c', -, hget, -, -, -⟩ := hr.Get k1
    refine ⟨c', ?_⟩
    rw [hget, hcontents]
    simp [Contents.get, GoMap.get]
  · obtain ⟨c', -, hget, -, -, -⟩ := hr.Get k3
    refine ⟨c', ?_⟩
    rw [hget, hcontents]
    simp [Contents.get, GoMap.get, h13]

theorem lru_get_promotes_witness :
    ([1] : GoString) ≠ [2] ∧ ([1] : GoString) ≠ [3] ∧ ([2] : GoString) ≠ [3] ∧
    ∃ c, (NewLRUCache 2).run
        [Call.set [1] Order.zero, Call.set [2] Order.zero, Call.get [1],
          Call.set [3] Order.zero] = some c ∧
      (∃ c', c.Get [2] = some (c', Order.zero, false)) ∧
      (∃ c', c.Get [1] = some (c', Order.zero, true)) ∧
      (∃ c', c.Get [3] = some (c', Order.zero, true)) :=
  ⟨by decide, by decide, by decide,
    lru_get_promotes [1] [2] [3] Order.zero Order.zero Order.zero (by decide) (by decide)
      (by decide)⟩

/-- C12: in every state `c` that a run of a fresh shard (of any capacity)
reaches, `Set(k, v)` of a key `k` that is stored succeeds and: the same keys
are stored afterwards (nothing is evicted) and the population is the same; the
value of `k` is `v` and every other key keeps its value; the recency order
afterwards is the order before with `k` taken out, followed by `k` (the other
keys keep their relative order); and `k` is the most recently used entry. -/
theorem lru_set_existing_key (C : Int) (calls : List Call) (c : LRUCache)
    (hrun : (NewLRUCache C).run calls = some c) (k : GoString) (v : Order)
    (hk : c.stored k) :
    ∃ c', c.Set k v = some c' ∧
      (∀ e, c'.stored e ↔ c.stored e) ∧
      GoMap.len c'.items = GoMap.len c.items ∧
      c'.peek k = some v ∧
      (∀ e, e ≠ k → c'.peek e = c.peek e) ∧
      c'.keysOldestFirst = c.keysOldestFirst.filter (fun e => decide (e ≠ k)) ++ [k] ∧
      c'.newest = some k := by
  obtain ⟨l, hr, -⟩ := NewLRUCache_run_repr hrun
  have hnd : ((l.map Prod.snd).map Prod.fst).Nodup := by
    have := hr.keys
    simpa [List.map_map, Function.comp_def] using this
  obtain ⟨v0, hg⟩ : ∃ v0, GoMap.get (l.map Prod.snd) k = some v0 := by
    have := hk
    unfold LRUCache.stored at this
    rw [hr.get_isSome k] at this
    exact Option.isSome_iff_exists.mp this
  obtain ⟨c', l', hset, hr', -, hl'⟩ := hr.Set k v
  obtain ⟨h1, h2, h3, h4, h5⟩ := Contents.set_existing c.capacity hnd hg v
  rw [← hl'] at h1 h2 h3 h4 h5
  have hkmem : k ∈ (l.map Prod.snd).map Prod.fst :=
    List.mem_map_of_mem Prod.fst (GoMap.mem_of_get hg)
  refine ⟨c', hset, ?_, ?_, ?_, ?_, ?_, ?_⟩
  · intro e
    rw [hr'.stored_iff, hr.stored_iff, h1]
    simp only [List.mem_append, List.mem_filter, ne_eq, decide_eq_true_eq, List.mem_singleton]
    constructor
    · rintro (⟨h, -⟩ | h)
      · exact h
      · rw [h]; exact hkmem
    · intro h
      by_cases hek : e = k
      · exact Or.inr hek
      · exact Or.inl ⟨h, hek⟩
  · rw [hr'.len, hr.len]
    simpa using h2
  · rw [hr'.peek_eq]; exact h3
  · intro e he
    rw [hr'.peek_eq, hr.peek_eq]
    exact h4 e he
  · rw [hr'.keysOldestFirst_eq, hr.keysOldestFirst_eq]
    exact h1
  · rw [hr'.newest_eq]; exact h5

theorem lru_set_existing_key_witness :
    ∃ c, (NewLRUCache 2).run [Call.set [1] Order.zero, Call.set [2] Order.zero] = some c ∧
      c.stored [1] ∧
      ∃ c', c.Set [1] { Order.zero with SmID := 7 } = some c' ∧
        c'.peek [1] = some { Order.zero with SmID := 7 } ∧
        c'.keysOldestFirst = c.keysOldestFirst.filter (fun e => decide (e ≠ [1])) ++ [[1]] :=
  ⟨_, rfl, by decide,
    (lru_set_existing_key 2 [Call.set [1] Order.zero, Call.set [2] Order.zero] _ rfl [1]
      { Order.zero with SmID := 7 } (by decide)).imp
      (fun _ h => ⟨h.1, h.2.2.2.1, h.2.2.2.2.2.1⟩)⟩

/-- C13: in every state of an LRU shard (so in every reachable one), `Get(k)`
of a key `k` that is not stored returns the zero `Order` and `false` and
leaves the whole shard state as it was: the `items` map, the nodes and their
links, hence the same keys, values and recency order. -/
theorem lru_get_miss_no_effect (c : LRUCache) (k : GoString) (hk : ¬ c.stored k) :
    c.Get k = some (c, Order.zero, false) ∧ (∀ c' r, c.Get k = some (c', r) →
      c'.keysOldestFirst = c.keysOldestFirst ∧ (∀ e, c'.peek e = c.peek e) ∧
      ∀ e, c'.stored e ↔ c.stored e) := by
  have hnone : GoMap.get c.items k = none := by
    unfold LRUCache.stored at hk
    cases hg : GoMap.get c.items k with
    | none => rfl
    | some p => rw [hg] at hk; simp at hk
  have hget : c.Get k = some (c, Order.zero, false) := by
    simp [LRUCache.Get, hnone]
  refine ⟨hget, ?_⟩
  intro c' r h
  rw [hget] at h
  simp only [Option.some.injEq, Prod.mk.injEq] at h
  rw [← h.1]
  exact ⟨rfl, fun _ => rfl, fun _ => Iff.rfl⟩

theorem lru_get_miss_no_effect_witness :
    ¬ (NewLRUCache 2).stored [1] ∧
    (NewLRUCache 2).Get [1] = some (NewLRUCache 2, Order.zero, false) :=
  ⟨by decide, (lru_get_miss_no_effect (NewLRUCache 2) [1] (by decide)).1⟩

/-- C14: in every state `c` that a run of a fresh shard of any capacity
reaches, for every key `k` and value `v`, `Set(k, v)` succeeds and a `Get(k)`
made immediately after it returns `(v, true)`; and whenever a `Get(k)` made in
`c` is a hit, the value it returns is the value given by the most recent
`Set` for `k` among the calls of the run. -/
theorem lru_get_returns_last_set (C : Int) (calls : List Call) (c : LRUCache)
    (hrun : (NewLRUCache C).run calls = some c) :
    (∀ k v, ∃ c1 c2, c.Set k v = some c1 ∧ c1.Get k = some (c2, v, true)) ∧
      (∀ k c' o, c.Get k = some (c', o, true) → lastSet calls k = some o) := by
  obtain ⟨c0, l, hh, hr, hcap, hl⟩ := (NewLRUCache_repr C).history [] calls
  simp only [LRUCache.run, hh, Option.map_some', Option.some.injEq] at hrun
  subst hrun
  constructor
  · intro k v
    obtain ⟨c1, l1, hset, hr1, -, hl1⟩ := hr.Set k v
    obtain ⟨c2, -, hget, -, -, -⟩ := hr1.Get k
    refine ⟨c1, c2, hset, ?_⟩
    rw [hget, hl1]
    simp only [Contents.get, Contents.get_set_self]
  · intro k c' o hget
    obtain ⟨c2, -, hget2, -, -, -⟩ := hr.Get k
    rw [hget2] at hget
    simp only [Option.some.injEq, Prod.mk.injEq] at hget
    have hval : GoMap.get (l.map Prod.snd) k = some o := by
      cases hg : GoMap.get (l.map Prod.snd) k with
      | none =>
        simp only [Contents.get, hg, Prod.mk.injEq] at hget
        exact absurd hget.2.2 (by simp)
      | some v0 =>
        simp only [Contents.get, hg, Prod.mk.injEq] at hget
        rw [hget.2.1]
    have hmem := GoMap.mem_of_get hval
    rw [hl] at hmem
    have := Contents.history_lastSet (NewLRUCache C).capacity calls [] [] []
      (by simp) (k, o) (by simpa using hmem)
    simpa using this

theorem lru_get_returns_last_set_witness :
    ∃ c, (NewLRUCache 0).run
        [Call.set [1] Order.zero, Call.set [1] { Order.zero with SmID := 7 }] = some c ∧
      (∃ c1 c2, c.Set [2] Order.zero = some c1 ∧ c1.Get [2] = some (c2, Order.zero, true)) ∧
      (∀ c' o, c.Get [1] = some (c', o, true) →
        lastSet [Call.set [1] Order.zero, Call.set [1] { Order.zero with SmID := 7 }] [1]
          = some o) :=
  ⟨_, rfl,
    (lru_get_returns_last_set 0
      [Call.set [1] Order.zero, Call.set [1] { Order.zero with SmID := 7 }] _ rfl).1 [2]
      Order.zero,
    (lru_get_returns_last_set 0
      [Call.set [1] Order.zero, Call.set [1] { Order.zero with SmID := 7 }] _ rfl).2 [1]⟩

/-! ## The claims about the shard router -/

/-- C16: for every router reached from `NewShardedCache` with `N` shards,
`1 <= N < 2^32`, by `Get` and `Set` calls, and every key: the router still has
shard count `N` and `N` shards; `getShardIndex(key)` returns FNV-1a-32 of the
bytes of the key modulo `N`, where FNV-1a-32 starts from 2166136261 and for
each byte XORs it in and multiplies by 16777619 modulo `2^32`; the index is
strictly less than `N`, and `shards[index]` exists; and every router with
shard count `N` gives the same index for the key. -/
theorem router_shard_index (capacityPerShard : Int) (N : Nat) (hN1 : 1 ≤ N) (hN2 : N < 2 ^ 32)
    (calls : List Call) (sc : ShardedCache)
    (hrun : (NewShardedCache capacityPerShard N).run calls = some sc) (key : GoString) :
    sc.numShards = N ∧ sc.shards.length = N ∧
      sc.getShardIndex key = some (fnv1a32 key % N) ∧
      fnv1a32 key % N < N ∧
      (∃ shard, sc.shards[fnv1a32 key % N]? = some shard) ∧
      (∀ tc : ShardedCache, tc.numShards = N → tc.getShardIndex key = sc.getShardIndex key) := by
  obtain ⟨h1, h2⟩ := ShardedCache.run_fields calls _ sc hrun
  obtain ⟨h3, h4⟩ := NewShardedCache_fields capacityPerShard N hN1 hN2
  have hnum : sc.numShards = N := h1.trans h3
  have hlen : sc.shards.length = N := h2.trans h4
  have hne : sc.numShards ≠ 0 := by omega
  have hlt : fnv1a32 key % N < N := Nat.mod_lt _ (by omega)
  refine ⟨hnum, hlen, ?_, hlt, ?_, ?_⟩
  · rw [sc.getShardIndex_eq key hne, hnum]
  · have : fnv1a32 key % N < sc.shards.length := by rw [hlen]; exact hlt
    exact ⟨sc.shards[fnv1a32 key % N], List.getElem?_eq_getElem this⟩
  · intro tc htc
    rw [sc.getShardIndex_eq key hne, tc.getShardIndex_eq key (by omega), hnum, htc]

theorem router_shard_index_witness :
    1 ≤ 4 ∧ 4 < 2 ^ 32 ∧
    ∃ sc, (NewShardedCache 2 ((4 : Nat) : Int)).run
        [Call.set [97] Order.zero, Call.get [97]] = some sc ∧
      sc.getShardIndex [97] = some (fnv1a32 [97] % 4) ∧ fnv1a32 [97] % 4 < 4 :=
  ⟨by decide, by decide, _, rfl,
    (router_shard_index 2 4 (by decide) (by decide) [Call.set [97] Order.zero, Call.get [97]] _
      rfl [97]).2.2.1,
    (router_shard_index 2 4 (by decide) (by decide) [Call.set [97] Order.zero, Call.get [97]] _
      rfl [97]).2.2.2.1⟩

/-- C15: for every per-shard capacity `c`, shard count `n` and sequence of
`Get` and `Set` calls, the `Get` calls return the same on
`NewShardedCache(c, n)` as on `NewShardedCache(max(c,1), max(n,1))` (a panic
on one is a panic on the other), and the same on `NewLRUCache(c)` as on
`NewLRUCache(max(c,1))`; a shard built with `c <= 0` runs every sequence to
completion and never holds more than 1 entry; and a router built with
`n <= 0` has exactly one shard and shard count 1. -/
theorem construction_clamps (c n : Int) (calls : List Call) :
    (NewShardedCache c n).results calls
        = (NewShardedCache (max c 1) (max n 1)).results calls ∧
      (NewLRUCache c).results calls = (NewLRUCache (max c 1)).results calls ∧
      (c ≤ 0 → ∃ s, (NewLRUCache c).run calls = some s ∧ GoMap.len s.items ≤ 1) ∧
      (n ≤ 0 → (NewShardedCache c n).shards.length = 1 ∧
        (NewShardedCache c n).numShards = 1) := by
  refine ⟨?_, ?_, ?_, ?_⟩
  · rw [NewShardedCache_clamp]
    by_cases hc : c ≤ 1
    · rw [max_eq_right hc]
      exact (NewShardedCache_sim hc n).results_eq calls
    · rw [max_eq_left (by omega)]
  · by_cases hc : c ≤ 1
    · rw [max_eq_right hc]
      exact (NewLRUCache_sim hc).results calls
    · rw [max_eq_left (by omega)]
  · intro hc
    obtain ⟨s, l, hh, hr, -, hl⟩ := (NewLRUCache_repr c).history [] calls
    refine ⟨s, by rw [LRUCache.run, hh]; rfl, ?_⟩
    have hcap : (NewLRUCache c).capacity ≤ 1 := by
      show c ≤ 1
      omega
    rw [Contents.history_cap_le_one hcap] at hl
    have hinv := (Contents.Inv.init (le_refl (1 : Int))).after_history (le_refl 1) calls
    have hb := hinv.bound
    rw [List.map_nil] at hl
    rw [← hl, List.length_map] at hb
    rw [hr.len]
    exact_mod_cast hb
  · intro hn
    simp [NewShardedCache, hn]

theorem construction_clamps_witness :
    (0 : Int) ≤ 0 ∧
    (NewShardedCache 0 0).results [Call.set [1] Order.zero, Call.set [2] Order.zero, Call.get [1]]
        = (NewShardedCache (max 0 1) (max 0 1)).results
            [Call.set [1] Order.zero, Call.set [2] Order.zero, Call.get [1]] ∧
    (∃ s, (NewLRUCache 0).run [Call.set [1] Order.zero, Call.set [2] Order.zero, Call.get [1]]
        = some s ∧ GoMap.len s.items ≤ 1) ∧
    (NewShardedCache 0 0).shards.length = 1 ∧ (NewShardedCache 0 0).numShards = 1 :=
  ⟨by decide,
    (construction_clamps 0 0 [Call.set [1] Order.zero, Call.set [2] Order.zero, Call.get [1]]).1,
    (construction_clamps 0 0
      [Call.set [1] Order.zero, Call.set [2] Order.zero, Call.get [1]]).2.2.1 (by decide),
    (construction_clamps 0 0
      [Call.set [1] Order.zero, Call.set [2] Order.zero, Call.get [1]]).2.2.2 (by decide)⟩


/-! ## Lemmas: the ingestion loop -/

/-- A message that a reader with a consumer group returns from `ReadMessage`
was fetched and then committed by `ReadMessage` itself, successfully, before
it was returned. -/
theorem kafka.Reader.ReadMessage_commits {W : Type} (r : kafka.Reader W)
    (hgroup : r.useConsumerGroup = true) {w w2 : W} {m : Message}
    (h : r.ReadMessage w = (w2, Except.ok m)) :
    ∃ w1, r.FetchMessage w = (w1, Except.ok m) ∧ r.CommitMessages w1 m = (w2, none) := by
  unfold kafka.Reader.ReadMessage at h
  rcases hf : r.FetchMessage w with ⟨w1, err | m1⟩
  · rw [hf] at h
    simp at h
  · rw [hf] at h
    simp only [hgroup, if_true] at h
    rcases hc : r.CommitMessages w1 m1 with ⟨w3, _ | e⟩
    · rw [hc] at h
      simp only [Prod.mk.injEq, Except.ok.injEq] at h
      obtain ⟨rfl, rfl⟩ := h
      exact ⟨w1, rfl, hc⟩
    · rw [hc] at h
      simp at h

theorem MessageConsumer.pass_shape {W σ : Type} (mc : MessageConsumer W σ)
    {s s1 : ConsumerState W σ} {evs : List Event} {fl : Flow}
    (h : mc.pass s = some (s1, evs, fl)) : mc.PassShape s evs fl s1 := by
  unfold MessageConsumer.pass at h
  rcases hr : mc.Reader.ReadMessage s.world with ⟨w1, err | msg⟩
  · rw [hr] at h
    simp only at h
    by_cases hc : err.isContextCanceled = true
    · rw [if_pos hc] at h
      simp only [Option.some.injEq, Prod.mk.injEq] at h
      obtain ⟨rfl, rfl, rfl⟩ := h
      exact PassShape.canceled s w1 err hr hc
    · rw [if_neg hc] at h
      simp only [Option.some.injEq, Prod.mk.injEq] at h
      obtain ⟨rfl, rfl, rfl⟩ := h
      exact PassShape.readError s w1 err hr (by simpa using hc)
  · rw [hr] at h
    simp only at h
    rcases hd : mc.Unmarshal msg.Value with derr | order
    · rw [hd] at h
      simp only [Option.some.injEq, Prod.mk.injEq] at h
      obtain ⟨rfl, rfl, rfl⟩ := h
      exact PassShape.undecodable s w1 _ msg derr _ hr hd rfl
    · rw [hd] at h
      simp only at h
      rcases hv : mc.Struct order with _ | verr
      · rw [hv] at h
        simp only at h
        rcases hs : mc.SaveOrder w1 order with ⟨w2, _ | err⟩
        · rw [hs] at h
          simp only at h
          rcases hset : mc.cache.Set s.cache order.OrderUID order with _ | c1
          · rw [hset] at h
            simp at h
          · rw [hset] at h
            simp only at h
            rcases hcm : mc.Reader.CommitMessages w2 msg with ⟨w3, _ | e⟩
            · rw [hcm] at h
              simp only [Option.some.injEq, Prod.mk.injEq] at h
              obtain ⟨rfl, rfl, rfl⟩ := h
              exact PassShape.saved s w1 w2 w3 c1 msg order hr hd hv hs hset hcm
            · rw [hcm] at h
              simp only [Option.some.injEq, Prod.mk.injEq] at h
              obtain ⟨rfl, rfl, rfl⟩ := h
              exact PassShape.savedCommitFailed s w1 w2 w3 c1 msg order e hr hd hv hs hset hcm
        · rw [hs] at h
          simp only at h
          by_cases hdup : err.isDuplicateKey = true
          · rw [if_pos hdup] at h
            rcases hcm : mc.Reader.CommitMessages w2 msg with ⟨w3, _ | e⟩
            · rw [hcm] at h
              simp only [Option.some.injEq, Prod.mk.injEq] at h
              obtain ⟨rfl, rfl, rfl⟩ := h
              exact PassShape.duplicate s w1 w2 w3 msg order err hr hd hv hs hdup hcm
            · rw [hcm] at h
              simp only [Option.some.injEq, Prod.mk.injEq] at h
              obtain ⟨rfl, rfl, rfl⟩ := h
              exact PassShape.duplicateCommitFailed s w1 w2 w3 msg order err e hr hd hv hs hdup hcm
          · rw [if_neg hdup] at h
            simp only [Option.some.injEq, Prod.mk.injEq] at h
            obtain ⟨rfl, rfl, rfl⟩ := h
            exact PassShape.saveFailed s w1 w2 msg order err hr hd hv hs (by simpa using hdup)
      · rw [hv] at h
        simp only [Option.some.injEq, Prod.mk.injEq] at h
        obtain ⟨rfl, rfl, rfl⟩ := h
        exact PassShape.invalid s w1 _ msg order verr _ hr hd hv rfl

/-- Every pass recorded by a run is a pass of the loop body from the state
before it; a pass that ends with `break` is the last one; and after a pass
that ends with `continue` the loop goes on from the state it left, as long as
it is allowed another pass. -/
theorem MessageConsumer.StartConsuming_get {W σ : Type} (mc : MessageConsumer W σ) :
    ∀ (fuel : Nat) (s : ConsumerState W σ) (tr : List (PassRecord W σ)),
      mc.StartConsuming fuel s = some tr → ∀ (i : Nat) (r : PassRecord W σ), tr[i]? = some r →
        mc.pass r.before = some (r.after, r.events, r.flow) ∧
        (r.flow = Flow.stop → i + 1 = tr.length) ∧
        (r.flow = Flow.next → i + 1 < fuel → ∃ r1, tr[i + 1]? = some r1 ∧ r1.before = r.after)
  | 0, s, tr, h, i, r, hi => by
      simp only [MessageConsumer.StartConsuming, Option.some.injEq] at h
      subst h
      simp at hi
  | fuel + 1, s, tr, h, i, r, hi => by
      unfold MessageConsumer.StartConsuming at h
      rcases hp : mc.pass s with _ | ⟨s1, evs, fl⟩
      · rw [hp] at h; simp at h
      · rw [hp] at h
        cases fl with
        | stop =>
          simp only [Option.some.injEq] at h
          subst h
          cases i with
          | zero =>
            simp only [List.getElem?_cons_zero, Option.some.injEq] at hi
            subst hi
            exact ⟨hp, fun _ => rfl, fun hf => by cases hf⟩
          | succ j => simp at hi
        | next =>
          simp only at h
          rcases hrest : mc.StartConsuming fuel s1 with _ | passes
          · rw [hrest] at h; simp at h
          · rw [hrest] at h
            simp only [Option.some.injEq] at h
            subst h
            cases i with
            | zero =>
              simp only [List.getElem?_cons_zero, Option.some.injEq] at hi
              subst hi
              refine ⟨hp, fun hf => (by cases hf), fun _ hlt => ?_⟩
              simp only [zero_add, List.getElem?_cons_succ]
              cases fuel with
              | zero => omega
              | succ f =>
                unfold MessageConsumer.StartConsuming at hrest
                rcases hp1 : mc.pass s1 with _ | ⟨s2, evs2, fl2⟩
                · rw [hp1] at hrest; simp at hrest
                · rw [hp1] at hrest
                  cases fl2 with
                  | stop =>
                    simp only [Option.some.injEq] at hrest
                    subst hrest
                    exact ⟨_, List.getElem?_cons_zero, rfl⟩
                  | next =>
                    simp only at hrest
                    rcases hrest2 : mc.StartConsuming f s2 with _ | passes2
                    · rw [hrest2] at hrest; simp at hrest
                    · rw [hrest2] at hrest
                      simp only [Option.some.injEq] at hrest
                      subst hrest
                      exact ⟨_, List.getElem?_cons_zero, rfl⟩
            | succ j =>
              simp only [List.getElem?_cons_succ] at hi
              obtain ⟨h1, h2, h3⟩ := MessageConsumer.StartConsuming_get mc fuel s1 passes hrest j r hi
              refine ⟨h1, fun hf => ?_, fun hf hlt => ?_⟩
              · simp only [List.length_cons]
                rw [← h2 hf]
              · simp only [List.getElem?_cons_succ]
                exact h3 hf (by omega)

theorem MessageConsumer.PassShape.head_read {W σ : Type} {mc : MessageConsumer W σ}
    {s s1 : ConsumerState W σ} {evs : List Event} {fl : Flow} (h : mc.PassShape s evs fl s1) :
    ∃ res, evs.head? = some (Event.read res) := by
  cases h <;> exact ⟨_, rfl⟩

/-- What a run records at position `i`: the shape of that pass, that a pass
ending with `break` is the last, and that after a pass ending with `continue`
the next pass, if the loop is allowed one, starts with a pull. -/
theorem MessageConsumer.StartConsuming_pass {W σ : Type} (mc : MessageConsumer W σ)
    {fuel : Nat} {s : ConsumerState W σ} {tr : List (PassRecord W σ)}
    (hrun : mc.StartConsuming fuel s = some tr) {i : Nat} {r : PassRecord W σ}
    (hr : tr[i]? = some r) :
    mc.PassShape r.before r.events r.flow r.after ∧
      (r.flow = Flow.stop → i + 1 = tr.length) ∧
      (r.flow = Flow.next → i + 1 < fuel →
        ∃ r1, tr[i + 1]? = some r1 ∧ ∃ res, r1.events.head? = some (Event.read res)) := by
  obtain ⟨hp, hstop, hnext⟩ := mc.StartConsuming_get fuel s tr hrun i r hr
  refine ⟨mc.pass_shape hp, hstop, fun hf hlt => ?_⟩
  obtain ⟨r1, hr1, -⟩ := hnext hf hlt
  obtain ⟨hp1, -, -⟩ := mc.StartConsuming_get fuel s tr hrun (i + 1) r1 hr1
  exact ⟨r1, hr1, (mc.pass_shape hp1).head_read⟩

/-! ## The claims about the ingestion loop

`NewMessageConsumer` builds its reader with a `GroupID` and the loop pulls with
`ReadMessage`, which for such a reader commits the offset of the message it
returns. Every message that the loop gets to see has therefore been
acknowledged before the loop decodes it. The five theorems that follow run the
loop on the scripted world, whose `log` records every call that reached the
broker, the store and the cancellation callback. -/

/-- C3, the code at the failing inputs: a message whose order `SaveOrder`
refuses with the PostgreSQL error 53300, which is not a duplicate-key error,
has been acknowledged: the world has received a commit for it, made by
`ReadMessage` before the `SaveOrder` call, although the body of the loop makes
no acknowledge call of its own and calls `onCriticalError`. And for a message
whose `SaveOrder` succeeds the first commit reaches the world before the
`SaveOrder` call, not only after it. -/
theorem read_message_acknowledges_unsaved :
    (Script.consumer.StartConsuming 2
        ⟨Script.start [Except.ok (Message.atOffset 0 [1])] [some GoError.tooManyConnections] [],
          NewLRUCache 1⟩).map
        (fun tr => tr.map (fun r => (r.events, r.after.world.log)))
      = some [([Event.read (Except.ok (Message.atOffset 0 [1])),
            Event.save { Order.zero with OrderUID := [1] } (some GoError.tooManyConnections),
            Event.critical],
          [Effect.fetch (Except.ok (Message.atOffset 0 [1])),
            Effect.commit (Message.atOffset 0 [1]) none,
            Effect.save { Order.zero with OrderUID := [1] } (some GoError.tooManyConnections),
            Effect.cancel])] ∧
      GoError.tooManyConnections.isDuplicateKey = false ∧
      (Script.consumer.StartConsuming 1
          ⟨Script.start [Except.ok (Message.atOffset 0 [1])] [none] [], NewLRUCache 1⟩).map
          (fun tr => tr.map (fun r => r.after.world.log))
        = some [[Effect.fetch (Except.ok (Message.atOffset 0 [1])),
            Effect.commit (Message.atOffset 0 [1]) none,
            Effect.save { Order.zero with OrderUID := [1] } none,
            Effect.commit (Message.atOffset 0 [1]) none]] :=
  ⟨rfl, rfl, rfl⟩

/-- C4, the code at the failing input: for a message that decodes, validates
and whose `SaveOrder` succeeds, the body of the loop makes the calls pull,
`SaveOrder`, cache `Set`, acknowledge, in that order, but the world receives
two commits for the message: one made by `ReadMessage` before the `SaveOrder`
call, and the one of the loop after it. -/
theorem saved_message_acknowledged_twice :
    (Script.consumer.StartConsuming 1
        ⟨Script.start [Except.ok (Message.atOffset 7 [1])] [none] [none, none],
          NewLRUCache 1⟩).map
        (fun tr => tr.map (fun r => (r.events, r.after.world.log)))
      = some [([Event.read (Except.ok (Message.atOffset 7 [1])),
            Event.save { Order.zero with OrderUID := [1] } none,
            Event.cacheSet [1] { Order.zero with OrderUID := [1] },
            Event.commit (Message.atOffset 7 [1]) none],
          [Effect.fetch (Except.ok (Message.atOffset 7 [1])),
            Effect.commit (Message.atOffset 7 [1]) none,
            Effect.save { Order.zero with OrderUID := [1] } none,
            Effect.commit (Message.atOffset 7 [1]) none])] :=
  rfl

/-- C5, the code at the failing input: for a message whose `SaveOrder` returns
an error that is not a duplicate-key error, the loop makes no cache `Set`,
calls `onCriticalError` and makes no further pull, although a second message
is waiting; but the world has received one commit for the message, made by
`ReadMessage` before the `SaveOrder` call, so the number of acknowledge calls
for the message is one, not zero. -/
theorem save_error_message_acknowledged :
    (Script.consumer.StartConsuming 3
        ⟨Script.start [Except.ok (Message.atOffset 0 [1]), Except.ok (Message.atOffset 1 [2])]
          [some GoError.other] [], NewLRUCache 1⟩).map
        (fun tr => tr.map
          (fun r => (r.events, r.after.world.log, r.after.world.cancelled,
            decide (r.after.cache = r.before.cache))))
      = some [([Event.read (Except.ok (Message.atOffset 0 [1])),
            Event.save { Order.zero with OrderUID := [1] } (some GoError.other),
            Event.critical],
          [Effect.fetch (Except.ok (Message.atOffset 0 [1])),
            Effect.commit (Message.atOffset 0 [1]) none,
            Effect.save { Order.zero with OrderUID := [1] } (some GoError.other),
            Effect.cancel],
          true, true)] ∧
      GoError.other.isDuplicateKey = false :=
  ⟨rfl, rfl⟩

/-- C6, the code at the failing input: for a message whose `SaveOrder` returns
the duplicate-key error 23505 the loop makes no cache `Set` and the cache is
unchanged, but the world receives two commits for the message, one made by
`ReadMessage` before the `SaveOrder` call and the one of the loop after it:
two acknowledge calls, not exactly one. -/
theorem duplicate_message_acknowledged_twice :
    (Script.consumer.StartConsuming 1
        ⟨Script.start [Except.ok (Message.atOffset 0 [1])] [some GoError.duplicateKey] [],
          NewLRUCache 1⟩).map
        (fun tr => tr.map
          (fun r => (r.events, r.after.world.log, decide (r.after.cache = r.before.cache))))
      = some [([Event.read (Except.ok (Message.atOffset 0 [1])),
            Event.save { Order.zero with OrderUID := [1] } (some GoError.duplicateKey),
            Event.commit (Message.atOffset 0 [1]) none],
          [Effect.fetch (Except.ok (Message.atOffset 0 [1])),
            Effect.commit (Message.atOffset 0 [1]) none,
            Effect.save { Order.zero with OrderUID := [1] } (some GoError.duplicateKey),
            Effect.commit (Message.atOffset 0 [1]) none],
          true)] ∧
      GoError.duplicateKey.isDuplicateKey = true :=
  ⟨rfl, rfl⟩

/-- C7, the code at the failing inputs: for a message whose payload cannot be
decoded and for a message whose decoded record fails validation, the loop
makes no `SaveOrder` call and no cache `Set` and goes on to the next pull, but
the world receives two commits for each of the two messages, the first made by
`ReadMessage` and the second by the loop: two acknowledge calls, not exactly
one. -/
theorem discarded_message_acknowledged_twice :
    (Script.consumer.StartConsuming 2
        ⟨Script.start [Except.ok (Message.atOffset 0 []), Except.ok (Message.atOffset 1 [0, 7])]
          [] [], NewLRUCache 1⟩).map
        (fun tr => tr.map (fun r => (r.events, r.flow, r.after.world.log)))
      = some [([Event.read (Except.ok (Message.atOffset 0 [])),
            Event.commit (Message.atOffset 0 []) none], Flow.next,
          [Effect.fetch (Except.ok (Message.atOffset 0 [])),
            Effect.commit (Message.atOffset 0 []) none,
            Effect.commit (Message.atOffset 0 []) none]),
        ([Event.read (Except.ok (Message.atOffset 1 [0, 7])),
            Event.commit (Message.atOffset 1 [0, 7]) none], Flow.next,
          [Effect.fetch (Except.ok (Message.atOffset 0 [])),
            Effect.commit (Message.atOffset 0 []) none,
            Effect.commit (Message.atOffset 0 []) none,
            Effect.fetch (Except.ok (Message.atOffset 1 [0, 7])),
            Effect.commit (Message.atOffset 1 [0, 7]) none,
            Effect.commit (Message.atOffset 1 [0, 7]) none])] ∧
      (∃ derr, Script.consumer.Unmarshal (Message.atOffset 0 []).Value = Except.error derr) ∧
      (∃ order verr, Script.consumer.Unmarshal (Message.atOffset 1 [0, 7]).Value = Except.ok order ∧
        Script.consumer.Struct order = some verr) :=
  ⟨rfl, ⟨_, rfl⟩, ⟨_, _, rfl, rfl⟩⟩

/-- C8: in every run of `StartConsuming`, a pass in which `SaveOrder(order)`
returned success and the acknowledge call of the loop for the pulled message
returned an error makes exactly these calls, in this order: the pull, the
`SaveOrder` call, the cache `Set(order.OrderUID, order)`, the acknowledge call
and `onCriticalError`. Each call acts on the world the call before it left:
`ReadMessage` on the world before the pass, `SaveOrder` on the world after the
pull, `CommitMessages` on the world after the save, and the world after the
pass is what `onCriticalError` makes of the world after the failed
acknowledge call. The cache after the pass is the result of that `Set`; and
the pass ends the loop: it is the last pass of the run however many passes
the loop is allowed, so no further pull is made. -/
theorem consumer_commit_error_fatal {W σ : Type} (mc : MessageConsumer W σ) (fuel : Nat)
    (s : ConsumerState W σ) (tr : List (PassRecord W σ))
    (hrun : mc.StartConsuming fuel s = some tr) (i : Nat) (r : PassRecord W σ)
    (hr : tr[i]? = some r) (order : Order) (msg : Message) (e : GoError)
    (hsave : Event.save order none ∈ r.events)
    (hcommit : Event.commit msg (some e) ∈ r.events) :
    r.events = [Event.read (Except.ok msg), Event.save order none,
        Event.cacheSet order.OrderUID order, Event.commit msg (some e), Event.critical] ∧
      (∃ w1 w2 w3, mc.Reader.ReadMessage r.before.world = (w1, Except.ok msg) ∧
        mc.SaveOrder w1 order = (w2, none) ∧
        mc.Reader.CommitMessages w2 msg = (w3, some e) ∧
        r.after.world = mc.onCriticalError w3) ∧
      mc.cache.Set r.before.cache order.OrderUID order = some r.after.cache ∧
      r.flow = Flow.stop ∧ i + 1 = tr.length := by
  obtain ⟨hshape, hstop, -⟩ := mc.StartConsuming_pass hrun hr
  obtain ⟨b, evs, fl, a⟩ := r
  simp only at hshape hstop hsave hcommit ⊢
  cases hshape with
  | canceled w1 err hread h => simp at hsave
  | readError w1 err hread h => simp at hsave
  | undecodable w1 w2 m derr e1 hread hd hcm => simp at hsave
  | invalid w1 w2 m o verr e1 hread hd hv hcm => simp at hsave
  | duplicate w1 w2 w3 m o err1 hread hd hv hs hdup1 hcm => simp at hsave
  | duplicateCommitFailed w1 w2 w3 m o err1 e1 hread hd hv hs hdup1 hcm => simp at hsave
  | saveFailed w1 w2 m o err1 hread hd hv hs hnd => simp at hsave
  | saved w1 w2 w3 c2 m o hread hd hv hs hset hcm => simp at hcommit
  | savedCommitFailed w1 w2 w3 c2 m o e1 hread hd hv hs hset hcm =>
    have ho : order = o := by simpa using hsave
    have hc : msg = m ∧ e = e1 := by simpa using hcommit
    obtain ⟨rfl, rfl⟩ := hc
    subst ho
    exact ⟨rfl, ⟨w1, w2, w3, hread, hs, hcm, rfl⟩, hset, rfl, hstop rfl⟩

theorem consumer_commit_error_fatal_witness :
    ∃ tr r,
      Script.consumer.StartConsuming 3
          ⟨Script.start [Except.ok (Message.atOffset 0 [1]), Except.ok (Message.atOffset 1 [2])]
            [none] [none, some GoError.other], NewLRUCache 1⟩
        = some tr ∧
      tr[0]? = some r ∧
      Event.save { Order.zero with OrderUID := [1] } none ∈ r.events ∧
      Event.commit (Message.atOffset 0 [1]) (some GoError.other) ∈ r.events ∧
      (r.events = [Event.read (Except.ok (Message.atOffset 0 [1])),
          Event.save { Order.zero with OrderUID := [1] } none,
          Event.cacheSet [1] { Order.zero with OrderUID := [1] },
          Event.commit (Message.atOffset 0 [1]) (some GoError.other), Event.critical] ∧
        (∃ w1 w2 w3,
          Script.consumer.Reader.ReadMessage r.before.world
            = (w1, Except.ok (Message.atOffset 0 [1])) ∧
          Script.consumer.SaveOrder w1 { Order.zero with OrderUID := [1] } = (w2, none) ∧
          Script.consumer.Reader.CommitMessages w2 (Message.atOffset 0 [1])
            = (w3, some GoError.other) ∧
          r.after.world = Script.consumer.onCriticalError w3) ∧
        Script.consumer.cache.Set r.before.cache [1] { Order.zero with OrderUID := [1] }
          = some r.after.cache ∧
        r.flow = Flow.stop ∧ 0 + 1 = tr.length) ∧
      r.after.world.cancelled = true ∧
      r.after.world.log = [Effect.fetch (Except.ok (Message.atOffset 0 [1])),
        Effect.commit (Message.atOffset 0 [1]) none,
        Effect.save { Order.zero with OrderUID := [1] } none,
        Effect.commit (Message.atOffset 0 [1]) (some GoError.other), Effect.cancel] :=
  ⟨_, _, rfl, rfl, by decide, by decide,
    consumer_commit_error_fatal Script.consumer 3
      ⟨Script.start [Except.ok (Message.atOffset 0 [1]), Except.ok (Message.atOffset 1 [2])]
        [none] [none, some GoError.other], NewLRUCache 1⟩ _ rfl 0 _ rfl
      { Order.zero with OrderUID := [1] } (Message.atOffset 0 [1]) GoError.other
      (by decide) (by decide), rfl, rfl⟩

theorem ShardedCache.single_Set (s : LRUCache) (k : GoString) (v : Order) :
    ShardedCache.Set { shards := [s], numShards := 1 } k v
      = (s.Set k v).map (fun s1 => { shards := [s1], numShards := 1 }) := by
  simp only [ShardedCache.Set, ShardedCache.getShardIndex, Nat.mod_one, one_ne_zero, if_false,
    List.getElem?_cons_zero]
  cases s.Set k v <;> rfl

theorem ShardedCache.single_Get (s : LRUCache) (k : GoString) :
    ShardedCache.Get { shards := [s], numShards := 1 } k
      = (s.Get k).map (fun r => ({ shards := [r.1], numShards := 1 }, r.2)) := by
  simp only [ShardedCache.Get, ShardedCache.getShardIndex, Nat.mod_one, one_ne_zero, if_false,
    List.getElem?_cons_zero]
  cases s.Get k <;> rfl

/-- C17: with a router of one shard of capacity 1 as the cache, and two
records `A` and `B` with different keys whose messages are pulled one after
the other and which both decode, validate, save and acknowledge successfully,
two passes of the consumer loop run to completion and make exactly these
calls: pull, `SaveOrder(A)` (success), cache `Set`, acknowledge, then pull,
`SaveOrder(B)` (success), cache `Set`, acknowledge; so `SaveOrder` succeeded
once for `A` and once for `B`. In the cache left by the two passes `Get` of
the key of `A` returns not-found and `Get` of the key of `B` returns `B`. -/
theorem ingest_two_records {W : Type} (mc : MessageConsumer W ShardedCache)
    (hcache : mc.cache = ShardedCache.asOrderCache) (w0 w1 w2 w3 w4 w5 w6 : W)
    (msgA msgB : Message) (A B : Order) (hne : A.OrderUID ≠ B.OrderUID)
    (hreadA : mc.Reader.ReadMessage w0 = (w1, Except.ok msgA))
    (hdecA : mc.Unmarshal msgA.Value = Except.ok A) (hvalA : mc.Struct A = none)
    (hsaveA : mc.SaveOrder w1 A = (w2, none)) (hackA : mc.Reader.CommitMessages w2 msgA = (w3, none))
    (hreadB : mc.Reader.ReadMessage w3 = (w4, Except.ok msgB))
    (hdecB : mc.Unmarshal msgB.Value = Except.ok B) (hvalB : mc.Struct B = none)
    (hsaveB : mc.SaveOrder w4 B = (w5, none)) (hackB : mc.Reader.CommitMessages w5 msgB = (w6, none)) :
    ∃ tr sc, mc.StartConsuming 2 ⟨w0, NewShardedCache 1 1⟩ = some tr ∧
      tr.map (fun r => r.events) =
        [[Event.read (Except.ok msgA), Event.save A none, Event.cacheSet A.OrderUID A,
            Event.commit msgA none],
          [Event.read (Except.ok msgB), Event.save B none, Event.cacheSet B.OrderUID B,
            Event.commit msgB none]] ∧
      tr.getLast?.map (fun r => r.after.cache) = some sc ∧
      (∃ sc1, sc.Get A.OrderUID = some (sc1, Order.zero, false)) ∧
      (∃ sc1, sc.Get B.OrderUID = some (sc1, B, true)) := by
  obtain ⟨s1, l1, hset1, hr1, hcapA, hl1⟩ := (NewLRUCache_repr 1).Set A.OrderUID A
  obtain ⟨s2, l2, hset2, hr2, -, hl2⟩ := hr1.Set B.OrderUID B
  have hcap1 : (NewLRUCache 1).capacity = 1 := rfl
  have hcap2 : s1.capacity = 1 := hcapA
  have hc1 : l1.map Prod.snd = [(A.OrderUID, A)] := by
    rw [hl1, hcap1]
    simp [Contents.set, GoMap.get]
  have hc2 : l2.map Prod.snd = [(B.OrderUID, B)] := by
    rw [hl2, hc1, hcap2]
    simp [Contents.set, GoMap.get, hne]
  have hnew : NewShardedCache 1 1 = { shards := [NewLRUCache 1], numShards := 1 } := rfl
  have hpass1 : mc.pass ⟨w0, NewShardedCache 1 1⟩
      = some (⟨w3, { shards := [s1], numShards := 1 }⟩,
          [Event.read (Except.ok msgA), Event.save A none, Event.cacheSet A.OrderUID A,
            Event.commit msgA none], Flow.next) := by
    simp only [MessageConsumer.pass, hreadA, hdecA, hvalA, hsaveA, hackA, hcache,
      ShardedCache.asOrderCache, hnew, ShardedCache.single_Set, hset1, Option.map_some']
  have hpass2 : mc.pass ⟨w3, { shards := [s1], numShards := 1 }⟩
      = some (⟨w6, { shards := [s2], numShards := 1 }⟩,
          [Event.read (Except.ok msgB), Event.save B none, Event.cacheSet B.OrderUID B,
            Event.commit msgB none], Flow.next) := by
    simp only [MessageConsumer.pass, hreadB, hdecB, hvalB, hsaveB, hackB, hcache,
      ShardedCache.asOrderCache, ShardedCache.single_Set, hset2, Option.map_some']
  refine ⟨[⟨⟨w0, NewShardedCache 1 1⟩,
        [Event.read (Except.ok msgA), Event.save A none, Event.cacheSet A.OrderUID A,
          Event.commit msgA none], Flow.next, ⟨w3, { shards := [s1], numShards := 1 }⟩⟩,
      ⟨⟨w3, { shards := [s1], numShards := 1 }⟩,
        [Event.read (Except.ok msgB), Event.save B none, Event.cacheSet B.OrderUID B,
          Event.commit msgB none], Flow.next, ⟨w6, { shards := [s2], numShards := 1 }⟩⟩],
    { shards := [s2], numShards := 1 }, ?_, ?_, ?_, ?_, ?_⟩
  · simp only [MessageConsumer.StartConsuming, hpass1, hpass2]
  · rfl
  · rfl
  · obtain ⟨s3, -, hget, -, -, -⟩ := hr2.Get A.OrderUID
    rw [hc2] at hget
    refine ⟨{ shards := [s3], numShards := 1 }, ?_⟩
    rw [ShardedCache.single_Get, hget]
    have hne1 : ¬ B.OrderUID = A.OrderUID := fun h => hne h.symm
    simp [Contents.get, GoMap.get, hne1]
  · obtain ⟨s3, -, hget, -, -, -⟩ := hr2.Get B.OrderUID
    rw [hc2] at hget
    refine ⟨{ shards := [s3], numShards := 1 }, ?_⟩
    rw [ShardedCache.single_Get, hget]
    simp [Contents.get, GoMap.get]

theorem ingest_two_records_witness :
    ∃ w1 w2 w3 w4 w5 w6 : Script,
      Script.routerConsumer.cache = ShardedCache.asOrderCache ∧
      ({ Order.zero with OrderUID := [1] } : Order).OrderUID
        ≠ ({ Order.zero with OrderUID := [2] } : Order).OrderUID ∧
      Script.routerConsumer.Reader.ReadMessage
          (Script.start [Except.ok (Message.atOffset 0 [1]), Except.ok (Message.atOffset 1 [2])]
            [] [])
        = (w1, Except.ok (Message.atOffset 0 [1])) ∧
      Script.routerConsumer.Unmarshal (Message.atOffset 0 [1]).Value
        = Except.ok { Order.zero with OrderUID := [1] } ∧
      Script.routerConsumer.Struct { Order.zero with OrderUID := [1] } = none ∧
      Script.routerConsumer.SaveOrder w1 { Order.zero with OrderUID := [1] } = (w2, none) ∧
      Script.routerConsumer.Reader.CommitMessages w2 (Message.atOffset 0 [1]) = (w3, none) ∧
      Script.routerConsumer.Reader.ReadMessage w3 = (w4, Except.ok (Message.atOffset 1 [2])) ∧
      Script.routerConsumer.Unmarshal (Message.atOffset 1 [2]).Value
        = Except.ok { Order.zero with OrderUID := [2] } ∧
      Script.routerConsumer.Struct { Order.zero with OrderUID := [2] } = none ∧
      Script.routerConsumer.SaveOrder w4 { Order.zero with OrderUID := [2] } = (w5, none) ∧
      Script.routerConsumer.Reader.CommitMessages w5 (Message.atOffset 1 [2]) = (w6, none) ∧
      ∃ tr sc,
        Script.routerConsumer.StartConsuming 2
            ⟨Script.start
              [Except.ok (Message.atOffset 0 [1]), Except.ok (Message.atOffset 1 [2])] [] [],
              NewShardedCache 1 1⟩ = some tr ∧
        tr.getLast?.map (fun r => r.after.cache) = some sc ∧
        (∃ sc1, sc.Get [1] = some (sc1, Order.zero, false)) ∧
        (∃ sc1, sc.Get [2] = some (sc1, { Order.zero with OrderUID := [2] }, true)) := by
  refine ⟨_, _, _, _, _, _, rfl, by decide, rfl, rfl, rfl, rfl, rfl, rfl, rfl, rfl, rfl, rfl, ?_⟩
  obtain ⟨tr, sc, h1, -, h3, h4, h5⟩ :=
    ingest_two_records Script.routerConsumer rfl
      (Script.start [Except.ok (Message.atOffset 0 [1]), Except.ok (Message.atOffset 1 [2])]
        [] []) _ _ _ _ _ _
      (Message.atOffset 0 [1]) (Message.atOffset 1 [2]) { Order.zero with OrderUID := [1] }
      { Order.zero with OrderUID := [2] } (by decide) rfl rfl rfl rfl rfl rfl rfl rfl rfl rfl
  exact ⟨tr, sc, h1, h3, h4, h5⟩


/-! ## The read path -/

/-- When the result of the query has no row, `GetOrderByUID` reports
`ErrOrderNotFound`, whatever `rows.Err()` holds. -/
theorem Storage.GetOrderByUID_no_rows {W : Type} (db : Storage W) (w w1 : W) (uid : GoString)
    (err : Option GoError) (h : db.QueryOrder w uid = (w1, Except.ok ⟨[], err⟩)) :
    db.GetOrderByUID w uid = (w1, Except.error StorageError.orderNotFound) := by
  simp [Storage.GetOrderByUID, h, GetOrderByUID.loop]

/-- When the query itself returns an error, `GetOrderByUID` wraps it. -/
theorem Storage.GetOrderByUID_query_error {W : Type} (db : Storage W) (w w1 : W)
    (uid : GoString) (err : GoError) (h : db.QueryOrder w uid = (w1, Except.error err)) :
    db.GetOrderByUID w uid
      = (w1, Except.error (StorageError.wrapped ErrorContext.queryOrder err)) := by
  simp [Storage.GetOrderByUID, h]

/-- On a cache miss the handler answers an error of the store that is not
`ErrOrderNotFound` with status 500 and the fixed text, and `ErrOrderNotFound`
with status 404. -/
theorem Server.handleGetOrder_store_error {W σ : Type} (srv : Server W σ)
    (s : ServerState W σ) {uid : GoString} (huid : uid ≠ []) {c1 : σ} {o : Order} {w1 : W}
    {err : StorageError} (hget : srv.Cache.Get s.cache uid = some (c1, o, false))
    (hstore : srv.DB.GetOrderByUID s.world uid = (w1, Except.error err)) :
    srv.handleGetOrder s uid
      = some (⟨w1, c1⟩,
          (if err.isOrderNotFound then
            ⟨some 404, [Chunk.text ErrorText.orderNotFound]⟩
          else ⟨some 500, [Chunk.text ErrorText.internalServerError]⟩),
          [ServerCall.cacheGet uid, ServerCall.storeGet uid]) := by
  simp only [Server.handleGetOrder, huid, if_false, hget, hstore]
  cases err <;> rfl

theorem GetOrderByUID.loop_found_true :
    ∀ (rows : List (Except GoError Row)) (order : Order) (m : GoMap Int Unit) (o : Order)
      (f : Bool), GetOrderByUID.loop rows order m true = Except.ok (o, f) → f = true
  | [], order, m, o, f, h => by
      simp only [GetOrderByUID.loop, Except.ok.injEq, Prod.mk.injEq] at h
      exact h.2.symm
  | Except.error e :: rest, order, m, o, f, h => by
      simp [GetOrderByUID.loop] at h
  | Except.ok r :: rest, order, m, o, f, h => by
      simp only [GetOrderByUID.loop] at h
      split at h
      · split at h
        · exact GetOrderByUID.loop_found_true rest _ _ o f h
        · exact GetOrderByUID.loop_found_true rest _ _ o f h
      · exact GetOrderByUID.loop_found_true rest _ _ o f h

theorem GetOrderByUID.loop_cons_found (x : Except GoError Row) (rest : List (Except GoError Row))
    (order : Order) (m : GoMap Int Unit) (found : Bool) (o : Order) (f : Bool)
    (h : GetOrderByUID.loop (x :: rest) order m found = Except.ok (o, f)) : f = true := by
  cases x with
  | error e => simp [GetOrderByUID.loop] at h
  | ok r =>
    simp only [GetOrderByUID.loop] at h
    split at h
    · split at h
      · exact GetOrderByUID.loop_found_true rest _ _ o f h
      · exact GetOrderByUID.loop_found_true rest _ _ o f h
    · exact GetOrderByUID.loop_found_true rest _ _ o f h

/-- When the query succeeds, `GetOrderByUID` reports `ErrOrderNotFound`
exactly when the result has no row; with at least one row a scan error or a
`rows.Err()` failure is returned wrapped, never as `ErrOrderNotFound`. -/
theorem Storage.GetOrderByUID_not_found_iff {W : Type} (db : Storage W) (w w1 : W)
    (uid : GoString) (rows : Rows) (h : db.QueryOrder w uid = (w1, Except.ok rows)) :
    (db.GetOrderByUID w uid).2 = Except.error StorageError.orderNotFound ↔ rows.rows = [] := by
  constructor
  · intro hres
    cases hrows : rows.rows with
    | nil => rfl
    | cons x rest =>
      exfalso
      simp only [Storage.GetOrderByUID, h, hrows] at hres
      cases hl : GetOrderByUID.loop (x :: rest) Order.zero [] false with
      | error e =>
        rw [hl] at hres
        simp only [Except.error.injEq] at hres
        cases x with
        | error e1 =>
          simp only [GetOrderByUID.loop, Except.error.injEq] at hl
          rw [← hl] at hres
          cases hres
        | ok r =>
          -- a later scan error: the loop only ever returns wrapped errors
          have hw : ∀ (rs : List (Except GoError Row)) (o : Order) (m : GoMap Int Unit)
              (b : Bool) (e0 : StorageError), GetOrderByUID.loop rs o m b = Except.error e0 →
              e0 ≠ StorageError.orderNotFound := by
            intro rs
            induction rs with
            | nil => intro o m b e0 h0; simp [GetOrderByUID.loop] at h0
            | cons y ys ih =>
              intro o m b e0 h0
              cases y with
              | error e1 =>
                simp only [GetOrderByUID.loop, Except.error.injEq] at h0
                rw [← h0]
                intro hc; cases hc
              | ok r1 =>
                simp only [GetOrderByUID.loop] at h0
                split at h0
                · split at h0
                  · exact ih _ _ _ _ h0
                  · exact ih _ _ _ _ h0
                · exact ih _ _ _ _ h0
          exact hw _ _ _ _ _ hl hres
      | ok res =>
        obtain ⟨o, f⟩ := res
        have hf := GetOrderByUID.loop_cons_found x rest Order.zero [] false o f hl
        rw [hl] at hres
        subst hf
        simp only [Bool.true_eq_false, if_false] at hres
        cases herr : rows.err with
        | none => rw [herr] at hres; cases hres
        | some e => rw [herr] at hres; cases hres
  · intro hrows
    have hq : db.QueryOrder w uid = (w1, Except.ok ⟨[], rows.err⟩) := by
      rw [h, ← hrows]
    rw [db.GetOrderByUID_no_rows w w1 uid rows.err hq]

/-- C18, the code at the failing input: the cache does not hold the key, and
the query for it ends without a row while `rows.Err()` reports a failure.
`GetOrderByUID` tests `found` before `rows.Err()` and so returns
`ErrOrderNotFound`, and the handler answers status 404 with the text for an
unknown order instead of status 500 with the internal-error text. -/
theorem handler_rows_err_answers_404 :
    (Server.scripted (Except.ok ⟨[], some GoError.other⟩)).DB.GetOrderByUID () [1]
        = ((), Except.error StorageError.orderNotFound) ∧
      (Server.scripted (Except.ok ⟨[], some GoError.other⟩)).handleGetOrder
          ⟨(), NewLRUCache 10⟩ [1]
        = some (⟨(), NewLRUCache 10⟩, ⟨some 404, [Chunk.text ErrorText.orderNotFound]⟩,
            [ServerCall.cacheGet [1], ServerCall.storeGet [1]]) :=
  ⟨rfl, rfl⟩

/-- C20, the code at the failing input: the query delivers the rows of two
orders most recent first (created at 5, then at 3), and the `range` over
`orderMap` visits the entry of the older order first, which Go permits. The
slice returned has the older order before the newer one, so it is not ordered
most-recent-first. -/
theorem GetAllOrders_not_most_recent_first :
    (∀ m : GoMap GoString Order, List.Perm (id m) m) ∧
      (Storage.scripted
          (Except.ok ⟨[Except.ok (Row.sample [1] 5), Except.ok (Row.sample [2] 3)], none⟩)
        ).GetAllOrders id () 10
        = ((), Except.ok
            [{ Order.zero with
                OrderUID := [2], DateCreated := 3, Items := [{ Item.zero with ChrtID := 1 }] },
              { Order.zero with
                OrderUID := [1], DateCreated := 5, Items := [{ Item.zero with ChrtID := 1 }] }]) ∧
      ¬ MostRecentFirst
          [{ Order.zero with
              OrderUID := [2], DateCreated := 3, Items := [{ Item.zero with ChrtID := 1 }] },
            { Order.zero with
              OrderUID := [1], DateCreated := 5, Items := [{ Item.zero with ChrtID := 1 }] }] := by
  refine ⟨fun m => List.Perm.refl m, rfl, ?_⟩
  unfold MostRecentFirst
  rw [List.chain'_pair]
  decide

/-! ## The claim about the ownership of keys by shards -/

/-- C21: in every router state `sc` reached from `NewShardedCache(c, n)` by a run
of `Get` and `Set` calls: (1) every key stored in the shard at index `i` has
`getShardIndex(key) = i`; (2) a key stored in the shards at indices `i` and `j`
has `i = j`; (3) unless the shard count is zero modulo `2^32`, every `Set(k, v)`
and `Get(k)` on `sc` returns; (4) a `Set(k, v)` that returns leaves the number
of shards and every shard at an index other than `getShardIndex(k)` as they
were; (5) the same for a `Get(k)`. -/
theorem router_keys_in_own_shard (c n : Int) (calls : List Call) (sc : ShardedCache)
    (hrun : (NewShardedCache c n).run calls = some sc) :
    (∀ (i : Nat) (s : LRUCache) (key : GoString), sc.shards[i]? = some s → s.stored key →
        sc.getShardIndex key = some i) ∧
      (∀ (i j : Nat) (s t : LRUCache) (key : GoString), sc.shards[i]? = some s →
        sc.shards[j]? = some t → s.stored key → t.stored key → i = j) ∧
      (sc.numShards ≠ 0 → ∀ k : GoString,
        (∀ v, ∃ sc1, sc.Set k v = some sc1) ∧ ∃ sc1 r, sc.Get k = some (sc1, r)) ∧
      (∀ (k : GoString) (v : Order) (sc1 : ShardedCache), sc.Set k v = some sc1 →
        ∃ i, sc.getShardIndex k = some i ∧ sc1.shards.length = sc.shards.length ∧
          ∀ j, j ≠ i → sc1.shards[j]? = sc.shards[j]?) ∧
      (∀ (k : GoString) (sc1 : ShardedCache) (r : Order × Bool), sc.Get k = some (sc1, r) →
        ∃ i, sc.getShardIndex k = some i ∧ sc1.shards.length = sc.shards.length ∧
          ∀ j, j ≠ i → sc1.shards[j]? = sc.shards[j]?) := by
  have hown : sc.Owned :=
    ShardedCache.Owned.after_run calls _ sc (NewShardedCache_owned c n) hrun
  refine ⟨?_, ?_, ?_, ?_, ?_⟩
  · intro i s key hs hkey
    exact (hown.2 i s hs).2 key hkey
  · intro i j s t key hs ht hks hkt
    have h1 := (hown.2 i s hs).2 key hks
    have h2 := (hown.2 j t ht).2 key hkt
    rw [h1] at h2
    exact Option.some.inj h2
  · intro hn k
    exact hown.total hn k
  · intro k v sc1 hset
    obtain ⟨i, s, s1, hi, -, -, rfl⟩ := ShardedCache.Set_some hset
    refine ⟨i, hi, by simp, ?_⟩
    intro j hj
    simp only [List.getElem?_set]
    rw [if_neg (fun h => hj h.symm)]
  · intro k sc1 r hget
    obtain ⟨i, s, s1, hi, -, -, rfl⟩ := ShardedCache.Get_some hget
    refine ⟨i, hi, by simp, ?_⟩
    intro j hj
    simp only [List.getElem?_set]
    rw [if_neg (fun h => hj h.symm)]

theorem router_keys_in_own_shard_witness :
    ∃ sc, (NewShardedCache 2 4).run [Call.set [97] Order.zero, Call.get [97],
        Call.set [98] Order.zero] = some sc ∧
      (∃ (i : Nat) (s : LRUCache), sc.shards[i]? = some s ∧ s.stored [97]) ∧
      (∀ (i : Nat) (s : LRUCache) (key : GoString), sc.shards[i]? = some s → s.stored key →
        sc.getShardIndex key = some i) ∧
      (∀ (i j : Nat) (s t : LRUCache) (key : GoString), sc.shards[i]? = some s →
        sc.shards[j]? = some t → s.stored key → t.stored key → i = j) ∧
      (sc.numShards ≠ 0 → ∀ k : GoString,
        (∀ v, ∃ sc1, sc.Set k v = some sc1) ∧ ∃ sc1 r, sc.Get k = some (sc1, r)) ∧
      (∀ (k : GoString) (v : Order) (sc1 : ShardedCache), sc.Set k v = some sc1 →
        ∃ i, sc.getShardIndex k = some i ∧ sc1.shards.length = sc.shards.length ∧
          ∀ j, j ≠ i → sc1.shards[j]? = sc.shards[j]?) ∧
      (∀ (k : GoString) (sc1 : ShardedCache) (r : Order × Bool), sc.Get k = some (sc1, r) →
        ∃ i, sc.getShardIndex k = some i ∧ sc1.shards.length = sc.shards.length ∧
          ∀ j, j ≠ i → sc1.shards[j]? = sc.shards[j]?) :=
  ⟨_, rfl, ⟨fnv1a32 [97] % 4, _, rfl, by decide⟩,
    router_keys_in_own_shard 2 4
      [Call.set [97] Order.zero, Call.get [97], Call.set [98] Order.zero] _ rfl⟩

/-! ## The claim about the cache sizes at startup -/

/-- For a shard count other than zero the startup computation returns: the
capacity per shard is the Go quotient `CacheCapacity / CacheNumShards`, raised
to 1 if it is less, and the router is built with the configured count, which
`NewShardedCache` corrects to 1 if it is negative. -/
theorem app.NewCache_nonzero (cfg : Config) (h : cfg.CacheNumShards ≠ 0) :
    app.NewCache cfg
      = some (max 1 (wrapInt64 (Int.tdiv cfg.CacheCapacity cfg.CacheNumShards)),
          NewShardedCache (max 1 (wrapInt64 (Int.tdiv cfg.CacheCapacity cfg.CacheNumShards)))
            (max cfg.CacheNumShards 1)) := by
  have hmax : ∀ q : Int, (if q < 1 then 1 else q) = max 1 q := by
    intro q
    by_cases hq : q < 1
    · rw [if_pos hq, max_eq_left (by omega)]
    · rw [if_neg hq, max_eq_right (by omega)]
  simp only [app.NewCache, goIntDiv, h, if_false, hmax, NewShardedCache_clamp]

/-- C22, the code at the failing input: with `CacheNumShards = 0`, a value that
`getEnvAsInt` returns when the variable `CACHE_NUM_SHARDS` holds a text that
`Atoi` parses to 0, the division `CacheCapacity / CacheNumShards` of `app.New`
panics, for every `CacheCapacity`, so no capacity is computed and
`NewShardedCache` is not reached; called with the count 0, `NewShardedCache`
would have built the router with one shard; a negative count such as -4 does
reach it and is corrected to 1. -/
theorem app_new_zero_shards_panics :
    (∀ fallback : Int, getEnvAsInt (some [48]) (fun _ => Except.ok 0) fallback = 0) ∧
      (∀ capacity : Int, app.NewCache (Config.withCache capacity 0) = none) ∧
      app.NewCache (Config.withCache 128 0) = none ∧
      (NewShardedCache 1 0).numShards = 1 ∧
      (NewShardedCache 1 0).shards.length = 1 ∧
      app.NewCache (Config.withCache 128 (-4)) = some (1, NewShardedCache 1 1) :=
  ⟨fun _ => rfl, fun _ => rfl, rfl, rfl, rfl, by decide⟩

end OrderService
